import Mathlib

/-!
# FileCollector: reassembly of a file from out-of-order chunks

A shallow embedding of `FileCollector.cpp` / `FileCollector.h`.

* `size_t` values are natural numbers below `SIZE_MOD = 2 ^ 64`; every `size_t`
  addition and subtraction of the source is written with `addSz` / `subSz`,
  which wrap modulo `SIZE_MOD`.
* `std::vector<uint8_t>` is `List Byte`; `std::copy` into a vector is `copyAt`,
  which faults when it would write past the end of the destination.
* `std::map<size_t, std::vector<uint8_t>>` is the list of its entries in key
  order; an iterator into it is a `Cursor` (entries before, entry at, entries after).
* `std::shared_ptr<FileData>` is an address into `State.heap`, a store of
  `FileData` objects that is only ever extended; the registry `files` maps a
  file id to such an address.
* In `State`, `step` and `run` every call runs atomically (the mutexes serialise
  the calls); a call returns the state it leaves behind together with `Except.ok`
  or the fault it raised.
* In `Config` and `stepThread` the calls of several threads are interleaved at the
  points where a mutex is taken or released and where the promise is set; the
  owners of `globalMutex` and of each `FileData::mtx` are part of the configuration.
-/

namespace FileCollector

/-! ## Machine integers and byte vectors -/

/-- Number of values of `size_t` (64-bit target). -/
def SIZE_MOD : Nat := 2 ^ 64

/-- Number of values of `uint32_t`. -/
def UINT32_MOD : Nat := 2 ^ 32

/-- Addition of two `size_t` values: wraps modulo `SIZE_MOD`. -/
def addSz (a b : Nat) : Nat := (a + b) % SIZE_MOD

/-- Subtraction of two `size_t` values: wraps modulo `SIZE_MOD`. -/
def subSz (a b : Nat) : Nat := (a + SIZE_MOD - b % SIZE_MOD) % SIZE_MOD

abbrev Byte := UInt8

/-- What a call can raise. The first two are the `std::runtime_error`s thrown by
`CollectFile` and `GetFile`; the next two are the `std::future_error`s of
`promise::get_future` and `promise::set_value`; `outOfBounds` is a `std::copy`
that writes past the end of its destination (undefined behaviour in the source);
`invalidPointer` is a registry entry whose address is not in the heap (a
`shared_ptr` never dangles, so this marks an ill-formed model state). -/
inductive Fault where
  | alreadyInProgress
  | unknownFile
  | futureAlreadyRetrieved
  | promiseAlreadySatisfied
  | outOfBounds
  | invalidPointer
deriving DecidableEq, Repr

deriving instance DecidableEq for Except

/-- Whether the fault is a `std::runtime_error`. -/
def Fault.isRuntimeError : Fault → Bool
  | .alreadyInProgress => true
  | .unknownFile => true
  | _ => false

/-- The call `v.resize(n)` on a byte vector: truncates, or pads with zero bytes. -/
def resize (v : List Byte) (n : Nat) : List Byte :=
  v.take n ++ List.replicate (n - v.length) 0

/-- The call `std::copy(src.begin(), src.end(), dst.begin() + off)`: overwrites
`dst[off .. off + src.size())`, and faults when that range leaves `dst`. -/
def copyAt (dst : List Byte) (off : Nat) (src : List Byte) : Except Fault (List Byte) :=
  if off + src.length ≤ dst.length then
    .ok (dst.take off ++ src ++ dst.drop (off + src.length))
  else
    .error .outOfBounds

/-! ## Data model -/

/-- One entry of `FileData::segments`: start offset and bytes. -/
abbrev Segment := Nat × List Byte

/-- The `std::promise<std::vector<uint8_t>>` of a `FileData`: the value of its
shared state (the result slot) and whether `get_future` has been called. -/
structure Promise where
  value : Option (List Byte)
  retrieved : Bool
deriving DecidableEq, Repr

/-- The call `promise.set_value(v)`. -/
def Promise.set_value (p : Promise) (v : List Byte) : Except Fault Promise :=
  match p.value with
  | some _ => .error .promiseAlreadySatisfied
  | none => .ok { p with value := some v }

/-- The call `promise.get_future()`. -/
def Promise.get_future (p : Promise) : Except Fault Promise :=
  if p.retrieved then .error .futureAlreadyRetrieved else .ok { p with retrieved := true }

/-- The struct `FileCollector::FileData` (its mutex apart). -/
structure FileData where
  fileSize : Nat
  segments : List Segment
  done : Bool
  promise : Promise
deriving DecidableEq, Repr

/-- The constructor `FileData(size_t size)`. -/
def FileData.new (size : Nat) : FileData :=
  { fileSize := size, segments := [], done := false, promise := { value := none, retrieved := false } }

/-- The object `FileCollector`: the registry `files` (entries in key order, each
mapping a file id to the address of its `FileData`) and the store of `FileData` objects. -/
structure State where
  files : List (Nat × Nat)
  heap : List FileData
deriving DecidableEq, Repr

/-- A freshly constructed `FileCollector`. -/
def State.empty : State := { files := [], heap := [] }

/-! ## The registry `std::map<uint32_t, std::shared_ptr<FileData>>` -/

/-- The call `files.find(fileId)`: the address stored under the id, if any. -/
def regFind : List (Nat × Nat) → Nat → Option Nat
  | [], _ => none
  | (k, a) :: rest, fileId => if k = fileId then some a else regFind rest fileId

/-- The assignment `files[fileId] = addr`: inserts in key order, or overwrites. -/
def regAssign : List (Nat × Nat) → Nat → Nat → List (Nat × Nat)
  | [], fileId, addr => [(fileId, addr)]
  | (k, a) :: rest, fileId, addr =>
    if fileId < k then (fileId, addr) :: (k, a) :: rest
    else if fileId = k then (k, addr) :: rest
    else (k, a) :: regAssign rest fileId addr

/-- The call `files.erase(fileId)`. -/
def regErase : List (Nat × Nat) → Nat → List (Nat × Nat)
  | [], _ => []
  | (k, a) :: rest, fileId => if k = fileId then regErase rest fileId else (k, a) :: regErase rest fileId

/-! ## The segment map and its iterators -/

/-- A segment map together with an iterator `currentIt` into it: the entries
before the iterator, the entry it points to, and the entries after it. -/
structure Cursor where
  before : List Segment
  cur : Segment
  after : List Segment
deriving DecidableEq, Repr

/-- The call `segments.emplace(pos, chunk).first`: inserts `(pos, chunk)` at its
place in key order unless the key `pos` is already present, in which case the
map is unchanged (the chunk is dropped); the iterator points to the entry with key `pos`. -/
def emplace : List Segment → Nat → List Byte → Cursor
  | [], pos, chunk => { before := [], cur := (pos, chunk), after := [] }
  | s :: rest, pos, chunk =>
    if pos < s.1 then { before := [], cur := (pos, chunk), after := s :: rest }
    else if pos = s.1 then { before := [], cur := s, after := rest }
    else
      let c := emplace rest pos chunk
      { before := s :: c.before, cur := c.cur, after := c.after }

/-- Lines 60-62 and 96-98 of `OnNewChunk`: the offset from which the second
segment's bytes are copied, the end of the first segment unless the second starts later. -/
def overlapPosOf (firstEnd secondStart : Nat) : Nat :=
  if firstEnd < secondStart then secondStart else firstEnd

/-- Lines 63-64 and 99-100 of `OnNewChunk`: the index in the second segment of the
first byte copied. -/
def offsetInOf (overlapPos secondStart : Nat) : Nat :=
  if overlapPos > secondStart then subSz overlapPos secondStart else 0

/-- Lines 52-69 and 88-104 of `OnNewChunk`: the merged buffer of a segment
`first` (from `firstStart` to `firstEnd`) and the segment `second` that starts
at `secondStart <= firstEnd` and ends at `secondEnd`: all of `first`, then the
bytes of `second` from `firstEnd` on. Returns `mergedEnd` and the buffer. -/
def fuse (firstStart firstEnd : Nat) (first : List Byte)
    (secondStart secondEnd : Nat) (second : List Byte) : Except Fault (Nat × List Byte) :=
  let mergedStart := firstStart
  let mergedEnd := max firstEnd secondEnd
  match copyAt (resize [] (subSz mergedEnd mergedStart)) 0 first with
  | .error e => .error e
  | .ok mergedData =>
    let overlapPos := overlapPosOf firstEnd secondStart
    let offsetInSecond := offsetInOf overlapPos secondStart
    if offsetInSecond < second.length then
      match copyAt mergedData (subSz overlapPos mergedStart) (second.drop offsetInSecond) with
      | .error e => .error e
      | .ok mergedData => .ok (mergedEnd, mergedData)
    else
      .ok (mergedEnd, mergedData)

/-- Lines 43-77 of `OnNewChunk`: fuses the entry at `currentIt` into the entry
before it when that one ends at or after `currStart`. Returns the cursor
(its entry is `*currentIt`, so `currStart` is its key) and `currEnd`. -/
def mergeWithPrev (c : Cursor) : Except Fault (Cursor × Nat) :=
  let currStart := c.cur.1
  let currEnd := addSz currStart c.cur.2.length
  match c.before.getLast? with
  | none => .ok (c, currEnd)
  | some prev =>
    let prevStart := prev.1
    let prevEnd := addSz prevStart prev.2.length
    if prevEnd ≥ currStart then
      match fuse prevStart prevEnd prev.2 currStart currEnd c.cur.2 with
      | .error e => .error e
      | .ok (_, mergedData) =>
        .ok ({ before := c.before.dropLast, cur := (prevStart, mergedData), after := c.after },
          addSz prevStart mergedData.length)
    else
      .ok (c, currEnd)

/-- Lines 79-114 of `OnNewChunk`: the loop that fuses into the current entry
(key `currStart`, bytes `curData`, end `currEnd`) every following entry that
starts at or before `currEnd`. Returns the bytes of the current entry and the
entries left after it. Each iteration that continues erases the head of `after`. -/
def mergeForward (currStart : Nat) : Nat → List Byte → List Segment →
    Except Fault (List Byte × List Segment)
  | _, curData, [] => .ok (curData, [])
  | currEnd, curData, next :: rest =>
    let nextStart := next.1
    let nextEnd := addSz nextStart next.2.length
    if nextStart ≤ currEnd then
      match fuse currStart currEnd curData nextStart nextEnd next.2 with
      | .error e => .error e
      | .ok (mergedEnd, mergedData) => mergeForward currStart mergedEnd mergedData rest
    else
      .ok (curData, next :: rest)

/-- Lines 42-114 of `OnNewChunk`: the segment map after the (clamped, non-empty)
chunk has been inserted and merged. -/
def mergeSegments (segs : List Segment) (pos : Nat) (chunk : List Byte) :
    Except Fault (List Segment) :=
  match mergeWithPrev (emplace segs pos chunk) with
  | .error e => .error e
  | .ok (c, currEnd) =>
    match mergeForward c.cur.1 currEnd c.cur.2 c.after with
    | .error e => .error e
    | .ok (curData, after) => .ok (c.before ++ (c.cur.1, curData) :: after)

/-- Lines 31-40 of `OnNewChunk`: the chunk after clamping to the file size, or
`none` when the call returns without touching the segments. -/
def clampChunk (fileSize pos : Nat) (chunk : List Byte) : Option (List Byte) :=
  if pos ≥ fileSize then none
  else
    let chunk := if addSz pos chunk.length > fileSize then resize chunk (subSz fileSize pos) else chunk
    if chunk.isEmpty then none else some chunk

/-- Whether the segment map is one segment that starts at 0 and has `fileSize` bytes
(the test of lines 116-119). -/
def isWhole (fileSize : Nat) (segs : List Segment) : Bool :=
  match segs with
  | [(k, d)] => k == 0 && d.length == fileSize
  | _ => false

/-- Lines 25-127 of `OnNewChunk`, on the `FileData` the registry lookup found:
the `FileData` the call leaves behind, and either a fault or whether the call
completed the file (so that the caller goes on to `files.erase(fileId)`).
After `outOfBounds` the returned `FileData` is meaningless. -/
def deliver (fd : FileData) (pos : Nat) (chunk : List Byte) : FileData × Except Fault Bool :=
  if fd.done then (fd, .ok false)
  else
    match clampChunk fd.fileSize pos chunk with
    | none => (fd, .ok false)
    | some chunk =>
      match mergeSegments fd.segments pos chunk with
      | .error e => (fd, .error e)
      | .ok segs =>
        match segs with
        | [(k, completeFile)] =>
          if k = 0 ∧ completeFile.length = fd.fileSize then
            match fd.promise.set_value completeFile with
            | .error e => ({ fd with segments := [], done := true }, .error e)
            | .ok p => ({ fd with segments := [], done := true, promise := p }, .ok true)
          else ({ fd with segments := segs }, .ok false)
        | _ => ({ fd with segments := segs }, .ok false)

/-! ## The three operations -/

/-- The method `FileCollector::CollectFile`. -/
def CollectFile (s : State) (fileId fileSize : Nat) : State × Except Fault Unit :=
  match regFind s.files fileId with
  | some _ => (s, .error .alreadyInProgress)
  | none =>
    ({ files := regAssign s.files fileId s.heap.length, heap := s.heap ++ [FileData.new fileSize] },
      .ok ())

/-- The method `FileCollector::OnNewChunk`. -/
def OnNewChunk (s : State) (fileId pos : Nat) (chunk : List Byte) : State × Except Fault Unit :=
  match regFind s.files fileId with
  | none => (s, .ok ())
  | some addr =>
    match s.heap[addr]? with
    | none => (s, .error .invalidPointer)
    | some fd =>
      match deliver fd pos chunk with
      | (fd', .error e) => ({ s with heap := s.heap.set addr fd' }, .error e)
      | (fd', .ok false) => ({ s with heap := s.heap.set addr fd' }, .ok ())
      | (fd', .ok true) => ({ files := regErase s.files fileId, heap := s.heap.set addr fd' }, .ok ())

/-- The method `FileCollector::GetFile`; the future it returns is the address of
the `FileData` whose promise it belongs to. -/
def GetFile (s : State) (fileId : Nat) : State × Except Fault Nat :=
  match regFind s.files fileId with
  | none => (s, .error .unknownFile)
  | some addr =>
    match s.heap[addr]? with
    | none => (s, .error .invalidPointer)
    | some fd =>
      match fd.promise.get_future with
      | .error e => (s, .error e)
      | .ok p => ({ s with heap := s.heap.set addr { fd with promise := p } }, .ok addr)

/-! ## Runs -/

/-- A call of one of the three methods. -/
inductive Call where
  | collectFile (fileId fileSize : Nat)
  | onNewChunk (fileId pos : Nat) (chunk : List Byte)
  | getFile (fileId : Nat)
deriving DecidableEq, Repr

/-- The arguments fit their C++ types (`uint32_t`, `size_t`, and a vector whose
size is a `size_t`). -/
def Call.wellTyped : Call → Prop
  | .collectFile fileId fileSize => fileId < UINT32_MOD ∧ fileSize < SIZE_MOD
  | .onNewChunk fileId pos chunk => fileId < UINT32_MOD ∧ pos < SIZE_MOD ∧ chunk.length < SIZE_MOD
  | .getFile fileId => fileId < UINT32_MOD

instance (c : Call) : Decidable c.wellTyped := by
  cases c <;> unfold Call.wellTyped <;> infer_instance

/-- The state after a call and the fault it raised, if any. -/
def step (s : State) : Call → State × Option Fault
  | .collectFile fileId fileSize =>
    match CollectFile s fileId fileSize with
    | (s', .ok _) => (s', none)
    | (s', .error e) => (s', some e)
  | .onNewChunk fileId pos chunk =>
    match OnNewChunk s fileId pos chunk with
    | (s', .ok _) => (s', none)
    | (s', .error e) => (s', some e)
  | .getFile fileId =>
    match GetFile s fileId with
    | (s', .ok _) => (s', none)
    | (s', .error e) => (s', some e)

/-- The state after a sequence of calls, each run on the state the previous one left
(an exception is caught by the caller and the run goes on). -/
def run (s : State) : List Call → State
  | [] => s
  | c :: cs => run (step s c).1 cs

/-- The states a `FileCollector` can be in: those a sequence of well-typed calls
leads to from the freshly constructed object, no call having run into undefined behaviour. -/
inductive Reachable : State → Prop where
  | init : Reachable State.empty
  | step (s : State) (c : Call) : Reachable s → c.wellTyped →
      (step s c).2 ≠ some Fault.outOfBounds → Reachable (step s c).1

/-- The segments after lines 31-114 of `OnNewChunk` on an incomplete file: unchanged
when the chunk is dropped by the clamp, merged otherwise. -/
def mergedSegments (fd : FileData) (pos : Nat) (chunk : List Byte) : Except Fault (List Segment) :=
  match clampChunk fd.fileSize pos chunk with
  | none => .ok fd.segments
  | some c => mergeSegments fd.segments pos c

/-- The segments are non-empty, lie within `[0, n)`, and each ends strictly before
every later one starts. -/
def SegInv (n : Nat) (segs : List Segment) : Prop :=
  segs.Pairwise (fun a b => a.1 + a.2.length < b.1) ∧
    ∀ a ∈ segs, a.2 ≠ [] ∧ a.1 + a.2.length ≤ n

/-- What holds of every registered file in a reachable state: its address is in the
heap, distinct ids have distinct addresses, and the `FileData` is not done, has an
empty result slot, a size that fits `size_t`, and segments that are not the whole file. -/
def RegInv (s : State) : Prop :=
  (∀ id addr, regFind s.files id = some addr →
    ∃ fd, s.heap[addr]? = some fd ∧ fd.done = false ∧ fd.promise.value = none ∧
      isWhole fd.fileSize fd.segments = false) ∧
  (∀ id id' addr, regFind s.files id = some addr → regFind s.files id' = some addr → id = id')

/-- What holds of the cursor and of `currEnd` between the steps of a merge: the entries
before and after the iterator satisfy `SegInv`, the entry at the iterator is non-empty, ends
at `currEnd` within `[0, n]` and starts after every earlier entry ends, and every later
entry starts after it starts and after every earlier entry ends. -/
def CursorInv (n : Nat) (c : Cursor) (currEnd : Nat) : Prop :=
  SegInv n c.before ∧ SegInv n c.after ∧ c.cur.2 ≠ [] ∧
    currEnd = c.cur.1 + c.cur.2.length ∧ currEnd ≤ n ∧
    (∀ b ∈ c.before, b.1 + b.2.length < c.cur.1) ∧
    (∀ a ∈ c.after, c.cur.1 < a.1) ∧
    (∀ b ∈ c.before, ∀ a ∈ c.after, b.1 + b.2.length < a.1)

/-- The chunk of an `OnNewChunk` call is such that `pos + chunk.size()` does not wrap. -/
def Call.inRange : Call → Prop
  | .onNewChunk _ pos chunk => pos + chunk.length < SIZE_MOD
  | _ => True

instance (c : Call) : Decidable c.inRange := by
  cases c <;> unfold Call.inRange <;> infer_instance

/-- The states reached by well-typed calls in none of which `pos + chunk.size()` wraps. -/
inductive ReachableInRange : State → Prop where
  | init : ReachableInRange State.empty
  | step (s : State) (c : Call) : ReachableInRange s → c.wellTyped → c.inRange →
      ReachableInRange (step s c).1

/-- Every `FileData` has a size that fits `size_t` and segments that satisfy `SegInv`. -/
def HeapInv (s : State) : Prop :=
  ∀ fd ∈ s.heap, fd.fileSize < SIZE_MOD ∧ SegInv fd.fileSize fd.segments

/-- Every result slot that holds a value holds as many bytes as the file has. -/
def ResultInv (s : State) : Prop :=
  ∀ fd ∈ s.heap, ∀ d, fd.promise.value = some d → d.length = fd.fileSize

/-- The offset `x` lies in one of the segments. -/
def covered (segs : List Segment) (x : Nat) : Prop :=
  ∃ a ∈ segs, a.1 ≤ x ∧ x < a.1 + a.2.length

/-- The bytes of the segment are the bytes of `F` at the segment's offsets. -/
def sliceOf (F : List Byte) (a : Segment) : Prop :=
  ∀ i, i < a.2.length → a.2[i]? = F[a.1 + i]?

/-- The file `F` is being reassembled under the id `fileId` at the address `addr`, the
chunks `delivered` having been delivered: the `FileData` is not done, its result slot is
empty, its segments satisfy `SegInv`, are not the whole file, are slices of `F`, cover
exactly what the delivered chunks cover, and start where delivered chunks start. -/
def Assembling (F : List Byte) (fileId addr : Nat) (s : State)
    (delivered : List (Nat × List Byte)) : Prop :=
  regFind s.files fileId = some addr ∧
    ∃ fd, s.heap[addr]? = some fd ∧ fd.fileSize = F.length ∧ fd.done = false ∧
      fd.promise = { value := none, retrieved := false } ∧
      SegInv F.length fd.segments ∧ isWhole F.length fd.segments = false ∧
      (∀ a ∈ fd.segments, sliceOf F a) ∧
      (∀ x, covered fd.segments x ↔ covered delivered x) ∧
      (∀ a ∈ fd.segments, ∃ c ∈ delivered, c.1 = a.1)

/-- The file `F` has been reassembled: the id is no longer registered and the `FileData`
at the address `addr` is done, without segments, with `F` in its result slot. -/
def Assembled (F : List Byte) (fileId addr : Nat) (s : State) : Prop :=
  regFind s.files fileId = none ∧
    s.heap[addr]? = some { fileSize := F.length, segments := [], done := true,
                           promise := { value := some F, retrieved := false } }

/-- The calls that deliver the chunks, in the order of the list. -/
def deliveries (fileId : Nat) (chunks : List (Nat × List Byte)) : List Call :=
  chunks.map (fun c => Call.onNewChunk fileId c.1 c.2)

/-- A sequence of deliveries to one `FileData` (the calls of `OnNewChunk` of callers that
hold a reference to it), each on the `FileData` the previous one left: the `FileData` at the
end and the number of deliveries that completed the file. -/
def deliverAll (fd : FileData) : List (Nat × List Byte) → FileData × Nat
  | [] => (fd, 0)
  | c :: cs =>
    let r := deliver fd c.1 c.2
    let rest := deliverAll r.1 cs
    (rest.1, (if r.2 = .ok true then 1 else 0) + rest.2)

/-- Lines 25-132 of `OnNewChunk` for a caller that holds the reference `addr` to the
`FileData` (whatever the registry holds by now): the delivery, then `files.erase(fileId)`
when the delivery completed the file. -/
def onNewChunkAt (s : State) (fileId addr pos : Nat) (chunk : List Byte) :
    State × Except Fault Unit :=
  match s.heap[addr]? with
  | none => (s, .error .invalidPointer)
  | some fd =>
    match deliver fd pos chunk with
    | (fd', .error e) => ({ s with heap := s.heap.set addr fd' }, .error e)
    | (fd', .ok false) => ({ s with heap := s.heap.set addr fd' }, .ok ())
    | (fd', .ok true) => ({ files := regErase s.files fileId, heap := s.heap.set addr fd' }, .ok ())

/-- The file id a call is about. -/
def Call.target : Call → Nat
  | .collectFile fileId _ => fileId
  | .onNewChunk fileId _ _ => fileId
  | .getFile fileId => fileId

/-- The file `fileId` is registered at `addr` with size 0, no segments, not done and an
empty result slot. -/
def EmptyForever (fileId addr : Nat) (s : State) : Prop :=
  regFind s.files fileId = some addr ∧
    ∃ r, s.heap[addr]? = some { fileSize := 0, segments := [], done := false,
                                promise := { value := none, retrieved := r } }

/-- The number of times the body of the loop of lines 79-114 is entered (the pass that
leaves the loop, or runs into a fault, included), for the arguments of `mergeForward`. -/
def forwardIterations (currStart : Nat) : Nat → List Byte → List Segment → Nat
  | _, _, [] => 1
  | currEnd, curData, next :: rest =>
    if next.1 ≤ currEnd then
      match fuse currStart currEnd curData next.1 (addSz next.1 next.2.length) next.2 with
      | .error _ => 1
      | .ok (mergedEnd, mergedData) => 1 + forwardIterations currStart mergedEnd mergedData rest
    else 1

/-- The segment `a` starts before `b` and, as lines 49 and 85 compute its end (a `size_t`
sum, which may wrap), ends before `b` starts. -/
def endsBefore (a b : Segment) : Prop :=
  a.1 < b.1 ∧ addSz a.1 a.2.length < b.1

/-- What holds of the segments of every `FileData` in every reachable state, wrapping
chunks or not: start offsets fit `size_t` and ascend, and no segment reaches a later one
in `size_t` arithmetic. -/
def CalcInv (segs : List Segment) : Prop :=
  segs.Pairwise endsBefore ∧ ∀ a ∈ segs, a.1 < SIZE_MOD

/-- The segments of every `FileData` satisfy `CalcInv`. -/
def HeapCalc (s : State) : Prop :=
  ∀ fd ∈ s.heap, CalcInv fd.segments

/-- An operation of `OnNewChunk` that is defined only for some operands: the unsigned
subtraction `a - b`, and the `std::copy` of `len` bytes to the position `off` of a buffer
of `bufLen` bytes. -/
inductive Op where
  | sub (a b : Nat)
  | copy (bufLen off len : Nat)
deriving DecidableEq, Repr

/-- The subtractions and copies of lines 52-69 and 88-104 (the body of `fuse`), in program
order, with the operands they get. -/
def fuseOps (firstStart firstEnd : Nat) (first : List Byte)
    (secondStart secondEnd : Nat) (second : List Byte) : List Op :=
  let mergedStart := firstStart
  let mergedEnd := max firstEnd secondEnd
  let bufLen := (resize [] (subSz mergedEnd mergedStart)).length
  let overlapPos := overlapPosOf firstEnd secondStart
  let offsetInSecond := offsetInOf overlapPos secondStart
  [Op.sub mergedEnd mergedStart, Op.copy bufLen 0 first.length] ++
  (if overlapPos > secondStart then [Op.sub overlapPos secondStart] else []) ++
  (if offsetInSecond < second.length then
    [Op.sub overlapPos mergedStart,
     Op.copy bufLen (subSz overlapPos mergedStart) (second.drop offsetInSecond).length]
   else [])

/-- The byte the segment holds for the offset `x`, if `x` lies in the segment. -/
def byteAt (a : Segment) (x : Nat) : Option Byte :=
  if a.1 ≤ x then a.2[x - a.1]? else none

/-- Some segment holds the byte `v` for the offset `x`. -/
def stored (segs : List Segment) (x : Nat) (v : Byte) : Prop :=
  ∃ a ∈ segs, byteAt a x = some v

/-! ## The calls as interleaved steps

The three methods run by several threads. A step of a thread is what it does between two
points at which another thread can interfere: taking a mutex, the statements run while
holding a mutex up to its release, `lock.unlock()`, and `promise.set_value`. -/

/-- Where a thread is in the call it runs, with the locals it holds (`fileData` is the
address `addr`). -/
inductive Pc where
  /-- Between calls. -/
  | idle
  /-- `CollectFile`, line 4: about to lock `globalMutex`. -/
  | cfStart (fileId fileSize : Nat)
  /-- `CollectFile`, lines 5-8, holding `globalMutex`. -/
  | cfBody (fileId fileSize : Nat)
  /-- `OnNewChunk`, line 16: about to lock `globalMutex`. -/
  | oncStart (fileId pos : Nat) (chunk : List Byte)
  /-- `OnNewChunk`, lines 17-22, holding `globalMutex`. -/
  | oncFind (fileId pos : Nat) (chunk : List Byte)
  /-- `OnNewChunk`, line 25: about to lock `fileData->mtx`. -/
  | oncLock (fileId addr pos : Nat) (chunk : List Byte)
  /-- `OnNewChunk`, lines 26-124, holding `fileData->mtx`. -/
  | oncBody (fileId addr pos : Nat) (chunk : List Byte)
  /-- `OnNewChunk`, line 126: about to call `lock.unlock()`. -/
  | oncUnlock (fileId addr : Nat) (completeFile : List Byte)
  /-- `OnNewChunk`, line 127: about to call `promise.set_value`. -/
  | oncSetValue (fileId addr : Nat) (completeFile : List Byte)
  /-- `OnNewChunk`, line 129: about to lock `globalMutex`. -/
  | oncGLock (fileId addr : Nat)
  /-- `OnNewChunk`, line 130, holding `globalMutex`. -/
  | oncErase (fileId addr : Nat)
  /-- `GetFile`, line 138: about to lock `globalMutex`. -/
  | gfStart (fileId : Nat)
  /-- `GetFile`, lines 139-143, holding `globalMutex`. -/
  | gfFind (fileId : Nat)
  /-- `GetFile`, line 146: about to lock `fileData->mtx`. -/
  | gfLock (fileId addr : Nat)
  /-- `GetFile`, line 148, holding `fileData->mtx`. -/
  | gfBody (fileId addr : Nat)
deriving DecidableEq, Repr

/-- A thread: where it is, and the calls it goes on to make. -/
structure Thread where
  pc : Pc
  todo : List Call
deriving DecidableEq, Repr

/-- The object `FileCollector` shared by the threads: its data, the owner of
`globalMutex`, the owner of the mutex `mtx` of the `FileData` at each address, and the
threads. A thread is named by its index in `threads`. -/
structure Config where
  st : State
  globalMutex : Option Nat
  mtx : Nat → Option Nat
  threads : List Thread

/-- The first point of a call. -/
def Pc.start : Call → Pc
  | .collectFile fileId fileSize => .cfStart fileId fileSize
  | .onNewChunk fileId pos chunk => .oncStart fileId pos chunk
  | .getFile fileId => .gfStart fileId

/-- The owners of the per-file mutexes after the mutex at `addr` got the owner `o`. -/
def setOwner (m : Nat → Option Nat) (addr : Nat) (o : Option Nat) : Nat → Option Nat :=
  fun a => if a = addr then o else m a

/-- What lines 26-124 of `OnNewChunk` come to, run under the per-file lock. -/
inductive BodyResult where
  /-- The call returns (lines 28, 32, 39, or past the test of lines 116-119). -/
  | returned (fd : FileData)
  /-- Lines 121-124 have run: `done` is set, the segments are cleared, and
  `completeFile` holds the bytes. -/
  | completed (fd : FileData) (completeFile : List Byte)
  /-- A copy left its buffer. -/
  | undefined
deriving DecidableEq, Repr

/-- Lines 26-124 of `OnNewChunk` on the `FileData` whose mutex the thread holds. -/
def body (fd : FileData) (pos : Nat) (chunk : List Byte) : BodyResult :=
  if fd.done then .returned fd
  else
    match clampChunk fd.fileSize pos chunk with
    | none => .returned fd
    | some chunk =>
      match mergeSegments fd.segments pos chunk with
      | .error _ => .undefined
      | .ok segs =>
        match segs with
        | [(k, completeFile)] =>
          if k = 0 ∧ completeFile.length = fd.fileSize then
            .completed { fd with segments := [], done := true } completeFile
          else .returned { fd with segments := segs }
        | _ => .returned { fd with segments := segs }

/-- One step of the thread `t`, or `none` when the thread cannot take a step: it does not
exist, has no call left, waits for a mutex another thread owns, or has run into undefined
behaviour. -/
def stepThread (c : Config) (t : Nat) : Option Config :=
  match c.threads[t]? with
  | none => none
  | some th =>
    match th.pc with
    | .idle =>
      match th.todo with
      | [] => none
      | call :: rest =>
        some { c with threads := c.threads.set t { pc := Pc.start call, todo := rest } }
    | .cfStart fileId fileSize =>
      if c.globalMutex = none then
        some { c with globalMutex := some t,
                      threads := c.threads.set t { th with pc := .cfBody fileId fileSize } }
      else none
    | .cfBody fileId fileSize =>
      some { c with st := (CollectFile c.st fileId fileSize).1,
                    globalMutex := none,
                    threads := c.threads.set t { th with pc := .idle } }
    | .oncStart fileId pos chunk =>
      if c.globalMutex = none then
        some { c with globalMutex := some t,
                      threads := c.threads.set t { th with pc := .oncFind fileId pos chunk } }
      else none
    | .oncFind fileId pos chunk =>
      match regFind c.st.files fileId with
      | none =>
        some { c with globalMutex := none,
                      threads := c.threads.set t { th with pc := .idle } }
      | some addr =>
        some { c with globalMutex := none,
                      threads := c.threads.set t { th with pc := .oncLock fileId addr pos chunk } }
    | .oncLock fileId addr pos chunk =>
      if c.mtx addr = none then
        some { c with mtx := setOwner c.mtx addr (some t),
                      threads := c.threads.set t { th with pc := .oncBody fileId addr pos chunk } }
      else none
    | .oncBody fileId addr pos chunk =>
      match c.st.heap[addr]? with
      | none => none
      | some fd =>
        match body fd pos chunk with
        | .undefined => none
        | .returned fd' =>
          some { c with st := { c.st with heap := c.st.heap.set addr fd' },
                        mtx := setOwner c.mtx addr none,
                        threads := c.threads.set t { th with pc := .idle } }
        | .completed fd' completeFile =>
          some { c with st := { c.st with heap := c.st.heap.set addr fd' },
                        threads := c.threads.set t
                          { th with pc := .oncUnlock fileId addr completeFile } }
    | .oncUnlock fileId addr completeFile =>
      some { c with mtx := setOwner c.mtx addr none,
                    threads := c.threads.set t
                      { th with pc := .oncSetValue fileId addr completeFile } }
    | .oncSetValue fileId addr completeFile =>
      match c.st.heap[addr]? with
      | none => none
      | some fd =>
        match fd.promise.set_value completeFile with
        | .error _ => some { c with threads := c.threads.set t { th with pc := .idle } }
        | .ok p =>
          some { c with st := { c.st with heap := c.st.heap.set addr { fd with promise := p } },
                        threads := c.threads.set t { th with pc := .oncGLock fileId addr } }
    | .oncGLock fileId addr =>
      if c.globalMutex = none then
        some { c with globalMutex := some t,
                      threads := c.threads.set t { th with pc := .oncErase fileId addr } }
      else none
    | .oncErase fileId _ =>
      some { c with st := { c.st with files := regErase c.st.files fileId },
                    globalMutex := none,
                    threads := c.threads.set t { th with pc := .idle } }
    | .gfStart fileId =>
      if c.globalMutex = none then
        some { c with globalMutex := some t,
                      threads := c.threads.set t { th with pc := .gfFind fileId } }
      else none
    | .gfFind fileId =>
      match regFind c.st.files fileId with
      | none =>
        some { c with globalMutex := none,
                      threads := c.threads.set t { th with pc := .idle } }
      | some addr =>
        some { c with globalMutex := none,
                      threads := c.threads.set t { th with pc := .gfLock fileId addr } }
    | .gfLock fileId addr =>
      if c.mtx addr = none then
        some { c with mtx := setOwner c.mtx addr (some t),
                      threads := c.threads.set t { th with pc := .gfBody fileId addr } }
      else none
    | .gfBody _ addr =>
      match c.st.heap[addr]? with
      | none => none
      | some fd =>
        match fd.promise.get_future with
        | .error _ =>
          some { c with mtx := setOwner c.mtx addr none,
                        threads := c.threads.set t { th with pc := .idle } }
        | .ok p =>
          some { c with st := { c.st with heap := c.st.heap.set addr { fd with promise := p } },
                        mtx := setOwner c.mtx addr none,
                        threads := c.threads.set t { th with pc := .idle } }

/-- A freshly constructed `FileCollector` and one thread for each list of calls. -/
def Config.init (scripts : List (List Call)) : Config :=
  { st := State.empty, globalMutex := none, mtx := fun _ => none,
    threads := scripts.map (fun calls => { pc := .idle, todo := calls }) }

/-- The configurations the threads can get to, whatever the order of their steps. -/
inductive CReachable (scripts : List (List Call)) : Config → Prop where
  | init : CReachable scripts (Config.init scripts)
  | step (c : Config) (t : Nat) (c' : Config) : CReachable scripts c →
      stepThread c t = some c' → CReachable scripts c'

/-- The configuration after the threads named in the schedule have taken one step each, in
that order (a thread that cannot take a step is passed over). -/
def runSched (c : Config) : List Nat → Config
  | [] => c
  | t :: rest => runSched ((stepThread c t).getD c) rest

/-- The thread holds `globalMutex` at this point of its call. -/
def Pc.holdsGlobal : Pc → Bool
  | .cfBody _ _ => true
  | .oncFind _ _ _ => true
  | .oncErase _ _ => true
  | .gfFind _ => true
  | _ => false

/-- The address of the `FileData` whose mutex the thread holds at this point of its call. -/
def Pc.holdsMtx : Pc → Option Nat
  | .oncBody _ addr _ _ => some addr
  | .oncUnlock _ addr _ => some addr
  | .gfBody _ addr => some addr
  | _ => none

/-- The owner of each mutex is the thread that is at a point of its call between taking
the mutex and releasing it. -/
def LockInv (c : Config) : Prop :=
  (∀ t, c.globalMutex = some t ↔ ∃ th, c.threads[t]? = some th ∧ th.pc.holdsGlobal = true) ∧
  (∀ a t, c.mtx a = some t ↔ ∃ th, c.threads[t]? = some th ∧ th.pc.holdsMtx = some a)

/-- What a thread at a point of its call has to do with a `FileData`. -/
inductive Role where
  /-- Nothing. -/
  | free
  /-- It has looked the `FileData` up under the id and not yet left the part of its call
  that runs under the per-file mutex. -/
  | ref (fileId addr : Nat)
  /-- It has set `done` (line 121) and not yet written the result slot (line 127). -/
  | writer (fileId addr : Nat)
  /-- It has written the result slot (line 127) and not yet erased the id (line 130). -/
  | eraser (fileId addr : Nat)
deriving DecidableEq, Repr

/-- The role of a thread at a point of its call. -/
def Pc.role : Pc → Role
  | .oncLock fileId addr _ _ => .ref fileId addr
  | .oncBody fileId addr _ _ => .ref fileId addr
  | .gfLock fileId addr => .ref fileId addr
  | .gfBody fileId addr => .ref fileId addr
  | .oncUnlock fileId addr _ => .writer fileId addr
  | .oncSetValue fileId addr _ => .writer fileId addr
  | .oncGLock fileId addr => .eraser fileId addr
  | .oncErase fileId addr => .eraser fileId addr
  | _ => .free

/-- The flag `done` of the `FileData` at the address (`false` where there is none). -/
def doneAt (s : State) (a : Nat) : Bool :=
  match s.heap[a]? with
  | some fd => fd.done
  | none => false

/-- Whether the result slot of the `FileData` at the address holds a value. -/
def slotFull (s : State) (a : Nat) : Bool :=
  match s.heap[a]? with
  | some fd => fd.promise.value.isSome
  | none => false

/-- What holds between the registry, the flags `done`, the result slots and the points the
threads are at: ids are registered at distinct, allocated addresses; a thread that holds a
looked-up `FileData` that is not done holds it under the id it is registered under; a
thread between line 121 and line 127 holds a registered `FileData` that is done and whose
slot is empty; a thread between line 127 and line 130 holds a registered `FileData` that
is done and whose slot is written; at most one thread is between line 121 and line 130
for a `FileData`; a registered `FileData` that is done has such a thread; a written slot
belongs to a `FileData` that is done; and a `FileData` that is done with an empty slot has
a thread between line 121 and line 127. -/
structure CInv (c : Config) : Prop where
  inj : ∀ (id id' a : Nat), regFind c.st.files id = some a → regFind c.st.files id' = some a →
    id = id'
  alloc : ∀ (id a : Nat), regFind c.st.files id = some a → a < c.st.heap.length
  ref : ∀ (t : Nat) (th : Thread) (id a : Nat), c.threads[t]? = some th → th.pc.role = .ref id a →
    doneAt c.st a = false → regFind c.st.files id = some a
  writer : ∀ (t : Nat) (th : Thread) (id a : Nat), c.threads[t]? = some th → th.pc.role = .writer id a →
    regFind c.st.files id = some a ∧ doneAt c.st a = true ∧ slotFull c.st a = false
  eraser : ∀ (t : Nat) (th : Thread) (id a : Nat), c.threads[t]? = some th → th.pc.role = .eraser id a →
    regFind c.st.files id = some a ∧ doneAt c.st a = true ∧ slotFull c.st a = true
  unique : ∀ (t u : Nat) (th tu : Thread) (id id' a : Nat), c.threads[t]? = some th → c.threads[u]? = some tu →
    (th.pc.role = .writer id a ∨ th.pc.role = .eraser id a) →
    (tu.pc.role = .writer id' a ∨ tu.pc.role = .eraser id' a) → t = u
  inFlight : ∀ (id a : Nat), regFind c.st.files id = some a → doneAt c.st a = true →
    ∃ (t : Nat) (th : Thread), c.threads[t]? = some th ∧
      (th.pc.role = .writer id a ∨ th.pc.role = .eraser id a)
  slotDone : ∀ (a : Nat), slotFull c.st a = true → doneAt c.st a = true
  pending : ∀ (a : Nat), doneAt c.st a = true → slotFull c.st a = false →
    ∃ (t : Nat) (th : Thread) (id : Nat), c.threads[t]? = some th ∧ th.pc.role = .writer id a

/-- The value in the result slot of the `FileData` at the address, if it holds one. -/
def slotAt (s : State) (a : Nat) : Option (List Byte) :=
  match s.heap[a]? with
  | some fd => fd.promise.value
  | none => none

/-! ## The registry -/

theorem regFind_regAssign (m : List (Nat × Nat)) (id addr id' : Nat) :
    regFind (regAssign m id addr) id' = if id = id' then some addr else regFind m id' := by
  induction m with
  | nil => simp [regAssign, regFind]
  | cons e rest ih =>
    obtain ⟨k, a⟩ := e
    simp only [regAssign]
    by_cases h1 : id < k
    · simp only [h1, if_true, regFind]
    · by_cases h2 : id = k
      · subst h2
        simp only [h1, if_false, if_true, regFind]
        by_cases h3 : id = id' <;> simp [h3]
      · simp only [h1, h2, if_false, regFind, ih]
        by_cases h3 : k = id'
        · subst h3
          simp [h2]
        · simp [h3]

theorem regFind_regErase (m : List (Nat × Nat)) (id id' : Nat) :
    regFind (regErase m id) id' = if id = id' then none else regFind m id' := by
  induction m with
  | nil => simp [regErase, regFind]
  | cons e rest ih =>
    obtain ⟨k, a⟩ := e
    simp only [regErase]
    by_cases h1 : k = id
    · subst h1
      simp only [if_true, ih, regFind]
      by_cases h2 : k = id'
      · simp [h2]
      · simp [h2]
    · simp only [h1, if_false, regFind, ih]
      by_cases h2 : k = id'
      · subst h2
        simp
        exact fun h => h1 h.symm
      · simp [h2]

/-! ## The calls on a registered file, and what holds of every registered file -/

theorem isWhole_iff (n : Nat) (segs : List Segment) :
    isWhole n segs = true ↔ ∃ d, segs = [(0, d)] ∧ d.length = n := by
  unfold isWhole
  split
  · rename_i k d
    simp only [Bool.and_eq_true, beq_iff_eq, List.cons.injEq, Prod.mk.injEq, and_true]
    constructor
    · rintro ⟨rfl, h⟩; exact ⟨d, ⟨rfl, rfl⟩, h⟩
    · rintro ⟨d', ⟨rfl, rfl⟩, h⟩; exact ⟨rfl, h⟩
  · rename_i h
    simp only [Bool.false_eq_true, false_iff, not_exists, not_and]
    intro d hd
    exact absurd hd (h 0 d)

theorem list_set_self {α : Type} (l : List α) (i : Nat) (a : α) (h : l[i]? = some a) :
    l.set i a = l := by
  apply List.ext_getElem?
  intro j
  rw [List.getElem?_set]
  by_cases hij : i = j
  · subst hij
    obtain ⟨hlt, _⟩ := List.getElem?_eq_some.mp h
    simp [hlt, h]
  · simp [hij]

/-- The result of `deliver` on a file that is not done and whose result slot is empty. -/
theorem deliver_eq (fd : FileData) (pos : Nat) (chunk : List Byte)
    (hd : fd.done = false) (hp : fd.promise.value = none) :
    deliver fd pos chunk =
      match clampChunk fd.fileSize pos chunk with
      | none => (fd, .ok false)
      | some c =>
        match mergeSegments fd.segments pos c with
        | .error e => (fd, .error e)
        | .ok segs =>
          if isWhole fd.fileSize segs then
            ({ fd with segments := [], done := true,
                       promise := { fd.promise with value := segs.head?.map Prod.snd } }, .ok true)
          else ({ fd with segments := segs }, .ok false) := by
  unfold deliver
  simp only [hd, Bool.false_eq_true, if_false]
  cases hc : clampChunk fd.fileSize pos chunk with
  | none => rfl
  | some c =>
    simp only
    cases hm : mergeSegments fd.segments pos c with
    | error e => rfl
    | ok segs =>
      simp only
      match segs with
      | [] => simp [isWhole]
      | [(k, d)] =>
        by_cases hk : k = 0 ∧ d.length = fd.fileSize
        · obtain ⟨rfl, hlen⟩ := hk
          simp [isWhole, hlen, Promise.set_value, hp]
        · have : isWhole fd.fileSize [(k, d)] = false := by
            simp only [isWhole, Bool.and_eq_false_iff, beq_eq_false_iff_ne]
            by_cases h0 : k = 0
            · right; exact fun h => hk ⟨h0, h⟩
            · left; exact h0
          simp [this, hk]
      | a :: b :: rest => simp [isWhole]

theorem regInv_empty : RegInv State.empty := by
  constructor
  · intro id addr h; simp [State.empty, regFind] at h
  · intro id id' addr h; simp [State.empty, regFind] at h

theorem regInv_collectFile (s : State) (fileId fileSize : Nat) (h : RegInv s) :
    RegInv (CollectFile s fileId fileSize).1 := by
  unfold CollectFile
  cases hf : regFind s.files fileId with
  | some a => exact h
  | none =>
    obtain ⟨h1, h2⟩ := h
    have hlt : ∀ id addr, regFind s.files id = some addr → addr < s.heap.length := by
      intro id addr hid
      obtain ⟨fd, hfd, _⟩ := h1 id addr hid
      exact (List.getElem?_eq_some.mp hfd).1
    constructor
    · intro id addr hid
      simp only [regFind_regAssign] at hid
      by_cases e : fileId = id
      · simp only [e, if_true, Option.some.injEq] at hid
        subst hid
        exact ⟨FileData.new fileSize, by simp, rfl, rfl, rfl⟩
      · simp only [e, if_false] at hid
        obtain ⟨fd, hfd, rest⟩ := h1 id addr hid
        refine ⟨fd, ?_, rest⟩
        rw [List.getElem?_append_left (hlt id addr hid)]
        exact hfd
    · intro id id' addr hid hid'
      simp only [regFind_regAssign] at hid hid'
      by_cases e : fileId = id <;> by_cases e' : fileId = id'
      · exact e.symm.trans e'
      · simp only [e, if_true, Option.some.injEq] at hid
        simp only [e', if_false] at hid'
        have := hlt id' addr hid'
        omega
      · simp only [e', if_true, Option.some.injEq] at hid'
        simp only [e, if_false] at hid
        have := hlt id addr hid
        omega
      · simp only [e, if_false] at hid
        simp only [e', if_false] at hid'
        exact h2 id id' addr hid hid'

theorem regInv_getFile (s : State) (fileId : Nat) (h : RegInv s) :
    RegInv (GetFile s fileId).1 := by
  unfold GetFile
  cases hf : regFind s.files fileId with
  | none => exact h
  | some a =>
    simp only
    cases hh : s.heap[a]? with
    | none => exact h
    | some fd =>
      simp only
      cases hg : fd.promise.get_future with
      | error e => exact h
      | ok p =>
        simp only
        have hp : p.value = fd.promise.value := by
          unfold Promise.get_future at hg
          split at hg
          · cases hg
          · cases hg; rfl
        obtain ⟨h1, h2⟩ := h
        refine ⟨?_, h2⟩
        intro id addr hid
        obtain ⟨fd0, hfd0, hd, hv, hw⟩ := h1 id addr hid
        simp only [List.getElem?_set]
        by_cases e : a = addr
        · subst e
          rw [hh] at hfd0
          cases hfd0
          have hlt := (List.getElem?_eq_some.mp hh).1
          simp only [if_true, hlt]
          exact ⟨_, rfl, hd, hp.trans hv, hw⟩
        · simp only [e, if_false]
          exact ⟨fd0, hfd0, hd, hv, hw⟩

/-- The result of `OnNewChunk` on a registered file that is not done and whose result
slot is empty. -/
theorem onNewChunk_eq (s : State) (fileId addr : Nat) (fd : FileData) (pos : Nat)
    (chunk : List Byte) (hf : regFind s.files fileId = some addr) (hh : s.heap[addr]? = some fd)
    (hd : fd.done = false) (hp : fd.promise.value = none) :
    OnNewChunk s fileId pos chunk =
      match clampChunk fd.fileSize pos chunk with
      | none => (s, .ok ())
      | some c =>
        match mergeSegments fd.segments pos c with
        | .error e => (s, .error e)
        | .ok segs =>
          if isWhole fd.fileSize segs then
            ({ files := regErase s.files fileId,
               heap := s.heap.set addr
                 { fd with
                   segments := [], done := true,
                   promise := { fd.promise with value := segs.head?.map Prod.snd } } }, .ok ())
          else ({ s with heap := s.heap.set addr { fd with segments := segs } }, .ok ()) := by
  unfold OnNewChunk
  simp only [hf, hh, deliver_eq fd pos chunk hd hp]
  cases hc : clampChunk fd.fileSize pos chunk with
  | none => simp only [list_set_self _ _ _ hh]
  | some c =>
    simp only
    cases hm : mergeSegments fd.segments pos c with
    | error e => simp only [list_set_self _ _ _ hh]
    | ok segs =>
      simp only
      by_cases hw : isWhole fd.fileSize segs = true
      · simp only [hw, if_true]
      · simp [hw]

theorem regInv_onNewChunk (s : State) (fileId pos : Nat) (chunk : List Byte) (h : RegInv s) :
    RegInv (OnNewChunk s fileId pos chunk).1 := by
  cases hf : regFind s.files fileId with
  | none => simp only [OnNewChunk, hf]; exact h
  | some addr =>
    obtain ⟨fd, hh, hd, hp, hw⟩ := h.1 fileId addr hf
    rw [onNewChunk_eq s fileId addr fd pos chunk hf hh hd hp]
    cases hc : clampChunk fd.fileSize pos chunk with
    | none => exact h
    | some c =>
      simp only
      cases hm : mergeSegments fd.segments pos c with
      | error e => exact h
      | ok segs =>
        simp only
        obtain ⟨h1, h2⟩ := h
        by_cases hws : isWhole fd.fileSize segs = true
        · simp only [hws, if_true]
          constructor
          · intro id a hid
            simp only [regFind_regErase] at hid
            by_cases e : fileId = id
            · simp [e] at hid
            · simp only [e, if_false] at hid
              obtain ⟨fd0, hfd0, rest⟩ := h1 id a hid
              refine ⟨fd0, ?_, rest⟩
              have hne : addr ≠ a := fun hEq => e (h2 fileId id addr hf (hEq ▸ hid))
              rw [List.getElem?_set_ne hne]
              exact hfd0
          · intro id id' a hid hid'
            simp only [regFind_regErase] at hid hid'
            by_cases e : fileId = id
            · simp [e] at hid
            · by_cases e' : fileId = id'
              · simp [e'] at hid'
              · simp only [e, if_false] at hid
                simp only [e', if_false] at hid'
                exact h2 id id' a hid hid'
        · simp only [hws, if_false]
          refine ⟨?_, h2⟩
          intro id a hid
          obtain ⟨fd0, hfd0, hd0, hp0, hw0⟩ := h1 id a hid
          by_cases e : addr = a
          · subst e
            have hlt := (List.getElem?_eq_some.mp hh).1
            exact ⟨_, List.getElem?_set_self hlt, hd, hp, by simpa using hws⟩
          · exact ⟨fd0, (List.getElem?_set_ne e).trans hfd0, hd0, hp0, hw0⟩

theorem regInv_step (s : State) (c : Call) (h : RegInv s) : RegInv (step s c).1 := by
  cases c with
  | collectFile fileId fileSize =>
    have := regInv_collectFile s fileId fileSize h
    simp only [step]
    split <;> simp_all
  | onNewChunk fileId pos chunk =>
    have := regInv_onNewChunk s fileId pos chunk h
    simp only [step]
    split <;> simp_all
  | getFile fileId =>
    have := regInv_getFile s fileId h
    simp only [step]
    split <;> simp_all

theorem regInv_of_reachable (s : State) (h : Reachable s) : RegInv s := by
  induction h with
  | init => exact regInv_empty
  | step s c _ _ _ ih => exact regInv_step s c ih

theorem regFind_step_none (s : State) (c : Call) (fileId : Nat)
    (h : regFind s.files fileId = none) (hc : ∀ size, c ≠ Call.collectFile fileId size) :
    regFind (step s c).1.files fileId = none := by
  cases c with
  | collectFile id size =>
    have hne : id ≠ fileId := fun e => hc size (by rw [e])
    simp only [step, CollectFile]
    cases hf : regFind s.files id with
    | some a => simpa using h
    | none => simp [regFind_regAssign, hne, h]
  | onNewChunk id pos chunk =>
    simp only [step, OnNewChunk]
    cases hf : regFind s.files id with
    | none => simpa using h
    | some a =>
      simp only
      cases hh : s.heap[a]? with
      | none => simpa using h
      | some fd =>
        simp only
        rcases hd : deliver fd pos chunk with ⟨fd', r⟩
        rcases r with e | b
        · simpa using h
        · cases b
          · simpa using h
          · simp [regFind_regErase, h]
  | getFile id =>
    simp only [step, GetFile]
    cases hf : regFind s.files id with
    | none => simpa using h
    | some a =>
      simp only
      cases hh : s.heap[a]? with
      | none => simpa using h
      | some fd =>
        simp only
        cases hg : fd.promise.get_future with
        | error e => simpa using h
        | ok p => simpa using h

theorem regFind_run_none (cs : List Call) (s : State) (fileId : Nat)
    (h : regFind s.files fileId = none) (hc : ∀ size, Call.collectFile fileId size ∉ cs) :
    regFind (run s cs).files fileId = none := by
  induction cs generalizing s with
  | nil => exact h
  | cons c cs ih =>
    simp only [run]
    apply ih
    · apply regFind_step_none s c fileId h
      intro size e
      exact hc size (by simp [e])
    · intro size hm
      exact hc size (List.mem_cons_of_mem _ hm)

/-! ## The only fault of a merge is the out-of-range copy -/

theorem copyAt_error (dst : List Byte) (off : Nat) (src : List Byte) (e : Fault)
    (h : copyAt dst off src = .error e) : e = .outOfBounds := by
  unfold copyAt at h
  split at h
  · cases h
  · cases h; rfl

theorem fuse_error (fs fe : Nat) (first : List Byte) (ss se : Nat) (second : List Byte)
    (e : Fault) (h : fuse fs fe first ss se second = .error e) : e = .outOfBounds := by
  unfold fuse at h
  simp only at h
  cases h1 : copyAt (resize [] (subSz (max fe se) fs)) 0 first with
  | error e1 =>
    rw [h1] at h
    cases h
    exact copyAt_error _ _ _ _ h1
  | ok md =>
    rw [h1] at h
    simp only at h
    split at h
    · split at h
      · rename_i h2
        cases h
        exact copyAt_error _ _ _ _ h2
      · cases h
    · cases h

theorem mergeWithPrev_error (c : Cursor) (e : Fault)
    (h : mergeWithPrev c = .error e) : e = .outOfBounds := by
  unfold mergeWithPrev at h
  simp only at h
  split at h
  · cases h
  · split at h
    · split at h
      · rename_i h1
        cases h
        exact fuse_error _ _ _ _ _ _ _ h1
      · cases h
    · cases h

theorem mergeForward_error (currStart : Nat) (after : List Segment) (currEnd : Nat)
    (curData : List Byte) (e : Fault)
    (h : mergeForward currStart currEnd curData after = .error e) : e = .outOfBounds := by
  induction after generalizing currEnd curData with
  | nil => simp [mergeForward] at h
  | cons next rest ih =>
    unfold mergeForward at h
    simp only at h
    split at h
    · split at h
      · rename_i h1
        cases h
        exact fuse_error _ _ _ _ _ _ _ h1
      · exact ih _ _ h
    · cases h

theorem mergeSegments_error (segs : List Segment) (pos : Nat) (chunk : List Byte) (e : Fault)
    (h : mergeSegments segs pos chunk = .error e) : e = .outOfBounds := by
  unfold mergeSegments at h
  split at h
  · rename_i h1
    cases h
    exact mergeWithPrev_error _ _ h1
  · split at h
    · rename_i h2
      cases h
      exact mergeForward_error _ _ _ _ _ h2
    · cases h

/-! ## Calls on an id that is not registered -/

theorem onNewChunk_unregistered (t : State) (fileId pos : Nat) (chunk : List Byte)
    (h : regFind t.files fileId = none) : OnNewChunk t fileId pos chunk = (t, .ok ()) := by
  simp [OnNewChunk, h]

theorem getFile_unregistered (t : State) (fileId : Nat)
    (h : regFind t.files fileId = none) : GetFile t fileId = (t, .error .unknownFile) := by
  simp [GetFile, h]

theorem collectFile_unregistered (t : State) (fileId fileSize : Nat)
    (h : regFind t.files fileId = none) :
    CollectFile t fileId fileSize =
      ({ files := regAssign t.files fileId t.heap.length,
         heap := t.heap ++ [FileData.new fileSize] }, .ok ()) := by
  simp [CollectFile, h]

/-! ## The merge when nothing wraps -/

theorem addSz_eq (a b : Nat) (h : a + b < SIZE_MOD) : addSz a b = a + b :=
  Nat.mod_eq_of_lt h

theorem subSz_eq (a b : Nat) (hb : b ≤ a) (ha : a < SIZE_MOD) : subSz a b = a - b := by
  unfold subSz
  have hbm : b % SIZE_MOD = b := Nat.mod_eq_of_lt (by omega)
  rw [hbm]
  have : a + SIZE_MOD - b = (a - b) + SIZE_MOD := by omega
  rw [this, Nat.add_mod_right]
  exact Nat.mod_eq_of_lt (by omega)

theorem resize_nil (n : Nat) : resize [] n = List.replicate n (0 : Byte) := by
  simp [resize]

theorem resize_of_le (v : List Byte) (n : Nat) (h : n ≤ v.length) : resize v n = v.take n := by
  simp [resize, Nat.sub_eq_zero_of_le h]

/-- The merged buffer when nothing wraps: the first segment followed by the bytes of the
second from the end of the first on. -/
theorem fuse_ok (fs ss : Nat) (first second : List Byte)
    (h2 : ss ≤ fs + first.length) (h3 : fs + first.length < SIZE_MOD)
    (h4 : ss + second.length < SIZE_MOD) :
    fuse fs (fs + first.length) first ss (ss + second.length) second =
      .ok (max (fs + first.length) (ss + second.length),
        first ++ second.drop (fs + first.length - ss)) := by
  unfold fuse
  simp only
  have hm : max (fs + first.length) (ss + second.length) < SIZE_MOD := by
    rcases Nat.le_total (fs + first.length) (ss + second.length) with h | h
    · rw [Nat.max_eq_right h]; exact h4
    · rw [Nat.max_eq_left h]; exact h3
  have hfm : fs + first.length ≤ max (fs + first.length) (ss + second.length) := Nat.le_max_left _ _
  rw [subSz_eq _ _ (by omega) hm, resize_nil]
  have hc1 : copyAt (List.replicate (max (fs + first.length) (ss + second.length) - fs) (0 : Byte))
      0 first = .ok (first ++ List.replicate
        (max (fs + first.length) (ss + second.length) - fs - first.length) (0 : Byte)) := by
    unfold copyAt
    have : 0 + first.length ≤
        (List.replicate (max (fs + first.length) (ss + second.length) - fs) (0 : Byte)).length := by
      simp only [List.length_replicate]; omega
    rw [if_pos this]
    simp [List.drop_replicate]
  rw [hc1]
  simp only
  have ho : overlapPosOf (fs + first.length) ss = fs + first.length := by
    unfold overlapPosOf
    rw [if_neg (by omega)]
  have hoff : offsetInOf (fs + first.length) ss = fs + first.length - ss := by
    unfold offsetInOf
    by_cases hgt : fs + first.length > ss
    · rw [if_pos hgt, subSz_eq _ _ (by omega) h3]
    · rw [if_neg hgt]; omega
  rw [ho, hoff, subSz_eq _ _ (by omega) h3]
  by_cases hlt : fs + first.length - ss < second.length
  · rw [if_pos hlt]
    have hmax : max (fs + first.length) (ss + second.length) = ss + second.length :=
      Nat.max_eq_right (by omega)
    rw [hmax]
    unfold copyAt
    have hlen : fs + first.length - fs + (List.drop (fs + first.length - ss) second).length ≤
        (first ++ List.replicate (ss + second.length - fs - first.length) (0 : Byte)).length := by
      simp only [List.length_drop, List.length_append, List.length_replicate]; omega
    rw [if_pos hlen]
    have e1 : fs + first.length - fs = first.length := by omega
    rw [e1, List.take_left' rfl]
    have e2 : List.drop (first.length + (List.drop (fs + first.length - ss) second).length)
        (first ++ List.replicate (ss + second.length - fs - first.length) (0 : Byte)) = [] := by
      apply List.drop_eq_nil_of_le
      simp only [List.length_drop, List.length_append, List.length_replicate]; omega
    rw [e2, List.append_nil]
  · rw [if_neg hlt]
    have hmax : max (fs + first.length) (ss + second.length) = fs + first.length :=
      Nat.max_eq_left (by omega)
    rw [hmax]
    have e1 : fs + first.length - fs - first.length = 0 := by omega
    have e2 : List.drop (fs + first.length - ss) second = [] :=
      List.drop_eq_nil_of_le (by omega)
    rw [e1, e2]
    simp

theorem fuse_length (fs ss : Nat) (first second : List Byte)
    (h2 : ss ≤ fs + first.length) :
    fs + (first ++ second.drop (fs + first.length - ss)).length =
      max (fs + first.length) (ss + second.length) := by
  simp only [List.length_append, List.length_drop]
  rcases Nat.le_total (fs + first.length) (ss + second.length) with h | h
  · rw [Nat.max_eq_right h]; omega
  · rw [Nat.max_eq_left h]; omega

theorem segInv_keys (n : Nat) (segs : List Segment) (h : SegInv n segs) :
    segs.Pairwise (fun a b => a.1 < b.1) :=
  h.1.imp (fun hab => by omega)

theorem emplace_cons_lt (s : Segment) (rest : List Segment) (pos : Nat) (chunk : List Byte)
    (h : pos < s.1) :
    emplace (s :: rest) pos chunk = { before := [], cur := (pos, chunk), after := s :: rest } := by
  simp [emplace, h]

theorem emplace_cons_eq (s : Segment) (rest : List Segment) (pos : Nat) (chunk : List Byte)
    (h : pos = s.1) :
    emplace (s :: rest) pos chunk = { before := [], cur := s, after := rest } := by
  simp [emplace, h]

theorem emplace_cons_gt (s : Segment) (rest : List Segment) (pos : Nat) (chunk : List Byte)
    (h : s.1 < pos) :
    emplace (s :: rest) pos chunk =
      { before := s :: (emplace rest pos chunk).before, cur := (emplace rest pos chunk).cur,
        after := (emplace rest pos chunk).after } := by
  have h1 : ¬ pos < s.1 := by omega
  have h2 : ¬ pos = s.1 := by omega
  simp [emplace, h1, h2]

/-- Where `emplace` puts its iterator in a map with ascending keys. -/
theorem emplace_spec (segs : List Segment) (pos : Nat) (chunk : List Byte)
    (hs : segs.Pairwise (fun a b => a.1 < b.1)) :
    (∀ a ∈ (emplace segs pos chunk).before, a.1 < pos) ∧
    (emplace segs pos chunk).cur.1 = pos ∧
    (∀ a ∈ (emplace segs pos chunk).after, pos < a.1) ∧
    (((emplace segs pos chunk).cur = (pos, chunk) ∧
        (emplace segs pos chunk).before ++ (emplace segs pos chunk).after = segs ∧
        ∀ a ∈ segs, a.1 ≠ pos) ∨
      ((emplace segs pos chunk).cur ∈ segs ∧
        (emplace segs pos chunk).before ++ (emplace segs pos chunk).cur ::
          (emplace segs pos chunk).after = segs)) := by
  induction segs with
  | nil => simp [emplace]
  | cons s rest ih =>
    have hrest := (List.pairwise_cons.mp hs).2
    have hhead := (List.pairwise_cons.mp hs).1
    obtain ⟨ih1, ih2, ih3, ih4⟩ := ih hrest
    rcases Nat.lt_trichotomy pos s.1 with h | h | h
    · rw [emplace_cons_lt s rest pos chunk h]
      refine ⟨by simp, rfl, ?_, Or.inl ⟨rfl, by simp, ?_⟩⟩
      · intro a ha
        rcases List.mem_cons.mp ha with rfl | ha
        · exact h
        · have := hhead a ha; omega
      · intro a ha
        rcases List.mem_cons.mp ha with rfl | ha
        · omega
        · have := hhead a ha; omega
    · rw [emplace_cons_eq s rest pos chunk h]
      refine ⟨by simp, h.symm, ?_, Or.inr ⟨by simp, by simp⟩⟩
      intro a ha
      have := hhead a ha
      simp only at ha ⊢
      omega
    · rw [emplace_cons_gt s rest pos chunk h]
      refine ⟨?_, ih2, ih3, ?_⟩
      · intro a ha
        rcases List.mem_cons.mp ha with rfl | ha
        · exact h
        · exact ih1 a ha
      · rcases ih4 with ⟨e1, e2, e3⟩ | ⟨e1, e2⟩
        · refine Or.inl ⟨e1, by simp [e2], ?_⟩
          intro a ha
          rcases List.mem_cons.mp ha with rfl | ha
          · omega
          · exact e3 a ha
        · exact Or.inr ⟨List.mem_cons_of_mem _ e1, by simp [e2]⟩

theorem segInv_append (n : Nat) (l1 l2 : List Segment) :
    SegInv n (l1 ++ l2) ↔ SegInv n l1 ∧ SegInv n l2 ∧
      ∀ a ∈ l1, ∀ b ∈ l2, a.1 + a.2.length < b.1 := by
  unfold SegInv
  rw [List.pairwise_append]
  constructor
  · rintro ⟨⟨h1, h2, h3⟩, h4⟩
    exact ⟨⟨h1, fun a ha => h4 a (List.mem_append_left _ ha)⟩,
      ⟨h2, fun a ha => h4 a (List.mem_append_right _ ha)⟩, h3⟩
  · rintro ⟨⟨h1, h4⟩, ⟨h2, h5⟩, h3⟩
    refine ⟨⟨h1, h2, h3⟩, ?_⟩
    intro a ha
    rcases List.mem_append.mp ha with ha | ha
    · exact h4 a ha
    · exact h5 a ha

theorem segInv_cons (n : Nat) (a : Segment) (l : List Segment) :
    SegInv n (a :: l) ↔ (a.2 ≠ [] ∧ a.1 + a.2.length ≤ n) ∧ SegInv n l ∧
      ∀ b ∈ l, a.1 + a.2.length < b.1 := by
  unfold SegInv
  rw [List.pairwise_cons]
  constructor
  · rintro ⟨⟨h1, h2⟩, h3⟩
    exact ⟨h3 a (List.mem_cons_self _ _), ⟨h2, fun b hb => h3 b (List.mem_cons_of_mem _ hb)⟩, h1⟩
  · rintro ⟨h0, ⟨h2, h3⟩, h1⟩
    refine ⟨⟨h1, h2⟩, ?_⟩
    intro b hb
    rcases List.mem_cons.mp hb with rfl | hb
    · exact h0
    · exact h3 b hb

theorem segInv_nil (n : Nat) : SegInv n [] := by
  simp [SegInv]

/-- The step of lines 46-77 when there is no entry before the iterator, or the one before
it ends before `currStart`: nothing changes. -/
theorem mergeWithPrev_keep (c : Cursor) (h : c.cur.1 + c.cur.2.length < SIZE_MOD)
    (hprev : ∀ prev, c.before.getLast? = some prev →
      prev.1 + prev.2.length < c.cur.1) :
    mergeWithPrev c = .ok (c, c.cur.1 + c.cur.2.length) := by
  unfold mergeWithPrev
  simp only [addSz_eq _ _ h]
  cases hl : c.before.getLast? with
  | none => rfl
  | some prev =>
    have hp := hprev prev hl
    simp only
    rw [addSz_eq _ _ (by omega)]
    rw [if_neg (by omega)]

/-- The step of lines 46-77 when the entry before the iterator ends at or after
`currStart`: the two are fused into the entry before, which keeps all its bytes and is
extended by the bytes of the current entry from its end on. -/
theorem mergeWithPrev_fuse (l : List Segment) (prev cur : Segment) (after : List Segment)
    (h1 : cur.1 ≤ prev.1 + prev.2.length) (h2 : prev.1 + prev.2.length < SIZE_MOD)
    (h3 : cur.1 + cur.2.length < SIZE_MOD) :
    mergeWithPrev { before := l ++ [prev], cur := cur, after := after } =
      .ok ({ before := l,
             cur := (prev.1, prev.2 ++ cur.2.drop (prev.1 + prev.2.length - cur.1)),
             after := after },
        max (prev.1 + prev.2.length) (cur.1 + cur.2.length)) := by
  unfold mergeWithPrev
  simp only [List.getLast?_concat, List.dropLast_concat]
  rw [addSz_eq _ _ h2, addSz_eq _ _ h3, if_pos h1, fuse_ok prev.1 cur.1 prev.2 cur.2 h1 h2 h3]
  simp only
  have hlen := fuse_length prev.1 cur.1 prev.2 cur.2 h1
  rw [addSz_eq _ _ (by rw [hlen]; exact max_lt h2 h3), hlen]

/-- Lines 42-77 return normally and establish the cursor invariant. -/
theorem mergeWithPrev_emplace_ok (n : Nat) (segs : List Segment) (pos : Nat) (chunk : List Byte)
    (hn : n < SIZE_MOD) (hs : SegInv n segs) (hc : chunk ≠ []) (hp : pos + chunk.length ≤ n) :
    ∃ c e, mergeWithPrev (emplace segs pos chunk) = .ok (c, e) ∧ CursorInv n c e := by
  obtain ⟨e1, e2, e3, e4⟩ := emplace_spec segs pos chunk (segInv_keys n segs hs)
  generalize emplace segs pos chunk = c0 at e1 e2 e3 e4
  obtain ⟨before, cur, after⟩ := c0
  simp only at e1 e2 e3 e4
  have hF : SegInv n before ∧ SegInv n after ∧ (cur.2 ≠ [] ∧ cur.1 + cur.2.length ≤ n) ∧
      ∀ b ∈ before, ∀ a ∈ after, b.1 + b.2.length < a.1 := by
    rcases e4 with ⟨h1, h2, _⟩ | ⟨_, h2⟩
    · rw [← h2, segInv_append] at hs
      subst h1
      exact ⟨hs.1, hs.2.1, ⟨hc, hp⟩, hs.2.2⟩
    · rw [← h2, segInv_append, segInv_cons] at hs
      exact ⟨hs.1, hs.2.1.2.1, hs.2.1.1,
        fun b hb a ha => hs.2.2 b hb a (List.mem_cons_of_mem _ ha)⟩
  obtain ⟨F1, F2, ⟨F3, F3'⟩, F4⟩ := hF
  have F5 : ∀ a ∈ after, cur.1 < a.1 := fun a ha => by rw [e2]; exact e3 a ha
  rcases List.eq_nil_or_concat before with hb | ⟨l, prev, hb⟩
  · subst hb
    refine ⟨_, _, mergeWithPrev_keep _ (by simp only; omega) (by simp), ?_⟩
    exact ⟨F1, F2, F3, rfl, F3', by simp, F5, by simp⟩
  · rw [List.concat_eq_append] at hb
    subst hb
    rw [segInv_append, segInv_cons] at F1
    obtain ⟨G1, ⟨⟨G2, G3⟩, _, _⟩, G4⟩ := F1
    have G4' : ∀ b ∈ l, b.1 + b.2.length < prev.1 := fun b hb => G4 b hb prev (by simp)
    by_cases hlt : prev.1 + prev.2.length < cur.1
    · refine ⟨_, _, mergeWithPrev_keep _ (by simp only; omega) ?_, ?_⟩
      · intro p hpp
        simp only [List.getLast?_concat, Option.some.injEq] at hpp
        subst hpp
        exact hlt
      · refine ⟨?_, F2, F3, rfl, F3', ?_, F5, F4⟩
        · rw [segInv_append, segInv_cons]
          exact ⟨G1, ⟨⟨G2, G3⟩, segInv_nil n, by simp⟩, G4⟩
        · intro b hb
          show b.1 + b.2.length < cur.1
          rcases List.mem_append.mp hb with hb | hb
          · have := G4' b hb; omega
          · simp only [List.mem_singleton] at hb
            subst hb; exact hlt
    · have hle : cur.1 ≤ prev.1 + prev.2.length := by omega
      refine ⟨_, _, mergeWithPrev_fuse l prev cur after hle (by omega) (by omega), ?_⟩
      have hlen := fuse_length prev.1 cur.1 prev.2 cur.2 hle
      have hprevlt : prev.1 < pos := e1 prev (by simp)
      refine ⟨G1, F2, by simp [G2], ?_, ?_, G4', ?_, ?_⟩
      · simp only; rw [hlen]
      · exact max_le G3 F3'
      · intro a ha
        have := e3 a ha
        simp only; omega
      · intro b hb a ha
        exact F4 b (List.mem_append_left _ hb) a ha

/-- The loop of lines 79-114 returns normally: the current entry is extended, the entries
it leaves after it are entries that were there, and all of them start after it ends. -/
theorem mergeForward_ok (n cs : Nat) (hn : n < SIZE_MOD) (after : List Segment)
    (data : List Byte) (hd : cs + data.length ≤ n) (ha : SegInv n after)
    (hk : ∀ a ∈ after, cs < a.1) :
    ∃ data' after', mergeForward cs (cs + data.length) data after = .ok (data', after') ∧
      cs + data'.length ≤ n ∧ data.length ≤ data'.length ∧ SegInv n after' ∧
      (∀ a ∈ after', cs + data'.length < a.1) ∧ (∀ a ∈ after', a ∈ after) := by
  induction after generalizing data with
  | nil =>
    exact ⟨data, [], rfl, hd, le_refl _, segInv_nil n, by simp, by simp⟩
  | cons next rest ih =>
    rw [segInv_cons] at ha
    obtain ⟨⟨_, hnext⟩, hrest, hgap⟩ := ha
    have hcs : cs < next.1 := hk next (List.mem_cons_self _ _)
    unfold mergeForward
    simp only
    rw [addSz_eq _ _ (by omega)]
    by_cases hle : next.1 ≤ cs + data.length
    · rw [if_pos hle, fuse_ok cs next.1 data next.2 hle (by omega) (by omega)]
      simp only
      have hlen := fuse_length cs next.1 data next.2 hle
      rw [← hlen]
      have hd' : cs + (data ++ List.drop (cs + data.length - next.1) next.2).length ≤ n := by
        rw [hlen]; exact max_le hd hnext
      obtain ⟨data', after', h1, h2, h3, h4, h5, h6⟩ :=
        ih (data ++ List.drop (cs + data.length - next.1) next.2) hd' hrest
          (fun a ha => hk a (List.mem_cons_of_mem _ ha))
      refine ⟨data', after', h1, h2, ?_, h4, h5, fun a ha => List.mem_cons_of_mem _ (h6 a ha)⟩
      simp only [List.length_append] at h3
      omega
    · rw [if_neg hle]
      refine ⟨data, next :: rest, rfl, hd, le_refl _, ?_, ?_, fun a ha => ha⟩
      · rw [segInv_cons]
        exact ⟨⟨‹_›, hnext⟩, hrest, hgap⟩
      · intro a ha
        rcases List.mem_cons.mp ha with rfl | ha
        · omega
        · have := hgap a ha; omega

/-- Lines 42-114 on segments that satisfy `SegInv` and a clamped, non-empty chunk: the merge
returns normally and the segments satisfy `SegInv` again. -/
theorem mergeSegments_ok (n : Nat) (segs : List Segment) (pos : Nat) (chunk : List Byte)
    (hn : n < SIZE_MOD) (hs : SegInv n segs) (hc : chunk ≠ []) (hp : pos + chunk.length ≤ n) :
    ∃ segs', mergeSegments segs pos chunk = .ok segs' ∧ SegInv n segs' := by
  obtain ⟨c, e, hm, h1, h2, h3, h4, h5, h6, h7, h8⟩ :=
    mergeWithPrev_emplace_ok n segs pos chunk hn hs hc hp
  subst h4
  obtain ⟨data', after', g1, g2, g3, g4, g5, g6⟩ :=
    mergeForward_ok n c.cur.1 hn c.after c.cur.2 h5 h2 h7
  refine ⟨c.before ++ (c.cur.1, data') :: after', ?_, ?_⟩
  · unfold mergeSegments
    rw [hm]
    simp only
    rw [g1]
  · rw [segInv_append, segInv_cons]
    refine ⟨h1, ⟨⟨?_, g2⟩, g4, g5⟩, ?_⟩
    · intro hnil
      have : c.cur.2.length ≠ 0 := fun h => h3 (List.length_eq_zero.mp h)
      have hnil' : data' = [] := hnil
      rw [hnil'] at g3
      simp only [List.length_nil] at g3
      omega
    · intro b hb a ha
      rcases List.mem_cons.mp ha with rfl | ha
      · exact h6 b hb
      · exact h8 b hb a (g6 a ha)

/-! ## States reached without wrapping chunks -/

/-- What the clamp of lines 31-40 returns when `pos + chunk.size()` does not wrap. -/
theorem clampChunk_spec (n pos : Nat) (chunk c : List Byte) (hw : pos + chunk.length < SIZE_MOD)
    (hn : n < SIZE_MOD) (h : clampChunk n pos chunk = some c) :
    pos < n ∧ c ≠ [] ∧ pos + c.length ≤ n ∧ c = chunk.take (n - pos) := by
  unfold clampChunk at h
  by_cases hp : pos ≥ n
  · simp [hp] at h
  · rw [if_neg hp] at h
    simp only [addSz_eq _ _ hw] at h
    by_cases hgt : pos + chunk.length > n
    · rw [if_pos hgt, subSz_eq _ _ (by omega) hn, resize_of_le _ _ (by omega)] at h
      split at h
      · cases h
      · rename_i hne
        cases h
        refine ⟨by omega, ?_, ?_, rfl⟩
        · intro hnil; rw [hnil] at hne; simp at hne
        · simp only [List.length_take]; omega
    · rw [if_neg hgt] at h
      split at h
      · cases h
      · rename_i hne
        cases h
        refine ⟨by omega, ?_, by omega, ?_⟩
        · intro hnil; rw [hnil] at hne; simp at hne
        · rw [List.take_of_length_le (by omega)]

theorem onNewChunk_inRange (s : State) (fileId pos : Nat) (chunk : List Byte)
    (hreg : RegInv s) (hheap : HeapInv s) (hw : pos + chunk.length < SIZE_MOD) :
    (OnNewChunk s fileId pos chunk).2 = .ok () ∧ HeapInv (OnNewChunk s fileId pos chunk).1 := by
  cases hf : regFind s.files fileId with
  | none =>
    rw [onNewChunk_unregistered _ _ _ _ hf]
    exact ⟨rfl, hheap⟩
  | some addr =>
    obtain ⟨fd, hh, hd, hp, _⟩ := hreg.1 fileId addr hf
    obtain ⟨hlt, hget⟩ := List.getElem?_eq_some.mp hh
    have hfd : fd ∈ s.heap := hget ▸ List.getElem_mem hlt
    obtain ⟨hn, hseg⟩ := hheap fd hfd
    rw [onNewChunk_eq s fileId addr fd pos chunk hf hh hd hp]
    cases hc : clampChunk fd.fileSize pos chunk with
    | none => exact ⟨rfl, hheap⟩
    | some c =>
      obtain ⟨_, c1, c2, _⟩ := clampChunk_spec _ _ _ _ hw hn hc
      obtain ⟨segs', hm, hseg'⟩ := mergeSegments_ok fd.fileSize fd.segments pos c hn hseg c1 c2
      simp only [hm]
      by_cases hws : isWhole fd.fileSize segs' = true
      · rw [if_pos hws]
        refine ⟨rfl, ?_⟩
        intro x hx
        rcases List.mem_or_eq_of_mem_set hx with hx | hx
        · exact hheap x hx
        · subst hx
          exact ⟨hn, segInv_nil _⟩
      · rw [if_neg hws]
        refine ⟨rfl, ?_⟩
        intro x hx
        rcases List.mem_or_eq_of_mem_set hx with hx | hx
        · exact hheap x hx
        · subst hx
          exact ⟨hn, hseg'⟩

theorem heapInv_collectFile (s : State) (fileId fileSize : Nat) (hheap : HeapInv s)
    (hn : fileSize < SIZE_MOD) : HeapInv (CollectFile s fileId fileSize).1 := by
  unfold CollectFile
  cases hf : regFind s.files fileId with
  | some a => exact hheap
  | none =>
    intro x hx
    simp only [List.mem_append, List.mem_singleton] at hx
    rcases hx with hx | hx
    · exact hheap x hx
    · subst hx
      exact ⟨hn, segInv_nil _⟩

theorem heapInv_getFile (s : State) (fileId : Nat) (hheap : HeapInv s) :
    HeapInv (GetFile s fileId).1 ∧ (GetFile s fileId).2 ≠ .error .outOfBounds := by
  unfold GetFile
  cases hf : regFind s.files fileId with
  | none => exact ⟨hheap, by simp⟩
  | some a =>
    simp only
    cases hh : s.heap[a]? with
    | none => exact ⟨hheap, by simp⟩
    | some fd =>
      simp only
      cases hg : fd.promise.get_future with
      | error e =>
        refine ⟨hheap, ?_⟩
        unfold Promise.get_future at hg
        split at hg
        · cases hg; simp
        · cases hg
      | ok p =>
        refine ⟨?_, by simp⟩
        intro x hx
        obtain ⟨hlt, hget⟩ := List.getElem?_eq_some.mp hh
        have hfd : fd ∈ s.heap := hget ▸ List.getElem_mem hlt
        rcases List.mem_or_eq_of_mem_set hx with hx | hx
        · exact hheap x hx
        · subst hx
          exact hheap fd hfd

/-- A state reached by well-typed calls without wrapping chunks is reachable, and all its
segments satisfy `SegInv`. -/
theorem reachableInRange_inv (s : State) (h : ReachableInRange s) : Reachable s ∧ HeapInv s := by
  induction h with
  | init =>
    exact ⟨.init, by intro x hx; simp [State.empty] at hx⟩
  | step s c _ hwt hir ih =>
    obtain ⟨hr, hheap⟩ := ih
    have hreg := regInv_of_reachable s hr
    cases c with
    | collectFile fileId fileSize =>
      have h1 := heapInv_collectFile s fileId fileSize hheap hwt.2
      have h2 : (step s (.collectFile fileId fileSize)).2 ≠ some Fault.outOfBounds := by
        simp only [step, CollectFile]
        cases regFind s.files fileId <;> simp
      refine ⟨Reachable.step s _ hr hwt h2, ?_⟩
      simp only [step]
      split <;> simp_all
    | onNewChunk fileId pos chunk =>
      obtain ⟨h1, h2⟩ := onNewChunk_inRange s fileId pos chunk hreg hheap hir
      have h3 : (step s (.onNewChunk fileId pos chunk)).2 ≠ some Fault.outOfBounds := by
        simp only [step]
        split <;> simp_all
      refine ⟨Reachable.step s _ hr hwt h3, ?_⟩
      simp only [step]
      split <;> simp_all
    | getFile fileId =>
      obtain ⟨h1, h2⟩ := heapInv_getFile s fileId hheap
      have h3 : (step s (.getFile fileId)).2 ≠ some Fault.outOfBounds := by
        simp only [step]
        split <;> simp_all
      refine ⟨Reachable.step s _ hr hwt h3, ?_⟩
      simp only [step]
      split <;> simp_all

theorem emplace_append (l rest : List Segment) (pos : Nat) (chunk : List Byte)
    (h : ∀ b ∈ l, b.1 < pos) :
    emplace (l ++ rest) pos chunk =
      { before := l ++ (emplace rest pos chunk).before, cur := (emplace rest pos chunk).cur,
        after := (emplace rest pos chunk).after } := by
  induction l with
  | nil => simp
  | cons b l ih =>
    have hb : b.1 < pos := h b (List.mem_cons_self _ _)
    rw [List.cons_append, emplace_cons_gt b (l ++ rest) pos chunk hb,
      ih (fun x hx => h x (List.mem_cons_of_mem _ hx))]
    simp

theorem emplace_before_all (after : List Segment) (pos : Nat) (chunk : List Byte)
    (h : ∀ a ∈ after, pos < a.1) :
    emplace after pos chunk = { before := [], cur := (pos, chunk), after := after } := by
  cases after with
  | nil => rfl
  | cons a rest => exact emplace_cons_lt a rest pos chunk (h a (List.mem_cons_self _ _))

/-! ## Result slots, and the clamp of a chunk that reaches beyond the file -/

theorem resultInv_step (s : State) (c : Call) (hreg : RegInv s) (h : ResultInv s) :
    ResultInv (step s c).1 := by
  cases c with
  | collectFile fileId fileSize =>
    have : ResultInv (CollectFile s fileId fileSize).1 := by
      unfold CollectFile
      cases hf : regFind s.files fileId with
      | some a => exact h
      | none =>
        intro x hx d hd
        simp only [List.mem_append, List.mem_singleton] at hx
        rcases hx with hx | hx
        · exact h x hx d hd
        · subst hx
          simp [FileData.new] at hd
    simp only [step]
    split <;> simp_all
  | onNewChunk fileId pos chunk =>
    have : ResultInv (OnNewChunk s fileId pos chunk).1 := by
      cases hf : regFind s.files fileId with
      | none =>
        rw [onNewChunk_unregistered _ _ _ _ hf]
        exact h
      | some addr =>
        obtain ⟨fd, hh, hd, hp, _⟩ := hreg.1 fileId addr hf
        rw [onNewChunk_eq s fileId addr fd pos chunk hf hh hd hp]
        cases hc : clampChunk fd.fileSize pos chunk with
        | none => exact h
        | some c =>
          simp only
          cases hm : mergeSegments fd.segments pos c with
          | error e => exact h
          | ok segs =>
            simp only
            by_cases hws : isWhole fd.fileSize segs = true
            · rw [if_pos hws]
              obtain ⟨d0, hd0, hlen⟩ := (isWhole_iff _ _).mp hws
              intro x hx d hxd
              rcases List.mem_or_eq_of_mem_set hx with hx | hx
              · exact h x hx d hxd
              · subst hx
                subst hd0
                simp only [List.head?_cons, Option.map_some', Option.some.injEq] at hxd
                subst hxd
                exact hlen
            · rw [if_neg hws]
              intro x hx d hxd
              rcases List.mem_or_eq_of_mem_set hx with hx | hx
              · exact h x hx d hxd
              · subst hx
                simp only [hp] at hxd
                cases hxd
    simp only [step]
    split <;> simp_all
  | getFile fileId =>
    have : ResultInv (GetFile s fileId).1 := by
      unfold GetFile
      cases hf : regFind s.files fileId with
      | none => exact h
      | some a =>
        simp only
        cases hh : s.heap[a]? with
        | none => exact h
        | some fd =>
          simp only
          cases hg : fd.promise.get_future with
          | error e => exact h
          | ok p =>
            have hp : p.value = fd.promise.value := by
              unfold Promise.get_future at hg
              split at hg
              · cases hg
              · cases hg; rfl
            obtain ⟨hlt, hget⟩ := List.getElem?_eq_some.mp hh
            have hfd : fd ∈ s.heap := hget ▸ List.getElem_mem hlt
            intro x hx d hxd
            rcases List.mem_or_eq_of_mem_set hx with hx | hx
            · exact h x hx d hxd
            · subst hx
              exact h fd hfd d (hp ▸ hxd)
    simp only [step]
    split <;> simp_all

theorem resultInv_of_reachable (s : State) (h : Reachable s) : ResultInv s := by
  induction h with
  | init => intro x hx; simp [State.empty] at hx
  | step s c hs _ _ ih => exact resultInv_step s c (regInv_of_reachable s hs) ih

/-- The clamp of lines 31-40 gives the same chunk for a chunk that reaches beyond the file
size and for its first `n - pos` bytes, when `pos + chunk.size()` does not wrap. -/
theorem clampChunk_take (n pos : Nat) (chunk : List Byte) (hn : n < SIZE_MOD) (h1 : pos < n)
    (h2 : pos + chunk.length > n) (hw : pos + chunk.length < SIZE_MOD) :
    clampChunk n pos (chunk.take (n - pos)) = clampChunk n pos chunk := by
  have hlen : (chunk.take (n - pos)).length = n - pos := by
    simp only [List.length_take]; omega
  have hne : (chunk.take (n - pos)).isEmpty = false := by
    cases ht : chunk.take (n - pos) with
    | nil => rw [ht] at hlen; simp at hlen; omega
    | cons a l => rfl
  have hL : clampChunk n pos chunk = some (chunk.take (n - pos)) := by
    unfold clampChunk
    rw [if_neg (by omega), addSz_eq _ _ hw, if_pos h2, subSz_eq _ _ (by omega) hn,
      resize_of_le _ _ (by omega)]
    simp [hne]
  have hR : clampChunk n pos (chunk.take (n - pos)) = some (chunk.take (n - pos)) := by
    have h3 : ¬ pos ≥ n := by omega
    have h4 : addSz pos (chunk.take (n - pos)).length = n := by
      rw [hlen, addSz_eq _ _ (by omega)]; omega
    unfold clampChunk
    rw [if_neg h3]
    simp only [h4, gt_iff_lt, lt_irrefl, if_false, hne, Bool.false_eq_true]
  rw [hL, hR]

theorem deliver_take (fd : FileData) (pos : Nat) (chunk : List Byte)
    (hn : fd.fileSize < SIZE_MOD) (h1 : pos < fd.fileSize)
    (h2 : pos + chunk.length > fd.fileSize) (hw : pos + chunk.length < SIZE_MOD) :
    deliver fd pos (chunk.take (fd.fileSize - pos)) = deliver fd pos chunk := by
  unfold deliver
  rw [clampChunk_take fd.fileSize pos chunk hn h1 h2 hw]

/-! ## What a merge covers and holds -/

theorem covered_nil (x : Nat) : ¬ covered [] x := by
  simp [covered]

theorem covered_cons (a : Segment) (l : List Segment) (x : Nat) :
    covered (a :: l) x ↔ (a.1 ≤ x ∧ x < a.1 + a.2.length) ∨ covered l x := by
  simp [covered]

theorem covered_append (l1 l2 : List Segment) (x : Nat) :
    covered (l1 ++ l2) x ↔ covered l1 x ∨ covered l2 x := by
  simp only [covered, List.mem_append]
  constructor
  · rintro ⟨a, ha | ha, h⟩
    · exact Or.inl ⟨a, ha, h⟩
    · exact Or.inr ⟨a, ha, h⟩
  · rintro (⟨a, ha, h⟩ | ⟨a, ha, h⟩)
    · exact ⟨a, Or.inl ha, h⟩
    · exact ⟨a, Or.inr ha, h⟩

/-- The merged buffer of two slices of `F`, the second starting within or at the end of
the first, is a slice of `F`. -/
theorem sliceOf_fuse (F : List Byte) (fs ss : Nat) (first second : List Byte)
    (h2 : ss ≤ fs + first.length)
    (hf : sliceOf F (fs, first)) (hsnd : sliceOf F (ss, second)) :
    sliceOf F (fs, first ++ second.drop (fs + first.length - ss)) := by
  intro i hi
  simp only at hi ⊢
  by_cases hlt : i < first.length
  · rw [List.getElem?_append_left hlt]
    exact hf i hlt
  · simp only [List.length_append, List.length_drop] at hi
    rw [List.getElem?_append_right (by omega), List.getElem?_drop]
    have := hsnd (fs + first.length - ss + (i - first.length)) (by simp only; omega)
    simp only at this
    rw [this]
    congr 1
    omega

/-- The loop of lines 79-114, in full: the entries it erases are a prefix `eaten` of the
entries after the iterator, the current entry grows to cover exactly what it covered and
what the erased entries covered, and it stays a slice of any `F` that it and the erased
entries are slices of. -/
theorem mergeForward_spec (n cs : Nat) (hn : n < SIZE_MOD) (after : List Segment)
    (data : List Byte) (hd : cs + data.length ≤ n) (ha : SegInv n after)
    (hk : ∀ a ∈ after, cs < a.1) :
    ∃ eaten after' data', after = eaten ++ after' ∧
      mergeForward cs (cs + data.length) data after = .ok (data', after') ∧
      cs + data'.length ≤ n ∧ data.length ≤ data'.length ∧
      (∀ a ∈ after', cs + data'.length < a.1) ∧
      (∀ x, (cs ≤ x ∧ x < cs + data'.length) ↔
        ((cs ≤ x ∧ x < cs + data.length) ∨ covered eaten x)) ∧
      (∀ F, sliceOf F (cs, data) → (∀ a ∈ eaten, sliceOf F a) → sliceOf F (cs, data')) := by
  induction after generalizing data with
  | nil =>
    exact ⟨[], [], data, rfl, rfl, hd, le_refl _, by simp, by simp [covered_nil],
      fun F h _ => h⟩
  | cons next rest ih =>
    rw [segInv_cons] at ha
    obtain ⟨⟨hne, hnext⟩, hrest, hgap⟩ := ha
    have hcs : cs < next.1 := hk next (List.mem_cons_self _ _)
    unfold mergeForward
    simp only
    rw [addSz_eq _ _ (by omega)]
    by_cases hle : next.1 ≤ cs + data.length
    · rw [if_pos hle, fuse_ok cs next.1 data next.2 hle (by omega) (by omega)]
      simp only
      have hlen := fuse_length cs next.1 data next.2 hle
      rw [← hlen]
      have hd' : cs + (data ++ List.drop (cs + data.length - next.1) next.2).length ≤ n := by
        rw [hlen]; exact max_le hd hnext
      obtain ⟨eaten, after', data', h0, h1, h2, h3, h5, h6, h7⟩ :=
        ih (data ++ List.drop (cs + data.length - next.1) next.2) hd' hrest
          (fun a ha => hk a (List.mem_cons_of_mem _ ha))
      refine ⟨next :: eaten, after', data', by rw [h0]; rfl, h1, h2, ?_, h5, ?_, ?_⟩
      · simp only [List.length_append] at h3
        omega
      · intro x
        rw [h6 x, covered_cons, hlen]
        have hmax : ∀ y, y < max (cs + data.length) (next.1 + next.2.length) ↔
            (y < cs + data.length ∨ y < next.1 + next.2.length) := fun y => lt_max_iff
        rw [hmax]
        constructor
        · rintro (⟨h, h' | h'⟩ | h)
          · exact Or.inl ⟨h, h'⟩
          · by_cases hx : x < cs + data.length
            · exact Or.inl ⟨h, hx⟩
            · exact Or.inr (Or.inl ⟨by omega, h'⟩)
          · exact Or.inr (Or.inr h)
        · rintro (⟨h, h'⟩ | ⟨h, h'⟩ | h)
          · exact Or.inl ⟨h, Or.inl h'⟩
          · exact Or.inl ⟨by omega, Or.inr h'⟩
          · exact Or.inr h
      · intro F hF hE
        apply h7 F
        · exact sliceOf_fuse F cs next.1 data next.2 hle hF
            (hE next (List.mem_cons_self _ _))
        · exact fun a ha => hE a (List.mem_cons_of_mem _ ha)
    · rw [if_neg hle]
      refine ⟨[], next :: rest, data, rfl, rfl, hd, le_refl _, ?_, by simp [covered_nil],
        fun F h _ => h⟩
      intro a ha
      rcases List.mem_cons.mp ha with rfl | ha
      · omega
      · have := hgap a ha; omega

/-- Lines 42-77 for a chunk whose offset is not yet a key: the entries before the iterator
are the earlier segments less the one absorbed (if any), and the current entry covers
exactly the chunk and what the absorbed segment covered. -/
theorem mergeWithPrev_emplace_spec (n : Nat) (segs : List Segment) (pos : Nat)
    (chunk : List Byte) (hn : n < SIZE_MOD) (hs : SegInv n segs) (hc : chunk ≠ [])
    (hp : pos + chunk.length ≤ n) (hnew : ∀ a ∈ segs, a.1 ≠ pos) :
    ∃ before absorbed after cs data, segs = before ++ absorbed ++ after ∧
      mergeWithPrev (emplace segs pos chunk) =
        .ok ({ before := before, cur := (cs, data), after := after }, cs + data.length) ∧
      CursorInv n { before := before, cur := (cs, data), after := after } (cs + data.length) ∧
      (cs = pos ∨ ∃ a ∈ absorbed, a.1 = cs) ∧
      (∀ x, (cs ≤ x ∧ x < cs + data.length) ↔
        (covered absorbed x ∨ (pos ≤ x ∧ x < pos + chunk.length))) ∧
      (∀ F, sliceOf F (pos, chunk) → (∀ a ∈ absorbed, sliceOf F a) → sliceOf F (cs, data)) := by
  obtain ⟨e1, e2, e3, e4⟩ := emplace_spec segs pos chunk (segInv_keys n segs hs)
  generalize emplace segs pos chunk = c0 at e1 e2 e3 e4
  obtain ⟨before, cur, after⟩ := c0
  simp only at e1 e2 e3 e4
  rcases e4 with ⟨h1, h2, _⟩ | ⟨h1, _⟩
  swap
  · exact absurd e2 (hnew cur h1)
  subst h1
  have hs' := hs
  rw [← h2, segInv_append] at hs'
  obtain ⟨F1, F2, F4⟩ := hs'
  rcases List.eq_nil_or_concat before with hb | ⟨l, prev, hb⟩
  · subst hb
    refine ⟨[], [], after, pos, chunk, by simpa using h2.symm,
      mergeWithPrev_keep _ (by simp only; omega) (by simp), ?_, Or.inl rfl, ?_, fun F h _ => h⟩
    · exact ⟨F1, F2, hc, rfl, hp, by simp, e3, by simp⟩
    · intro x; simp [covered_nil]
  · rw [List.concat_eq_append] at hb
    subst hb
    rw [segInv_append, segInv_cons] at F1
    obtain ⟨G1, ⟨⟨G2, G3⟩, _, _⟩, G4⟩ := F1
    have G4' : ∀ b ∈ l, b.1 + b.2.length < prev.1 := fun b hb => G4 b hb prev (by simp)
    have hprevlt : prev.1 < pos := e1 prev (by simp)
    by_cases hlt : prev.1 + prev.2.length < pos
    · refine ⟨l ++ [prev], [], after, pos, chunk, by simpa using h2.symm,
        mergeWithPrev_keep _ (by simp only; omega) ?_, ?_, Or.inl rfl, ?_, fun F h _ => h⟩
      · intro p hpp
        simp only [List.getLast?_concat, Option.some.injEq] at hpp
        subst hpp
        exact hlt
      · refine ⟨?_, F2, hc, rfl, hp, ?_, e3, F4⟩
        · rw [segInv_append, segInv_cons]
          exact ⟨G1, ⟨⟨G2, G3⟩, segInv_nil n, by simp⟩, G4⟩
        · intro b hb
          show b.1 + b.2.length < pos
          rcases List.mem_append.mp hb with hb | hb
          · have := G4' b hb; omega
          · simp only [List.mem_singleton] at hb
            subst hb; exact hlt
      · intro x; simp [covered_nil]
    · have hle : pos ≤ prev.1 + prev.2.length := by omega
      have hfuse := mergeWithPrev_fuse l prev (pos, chunk) after hle (by omega)
        (by simp only; omega)
      have hlen := fuse_length prev.1 pos prev.2 chunk hle
      simp only at hfuse
      refine ⟨l, [prev], after, prev.1, prev.2 ++ chunk.drop (prev.1 + prev.2.length - pos),
        by simpa using h2.symm, by rw [hfuse, hlen], ?_, Or.inr ⟨prev, by simp, rfl⟩, ?_, ?_⟩
      · refine ⟨G1, F2, by simp [G2], rfl, ?_, G4', ?_, ?_⟩
        · show prev.1 + (prev.2 ++ List.drop (prev.1 + prev.2.length - pos) chunk).length ≤ n
          rw [hlen]; exact max_le G3 hp
        · intro a ha
          have := e3 a ha
          show prev.1 < a.1
          omega
        · intro b hb a ha
          exact F4 b (List.mem_append_left _ hb) a ha
      · intro x
        rw [hlen, covered_cons]
        simp only [covered_nil, or_false, lt_max_iff]
        constructor
        · rintro ⟨h, h' | h'⟩
          · exact Or.inl ⟨h, h'⟩
          · by_cases hx : x < prev.1 + prev.2.length
            · exact Or.inl ⟨h, hx⟩
            · exact Or.inr ⟨by omega, h'⟩
        · rintro (⟨h, h'⟩ | ⟨h, h'⟩)
          · exact ⟨h, Or.inl h'⟩
          · exact ⟨by omega, Or.inr h'⟩
      · intro F hF hA
        exact sliceOf_fuse F prev.1 pos prev.2 chunk hle (hA prev (by simp)) hF

/-- Lines 42-114 for a clamped, non-empty chunk whose offset is not yet a key: the merge
replaces a run `absorbed` of consecutive segments by one segment that covers exactly the
chunk and what the absorbed segments covered; that segment starts at the chunk's offset
or at an absorbed segment's start, and is a slice of any `F` that the chunk and the
absorbed segments are slices of. -/
theorem mergeSegments_spec (n : Nat) (segs : List Segment) (pos : Nat)
    (chunk : List Byte) (hn : n < SIZE_MOD) (hs : SegInv n segs) (hc : chunk ≠ [])
    (hp : pos + chunk.length ≤ n) (hnew : ∀ a ∈ segs, a.1 ≠ pos) :
    ∃ before absorbed after cs data, segs = before ++ absorbed ++ after ∧
      mergeSegments segs pos chunk = .ok (before ++ (cs, data) :: after) ∧
      SegInv n (before ++ (cs, data) :: after) ∧
      (cs = pos ∨ ∃ a ∈ absorbed, a.1 = cs) ∧
      (∀ x, (cs ≤ x ∧ x < cs + data.length) ↔
        (covered absorbed x ∨ (pos ≤ x ∧ x < pos + chunk.length))) ∧
      (∀ F, sliceOf F (pos, chunk) → (∀ a ∈ absorbed, sliceOf F a) → sliceOf F (cs, data)) := by
  obtain ⟨before, ab0, after0, cs, data0, hsplit, hm, hci, hkey, hcov, hsl⟩ :=
    mergeWithPrev_emplace_spec n segs pos chunk hn hs hc hp hnew
  obtain ⟨h1, h2, h3, _, h5, h6, h7, h8⟩ := hci
  simp only at h1 h2 h3 h5 h6 h7 h8
  obtain ⟨eaten, after', data', g0, g1, g2, g3, g5, g6, g7⟩ :=
    mergeForward_spec n cs hn after0 data0 h5 h2 h7
  have hres : mergeSegments segs pos chunk = .ok (before ++ (cs, data') :: after') := by
    unfold mergeSegments
    rw [hm]
    simp only
    rw [g1]
  obtain ⟨segs', hm', hinv'⟩ := mergeSegments_ok n segs pos chunk hn hs hc hp
  rw [hres] at hm'
  cases hm'
  refine ⟨before, ab0 ++ eaten, after', cs, data', ?_, hres, hinv', ?_, ?_, ?_⟩
  · rw [hsplit, g0]; simp
  · rcases hkey with h | ⟨a, ha, h⟩
    · exact Or.inl h
    · exact Or.inr ⟨a, List.mem_append_left _ ha, h⟩
  · intro x
    rw [g6 x, hcov x, covered_append]
    tauto
  · intro F hF hA
    apply g7 F
    · exact hsl F hF (fun a ha => hA a (List.mem_append_left _ ha))
    · exact fun a ha => hA a (List.mem_append_right _ ha)

/-- Lines 42-114 for a chunk whose offset is already a key: the chunk is dropped and the
segments stay as they are. -/
theorem mergeSegments_same_offset (n : Nat) (segs : List Segment) (pos : Nat)
    (chunk : List Byte) (hn : n < SIZE_MOD) (hs : SegInv n segs)
    (hkey : ∃ a ∈ segs, a.1 = pos) :
    mergeSegments segs pos chunk = .ok segs := by
  obtain ⟨e1, e2, e3, e4⟩ := emplace_spec segs pos chunk (segInv_keys n segs hs)
  have hcur : (emplace segs pos chunk).before ++ (emplace segs pos chunk).cur ::
      (emplace segs pos chunk).after = segs := by
    rcases e4 with ⟨_, _, h3⟩ | ⟨_, h2⟩
    · obtain ⟨a, ha, hpos⟩ := hkey
      exact absurd hpos (h3 a ha)
    · exact h2
  clear e4
  unfold mergeSegments
  generalize emplace segs pos chunk = c0 at e1 e2 e3 hcur ⊢
  obtain ⟨before, cur, after⟩ := c0
  simp only at e1 e2 e3 hcur
  have hs' := hs
  rw [← hcur, segInv_append, segInv_cons] at hs'
  obtain ⟨F1, ⟨⟨_, F3⟩, F2, F5⟩, F4⟩ := hs'
  have hkeep : mergeWithPrev { before := before, cur := cur, after := after } =
      .ok ({ before := before, cur := cur, after := after }, cur.1 + cur.2.length) := by
    apply mergeWithPrev_keep _ (by simp only; omega)
    intro prev hprev
    exact F4 prev (List.mem_of_getLast?_eq_some hprev) cur (List.mem_cons_self _ _)
  have hfwd : mergeForward cur.1 (cur.1 + cur.2.length) cur.2 after = .ok (cur.2, after) := by
    cases after with
    | nil => rfl
    | cons next rest =>
      have := F5 next (List.mem_cons_self _ _)
      unfold mergeForward
      simp only
      rw [if_neg (by omega)]
  rw [hkeep]
  simp only
  rw [hfwd]
  simp only
  rw [← hcur]

/-- Segments that satisfy `SegInv` and cover all of `[0, n)`, `n ≥ 1`, are one segment that
starts at 0 and has `n` bytes. -/
theorem whole_of_covered (n : Nat) (segs : List Segment) (hn : 1 ≤ n) (hs : SegInv n segs)
    (hcov : ∀ x, x < n → covered segs x) : ∃ d, segs = [(0, d)] ∧ d.length = n := by
  cases segs with
  | nil => exact absurd (hcov 0 (by omega)) (covered_nil 0)
  | cons a rest =>
    rw [segInv_cons] at hs
    obtain ⟨⟨hne, hend⟩, hrest, hgap⟩ := hs
    have hlen : a.2.length ≠ 0 := fun h => hne (List.length_eq_zero.mp h)
    have h0 : a.1 = 0 := by
      obtain ⟨b, hb, hb1, _⟩ := hcov 0 (by omega)
      rcases List.mem_cons.mp hb with rfl | hb
      · omega
      · have := hgap b hb; omega
    have hn' : a.1 + a.2.length = n := by
      by_contra hlt
      obtain ⟨b, hb, hb1, hb2⟩ := hcov (a.1 + a.2.length) (by omega)
      rcases List.mem_cons.mp hb with rfl | hb
      · omega
      · have := hgap b hb; omega
    have hnil : rest = [] := by
      cases rest with
      | nil => rfl
      | cons b rest' =>
        have h1 := hgap b (List.mem_cons_self _ _)
        rw [segInv_cons] at hrest
        have h2 := hrest.1.2
        omega
    subst hnil
    obtain ⟨k, d⟩ := a
    simp only at h0 hn'
    subst h0
    exact ⟨d, rfl, by omega⟩

theorem clampChunk_within (n pos : Nat) (chunk : List Byte) (hn : n < SIZE_MOD)
    (hc : chunk ≠ []) (hp : pos + chunk.length ≤ n) : clampChunk n pos chunk = some chunk := by
  have hlen : chunk.length ≠ 0 := fun h => hc (List.length_eq_zero.mp h)
  have h3 : ¬ pos ≥ n := by omega
  have h4 : ¬ addSz pos chunk.length > n := by rw [addSz_eq _ _ (by omega)]; omega
  have hne : chunk.isEmpty = false := by
    cases chunk with
    | nil => exact absurd rfl hc
    | cons a l => rfl
  unfold clampChunk
  rw [if_neg h3]
  simp only [h4, if_false, hne, Bool.false_eq_true]

theorem eq_of_sliceOf_zero (F d : List Byte) (h : sliceOf F (0, d)) (hlen : d.length = F.length) :
    d = F := by
  apply List.ext_getElem?
  intro i
  by_cases hi : i < d.length
  · have := h i hi
    simpa using this
  · rw [List.getElem?_eq_none (by omega), List.getElem?_eq_none (by omega)]

/-! ## Reassembly from chunks at pairwise distinct offsets -/

/-- One delivery of a slice of `F` at an offset at which no chunk has been delivered keeps
the reassembly going, or completes it with `F`. -/
theorem assembling_step (F : List Byte) (fileId addr : Nat) (s : State)
    (delivered : List (Nat × List Byte)) (c : Nat × List Byte) (hF : F.length < SIZE_MOD)
    (h : Assembling F fileId addr s delivered ∨ Assembled F fileId addr s)
    (hc : c.2 ≠ []) (hp : c.1 + c.2.length ≤ F.length) (hsl : sliceOf F c)
    (hnew : ∀ d ∈ delivered, d.1 ≠ c.1) :
    Assembling F fileId addr (OnNewChunk s fileId c.1 c.2).1 (delivered ++ [c]) ∨
      Assembled F fileId addr (OnNewChunk s fileId c.1 c.2).1 := by
  rcases h with ⟨hf, fd, hh, hsize, hd, hpr, hseg, hw, hslices, hcov, hkeys⟩ | ⟨hf, hh⟩
  swap
  · rw [onNewChunk_unregistered _ _ _ _ hf]
    exact Or.inr ⟨hf, hh⟩
  have hlt := (List.getElem?_eq_some.mp hh).1
  have hpv : fd.promise.value = none := by rw [hpr]
  rw [onNewChunk_eq s fileId addr fd c.1 c.2 hf hh hd hpv, hsize,
    clampChunk_within F.length c.1 c.2 hF hc hp]
  simp only
  have hnewkey : ∀ a ∈ fd.segments, a.1 ≠ c.1 := by
    intro a ha
    obtain ⟨d, hd1, hd2⟩ := hkeys a ha
    rw [← hd2]
    exact hnew d hd1
  obtain ⟨before, absorbed, after, cs, data, hsplit, hm, hinv, hkey, hcv, hs1⟩ :=
    mergeSegments_spec F.length fd.segments c.1 c.2 hF hseg hc hp hnewkey
  rw [hm]
  simp only
  have hmemb : ∀ a ∈ before, a ∈ fd.segments := fun a ha => by
    rw [hsplit]; exact List.mem_append_left _ (List.mem_append_left _ ha)
  have hmema : ∀ a ∈ after, a ∈ fd.segments := fun a ha => by
    rw [hsplit]; exact List.mem_append_right _ ha
  have hmemx : ∀ a ∈ absorbed, a ∈ fd.segments := fun a ha => by
    rw [hsplit]; exact List.mem_append_left _ (List.mem_append_right _ ha)
  have hnewslice : sliceOf F (cs, data) :=
    hs1 F hsl (fun a ha => hslices a (hmemx a ha))
  by_cases hws : isWhole F.length (before ++ (cs, data) :: after) = true
  · rw [if_pos hws]
    right
    obtain ⟨d0, hd0, hlen0⟩ := (isWhole_iff _ _).mp hws
    refine ⟨by simp [regFind_regErase], ?_⟩
    rw [List.getElem?_set_self hlt, hd0]
    have hmem : (cs, data) ∈ [(0, d0)] := by rw [← hd0]; simp
    simp only [List.mem_singleton, Prod.mk.injEq] at hmem
    obtain ⟨rfl, rfl⟩ := hmem
    have hdF : data = F := eq_of_sliceOf_zero F data hnewslice hlen0
    simp [hsize, hpr, hdF]
  · rw [if_neg hws]
    left
    refine ⟨hf, _, List.getElem?_set_self hlt, rfl, hd, hpr, hinv, by simpa using hws,
      ?_, ?_, ?_⟩
    · intro a ha
      simp only [List.mem_append, List.mem_cons] at ha
      rcases ha with ha | rfl | ha
      · exact hslices a (hmemb a ha)
      · exact hnewslice
      · exact hslices a (hmema a ha)
    · intro x
      show covered (before ++ (cs, data) :: after) x ↔ covered (delivered ++ [c]) x
      rw [covered_append, covered_cons, covered_append, covered_cons, ← hcov x, hsplit,
        covered_append, covered_append]
      rw [hcv x]
      simp only [covered_nil, or_false]
      tauto
    · intro a ha
      simp only [List.mem_append, List.mem_cons] at ha
      rcases ha with ha | rfl | ha
      · obtain ⟨d, hd1, hd2⟩ := hkeys a (hmemb a ha)
        exact ⟨d, List.mem_append_left _ hd1, hd2⟩
      · rcases hkey with rfl | ⟨b, hb, rfl⟩
        · exact ⟨c, by simp, rfl⟩
        · obtain ⟨d, hd1, hd2⟩ := hkeys b (hmemx b hb)
          exact ⟨d, List.mem_append_left _ hd1, hd2⟩
      · obtain ⟨d, hd1, hd2⟩ := hkeys a (hmema a ha)
        exact ⟨d, List.mem_append_left _ hd1, hd2⟩

theorem step_onNewChunk (s : State) (fileId pos : Nat) (chunk : List Byte) :
    (step s (.onNewChunk fileId pos chunk)).1 = (OnNewChunk s fileId pos chunk).1 := by
  simp only [step]
  split <;> simp_all

/-- Delivering slices of `F` at pairwise distinct offsets, none delivered before, keeps the
reassembly going or completes it with `F`. -/
theorem assembling_run (F : List Byte) (fileId addr : Nat) (hF : F.length < SIZE_MOD)
    (rest : List (Nat × List Byte)) (s : State) (delivered : List (Nat × List Byte))
    (h : Assembling F fileId addr s delivered ∨ Assembled F fileId addr s)
    (hvalid : ∀ c ∈ rest, c.2 ≠ [] ∧ c.1 + c.2.length ≤ F.length ∧ sliceOf F c)
    (hnodup : (rest.map Prod.fst).Nodup)
    (hnew : ∀ c ∈ rest, ∀ d ∈ delivered, d.1 ≠ c.1) :
    Assembling F fileId addr (run s (deliveries fileId rest)) (delivered ++ rest) ∨
      Assembled F fileId addr (run s (deliveries fileId rest)) := by
  induction rest generalizing s delivered with
  | nil => simpa [deliveries, run] using h
  | cons c rest ih =>
    obtain ⟨hc1, hc2, hc3⟩ := hvalid c (List.mem_cons_self _ _)
    have hstep := assembling_step F fileId addr s delivered c hF h hc1 hc2 hc3
      (hnew c (List.mem_cons_self _ _))
    simp only [List.map_cons, List.nodup_cons] at hnodup
    have := ih (OnNewChunk s fileId c.1 c.2).1 (delivered ++ [c]) hstep
      (fun x hx => hvalid x (List.mem_cons_of_mem _ hx)) hnodup.2
      (by
        intro x hx d hd
        rcases List.mem_append.mp hd with hd | hd
        · exact hnew x (List.mem_cons_of_mem _ hx) d hd
        · simp only [List.mem_singleton] at hd
          subst hd
          intro heq
          exact hnodup.1 (List.mem_map.mpr ⟨x, hx, heq.symm⟩))
    simpa [deliveries, run, step_onNewChunk, List.append_assoc] using this

/-- Order independence for chunks with pairwise distinct offsets: for a file `F` of
`1 ≤ n < SIZE_MOD` bytes, non-empty slices of `F` at pairwise distinct offsets that together
cover `[0, n)`, and any permutation of them, `CollectFile(id, n)` on a registry without the
id followed by the deliveries in the permuted order ends with the id unregistered and the
`FileData` done, with `F` in its result slot. -/
theorem reassembly_distinct_offsets (F : List Byte) (s0 : State) (fileId : Nat)
    (chunks perm : List (Nat × List Byte)) (hF1 : 1 ≤ F.length) (hF2 : F.length < SIZE_MOD)
    (hreg : regFind s0.files fileId = none)
    (hvalid : ∀ c ∈ chunks, c.2 ≠ [] ∧ c.1 + c.2.length ≤ F.length ∧ sliceOf F c)
    (hnodup : (chunks.map Prod.fst).Nodup)
    (hcover : ∀ x, x < F.length → covered chunks x)
    (hperm : perm.Perm chunks) :
    Assembled F fileId s0.heap.length
      (run (CollectFile s0 fileId F.length).1 (deliveries fileId perm)) := by
  have hstart : Assembling F fileId s0.heap.length (CollectFile s0 fileId F.length).1 [] := by
    rw [collectFile_unregistered _ _ _ hreg]
    refine ⟨by simp [regFind_regAssign], FileData.new F.length, by simp, rfl, rfl, rfl,
      segInv_nil _, rfl, by simp [FileData.new], by simp [FileData.new], by simp [FileData.new]⟩
  have hrun := assembling_run F fileId s0.heap.length hF2 perm _ [] (Or.inl hstart)
    (fun c hc => hvalid c (hperm.mem_iff.mp hc))
    ((hperm.map Prod.fst).nodup_iff.mpr hnodup) (by simp)
  rcases hrun with ⟨_, fd, _, _, _, _, hseg, hw, _, hcov, _⟩ | hdone
  · exfalso
    have hall : ∀ x, x < F.length → covered fd.segments x := by
      intro x hx
      rw [hcov x]
      obtain ⟨a, ha, h1⟩ := hcover x hx
      exact ⟨a, by simpa using hperm.mem_iff.mpr ha, h1⟩
    have := (isWhole_iff _ _).mpr (whole_of_covered F.length fd.segments hF1 hseg hall)
    rw [hw] at this
    cases this
  · exact hdone

theorem onNewChunk_eq_at (s : State) (fileId pos : Nat) (chunk : List Byte) :
    OnNewChunk s fileId pos chunk =
      match regFind s.files fileId with
      | none => (s, .ok ())
      | some addr => onNewChunkAt s fileId addr pos chunk := by
  unfold OnNewChunk onNewChunkAt
  rfl

theorem deliver_done (fd : FileData) (pos : Nat) (chunk : List Byte) (h : fd.done = true) :
    deliver fd pos chunk = (fd, .ok false) := by
  simp [deliver, h]

theorem deliverAll_done (fd : FileData) (cs : List (Nat × List Byte)) (h : fd.done = true) :
    deliverAll fd cs = (fd, 0) := by
  induction cs with
  | nil => rfl
  | cons c cs ih => simp [deliverAll, deliver_done fd c.1 c.2 h, ih]

theorem deliver_completes (fd : FileData) (pos : Nat) (chunk : List Byte)
    (h : (deliver fd pos chunk).2 = .ok true) :
    fd.done = false ∧ (deliver fd pos chunk).1.done = true := by
  by_cases hd : fd.done = true
  · rw [deliver_done fd pos chunk hd] at h
    simp at h
  · have hd' : fd.done = false := by simpa using hd
    refine ⟨hd', ?_⟩
    unfold deliver at h ⊢
    simp only [hd', Bool.false_eq_true, if_false] at h ⊢
    cases hc : clampChunk fd.fileSize pos chunk with
    | none => rw [hc] at h; simp at h
    | some c =>
      rw [hc] at h
      simp only at h ⊢
      cases hm : mergeSegments fd.segments pos c with
      | error e => rw [hm] at h; simp at h
      | ok segs =>
        rw [hm] at h
        simp only at h ⊢
        match segs with
        | [] => simp at h
        | [(k, d)] =>
          simp only at h ⊢
          by_cases hk : k = 0 ∧ d.length = fd.fileSize
          · rw [if_pos hk] at h ⊢
            cases hp : fd.promise.set_value d with
            | error e => simp [hp] at h
            | ok p => rfl
          · rw [if_neg hk] at h
            simp at h
        | a :: b :: rest => simp at h

/-- The done flag of a `FileData` is never cleared by a delivery. -/
theorem deliver_done_mono (fd : FileData) (pos : Nat) (chunk : List Byte)
    (h : fd.done = true) : (deliver fd pos chunk).1.done = true := by
  rw [deliver_done fd pos chunk h]; exact h

theorem deliverAll_count (fd : FileData) (cs : List (Nat × List Byte)) :
    (deliverAll fd cs).2 ≤ 1 := by
  induction cs generalizing fd with
  | nil => simp [deliverAll]
  | cons c cs ih =>
    simp only [deliverAll]
    by_cases hr : (deliver fd c.1 c.2).2 = .ok true
    · have hdone := (deliver_completes fd c.1 c.2 hr).2
      rw [deliverAll_done _ cs hdone]
      simp [hr]
    · simp only [hr, if_false, Nat.zero_add]
      exact ih _

theorem step_collectFile (s : State) (fileId fileSize : Nat) :
    (step s (.collectFile fileId fileSize)).1 = (CollectFile s fileId fileSize).1 := by
  simp only [step]
  split <;> simp_all

theorem step_getFile (s : State) (fileId : Nat) :
    (step s (.getFile fileId)).1 = (GetFile s fileId).1 := by
  simp only [step]
  split <;> simp_all

/-- A call of `OnNewChunk` changes no registry entry of another id. -/
theorem onNewChunk_files_other (s : State) (a b pos : Nat) (chunk : List Byte) (hab : a ≠ b) :
    regFind (OnNewChunk s a pos chunk).1.files b = regFind s.files b := by
  unfold OnNewChunk
  cases hf : regFind s.files a with
  | none => rfl
  | some addr =>
    simp only
    cases hh : s.heap[addr]? with
    | none => rfl
    | some fd =>
      simp only
      rcases hd : deliver fd pos chunk with ⟨fd', r⟩
      rcases r with e | b'
      · rfl
      · cases b'
        · rfl
        · simp [regFind_regErase, hab]

/-- A call of `OnNewChunk` registers nothing. -/
theorem onNewChunk_files_sub (s : State) (a pos : Nat) (chunk : List Byte) (id x : Nat)
    (h : regFind (OnNewChunk s a pos chunk).1.files id = some x) :
    regFind s.files id = some x := by
  by_cases hid : a = id
  · subst hid
    unfold OnNewChunk at h
    cases hf : regFind s.files a with
    | none => rw [hf] at h; simp [hf] at h
    | some addr =>
      rw [hf] at h
      simp only at h
      cases hh : s.heap[addr]? with
      | none => rw [hh] at h; simpa [hf] using h
      | some fd =>
        rw [hh] at h
        simp only at h
        rcases hd : deliver fd pos chunk with ⟨fd', r⟩
        rw [hd] at h
        rcases r with e | b'
        · simpa [hf] using h
        · cases b'
          · simpa [hf] using h
          · simp [regFind_regErase] at h
  · rw [onNewChunk_files_other s a id pos chunk hid] at h
    exact h

/-- A call of `OnNewChunk` changes no `FileData` other than the one its id is registered at. -/
theorem onNewChunk_heap_other (s : State) (a pos : Nat) (chunk : List Byte) (addr : Nat)
    (h : ∀ x, regFind s.files a = some x → x ≠ addr) :
    (OnNewChunk s a pos chunk).1.heap[addr]? = s.heap[addr]? := by
  unfold OnNewChunk
  cases hf : regFind s.files a with
  | none => rfl
  | some x =>
    have hne := h x hf
    simp only
    cases hh : s.heap[x]? with
    | none => rfl
    | some fd =>
      simp only
      rcases hd : deliver fd pos chunk with ⟨fd', r⟩
      rcases r with e | b'
      · exact List.getElem?_set_ne hne
      · cases b'
        · exact List.getElem?_set_ne hne
        · exact List.getElem?_set_ne hne

/-- What a call of `OnNewChunk` for `b` does to the registry entry of `b` and to the
`FileData` at `addr`, where `b` is registered if at all, depends on these two only. -/
theorem onNewChunk_view (s1 s2 : State) (b addr pos : Nat) (chunk : List Byte)
    (hf : regFind s1.files b = regFind s2.files b)
    (hb : ∀ y, regFind s1.files b = some y → y = addr)
    (hh : s1.heap[addr]? = s2.heap[addr]?) :
    regFind (OnNewChunk s1 b pos chunk).1.files b =
      regFind (OnNewChunk s2 b pos chunk).1.files b ∧
    (OnNewChunk s1 b pos chunk).1.heap[addr]? = (OnNewChunk s2 b pos chunk).1.heap[addr]? := by
  unfold OnNewChunk
  rw [← hf]
  cases hf1 : regFind s1.files b with
  | none => exact ⟨by simpa [hf1] using hf, hh⟩
  | some y =>
    have hy := hb y hf1
    subst hy
    simp only
    rw [← hh]
    cases hh1 : s1.heap[y]? with
    | none => exact ⟨by simpa [hf1] using hf, by rw [← hh, hh1]⟩
    | some fd =>
      have hlt1 := (List.getElem?_eq_some.mp hh1).1
      have hlt2 := (List.getElem?_eq_some.mp (hh ▸ hh1 : s2.heap[y]? = some fd)).1
      simp only
      rcases hd : deliver fd pos chunk with ⟨fd', r⟩
      rcases r with e | b'
      · exact ⟨by simpa [hf1] using hf,
          by simp only [List.getElem?_set_self hlt1, List.getElem?_set_self hlt2]⟩
      · cases b'
        · exact ⟨by simpa [hf1] using hf,
            by simp only [List.getElem?_set_self hlt1, List.getElem?_set_self hlt2]⟩
        · exact ⟨by simp [regFind_regErase],
            by simp only [List.getElem?_set_self hlt1, List.getElem?_set_self hlt2]⟩

/-- In a run of `OnNewChunk` calls, the registry entry of `b` and the `FileData` at its
address are what the calls for `b` alone make them. -/
theorem run_filter_view (b addr : Nat) (cs : List Call)
    (hcs : ∀ c ∈ cs, ∃ id pos chunk, c = Call.onNewChunk id pos chunk)
    (s1 s2 : State)
    (hf : regFind s1.files b = regFind s2.files b)
    (hb : ∀ y, regFind s1.files b = some y → y = addr)
    (hh : s1.heap[addr]? = s2.heap[addr]?)
    (hapart : ∀ id x, id ≠ b → regFind s1.files id = some x → x ≠ addr) :
    regFind (run s1 cs).files b =
      regFind (run s2 (cs.filter (fun c => c.target = b))).files b ∧
    (run s1 cs).heap[addr]? = (run s2 (cs.filter (fun c => c.target = b))).heap[addr]? := by
  induction cs generalizing s1 s2 with
  | nil => exact ⟨hf, hh⟩
  | cons c cs ih =>
    obtain ⟨id, pos, chunk, rfl⟩ := hcs c (List.mem_cons_self _ _)
    have hcs' : ∀ c ∈ cs, ∃ id pos chunk, c = Call.onNewChunk id pos chunk :=
      fun c hc => hcs c (List.mem_cons_of_mem _ hc)
    have hapart' : ∀ id' x, id' ≠ b →
        regFind (OnNewChunk s1 id pos chunk).1.files id' = some x → x ≠ addr :=
      fun id' x hne hx => hapart id' x hne (onNewChunk_files_sub s1 id pos chunk id' x hx)
    have hb' : ∀ y, regFind (OnNewChunk s1 id pos chunk).1.files b = some y → y = addr :=
      fun y hy => hb y (onNewChunk_files_sub s1 id pos chunk b y hy)
    by_cases hid : id = b
    · subst hid
      obtain ⟨v1, v2⟩ := onNewChunk_view s1 s2 id addr pos chunk hf hb hh
      simp only [List.filter_cons, Call.target, decide_True, if_true, run, step_onNewChunk]
      exact ih hcs' _ _ v1 hb' v2 hapart'
    · have hfilt : decide ((Call.onNewChunk id pos chunk).target = b) = false := by
        simp [Call.target, hid]
      simp only [List.filter_cons, hfilt, run, step_onNewChunk, Bool.false_eq_true, if_false]
      refine ih hcs' _ _ ?_ hb' ?_ hapart'
      · rw [onNewChunk_files_other s1 id b pos chunk hid]; exact hf
      · rw [onNewChunk_heap_other s1 id pos chunk addr (fun x hx => hapart id x hid hx)]
        exact hh

theorem clampChunk_zero (pos : Nat) (chunk : List Byte) : clampChunk 0 pos chunk = none := by
  simp [clampChunk]

theorem onNewChunk_of_deliver_unchanged (s : State) (fileId addr pos : Nat) (chunk : List Byte)
    (fd : FileData) (hf : regFind s.files fileId = some addr) (hh : s.heap[addr]? = some fd)
    (hd : deliver fd pos chunk = (fd, .ok false)) :
    OnNewChunk s fileId pos chunk = (s, .ok ()) := by
  simp only [OnNewChunk, hf, hh, hd, list_set_self _ _ _ hh]

theorem emptyForever_step (fileId addr : Nat) (s : State) (c : Call) (hreg : RegInv s)
    (h : EmptyForever fileId addr s) : EmptyForever fileId addr (step s c).1 := by
  obtain ⟨hf, r, hh⟩ := h
  have hlt := (List.getElem?_eq_some.mp hh).1
  cases c with
  | collectFile id size =>
    rw [step_collectFile]
    unfold CollectFile
    cases hid : regFind s.files id with
    | some x => exact ⟨hf, r, hh⟩
    | none =>
      have hne : id ≠ fileId := fun e => by rw [e, hf] at hid; cases hid
      refine ⟨by simp [regFind_regAssign, hne, hf], r, ?_⟩
      show (s.heap ++ [FileData.new size])[addr]? = _
      rw [List.getElem?_append_left hlt]
      exact hh
  | onNewChunk id pos chunk =>
    rw [step_onNewChunk]
    by_cases hid : id = fileId
    · subst hid
      have hdel : ∀ fd : FileData, fd.fileSize = 0 → fd.done = false →
          deliver fd pos chunk = (fd, .ok false) := by
        intro fd h0 hd
        simp [deliver, hd, h0, clampChunk_zero]
      rw [onNewChunk_of_deliver_unchanged s id addr pos chunk _ hf hh (hdel _ rfl rfl)]
      exact ⟨hf, r, hh⟩
    · refine ⟨by rw [onNewChunk_files_other s id fileId pos chunk hid]; exact hf, r, ?_⟩
      rw [onNewChunk_heap_other s id pos chunk addr]
      · exact hh
      · intro x hx hxa
        exact hid (hreg.2 id fileId x hx (hxa ▸ hf))
  | getFile id =>
    rw [step_getFile]
    unfold GetFile
    cases hid : regFind s.files id with
    | none => exact ⟨hf, r, hh⟩
    | some x =>
      simp only
      cases hx : s.heap[x]? with
      | none => exact ⟨hf, r, hh⟩
      | some fd =>
        simp only
        cases hg : fd.promise.get_future with
        | error e => exact ⟨hf, r, hh⟩
        | ok p =>
          refine ⟨hf, ?_⟩
          by_cases hxa : x = addr
          · subst hxa
            rw [hh] at hx
            cases hx
            have hp : p.value = none := by
              unfold Promise.get_future at hg
              split at hg
              · cases hg
              · cases hg; rfl
            refine ⟨p.retrieved, ?_⟩
            show (s.heap.set x _)[x]? = _
            rw [List.getElem?_set_self hlt]
            cases p
            simp only at hp
            subst hp
            rfl
          · refine ⟨r, ?_⟩
            show (s.heap.set x _)[addr]? = _
            rw [List.getElem?_set_ne hxa]
            exact hh

theorem emptyForever_run (fileId addr : Nat) (cs : List Call) (s : State) (hreg : RegInv s)
    (h : EmptyForever fileId addr s) : EmptyForever fileId addr (run s cs) := by
  induction cs generalizing s with
  | nil => exact h
  | cons c cs ih =>
    exact ih (step s c).1 (regInv_step s c hreg) (emptyForever_step fileId addr s c hreg h)

theorem forwardIterations_le (currStart : Nat) (after : List Segment) (currEnd : Nat)
    (curData : List Byte) :
    forwardIterations currStart currEnd curData after ≤ after.length + 1 := by
  induction after generalizing currEnd curData with
  | nil => simp [forwardIterations]
  | cons next rest ih =>
    unfold forwardIterations
    by_cases hle : next.1 ≤ currEnd
    · rw [if_pos hle]
      cases hfu : fuse currStart currEnd curData next.1 (addSz next.1 next.2.length) next.2 with
      | error e => simp
      | ok r =>
        obtain ⟨me, md⟩ := r
        simp only [List.length_cons]
        have := ih me md
        omega
    · rw [if_neg hle]
      simp

theorem mergeForward_erased (currStart : Nat) (after : List Segment) (currEnd : Nat)
    (curData data' : List Byte) (after' : List Segment)
    (h : mergeForward currStart currEnd curData after = .ok (data', after')) :
    ∃ eaten, after = eaten ++ after' ∧
      forwardIterations currStart currEnd curData after = eaten.length + 1 := by
  induction after generalizing currEnd curData with
  | nil =>
    simp only [mergeForward, Except.ok.injEq, Prod.mk.injEq] at h
    obtain ⟨_, rfl⟩ := h
    exact ⟨[], rfl, by simp [forwardIterations]⟩
  | cons next rest ih =>
    unfold mergeForward at h
    unfold forwardIterations
    simp only at h ⊢
    by_cases hle : next.1 ≤ currEnd
    · rw [if_pos hle] at h ⊢
      cases hfu : fuse currStart currEnd curData next.1 (addSz next.1 next.2.length) next.2 with
      | error e => rw [hfu] at h; cases h
      | ok r =>
        obtain ⟨me, md⟩ := r
        rw [hfu] at h
        simp only at h ⊢
        obtain ⟨eaten, h1, h2⟩ := ih me md h
        exact ⟨next :: eaten, by rw [h1]; rfl, by rw [h2]; simp; omega⟩
    · rw [if_neg hle] at h ⊢
      simp only [Except.ok.injEq, Prod.mk.injEq] at h
      obtain ⟨_, rfl⟩ := h
      exact ⟨[], rfl, rfl⟩

theorem emplace_length (segs : List Segment) (pos : Nat) (chunk : List Byte) :
    (emplace segs pos chunk).before.length + (emplace segs pos chunk).after.length ≤
      segs.length := by
  induction segs with
  | nil => simp [emplace]
  | cons s rest ih =>
    unfold emplace
    by_cases h1 : pos < s.1
    · simp [h1]
    · by_cases h2 : pos = s.1
      · simp [h1, h2]
      · simp only [h1, h2, if_false, List.length_cons]
        omega

theorem mergeWithPrev_length (c c' : Cursor) (e : Nat) (h : mergeWithPrev c = .ok (c', e)) :
    c'.before.length ≤ c.before.length ∧ c'.after = c.after := by
  unfold mergeWithPrev at h
  simp only at h
  cases hl : c.before.getLast? with
  | none =>
    rw [hl] at h
    simp only [Except.ok.injEq, Prod.mk.injEq] at h
    obtain ⟨rfl, _⟩ := h
    exact ⟨le_refl _, rfl⟩
  | some prev =>
    rw [hl] at h
    simp only at h
    split at h
    · split at h
      · cases h
      · simp only [Except.ok.injEq, Prod.mk.injEq] at h
        obtain ⟨rfl, _⟩ := h
        exact ⟨by simp, rfl⟩
    · simp only [Except.ok.injEq, Prod.mk.injEq] at h
      obtain ⟨rfl, _⟩ := h
      exact ⟨le_refl _, rfl⟩

theorem mergeSegments_length (segs : List Segment) (pos : Nat) (chunk : List Byte)
    (segs' : List Segment) (h : mergeSegments segs pos chunk = .ok segs') :
    segs'.length ≤ segs.length + 1 := by
  unfold mergeSegments at h
  cases hm : mergeWithPrev (emplace segs pos chunk) with
  | error e => rw [hm] at h; cases h
  | ok r =>
    obtain ⟨c, e⟩ := r
    rw [hm] at h
    simp only at h
    cases hfw : mergeForward c.cur.1 e c.cur.2 c.after with
    | error e' => rw [hfw] at h; cases h
    | ok r' =>
      obtain ⟨d, a'⟩ := r'
      rw [hfw] at h
      simp only [Except.ok.injEq] at h
      subst h
      obtain ⟨eaten, h1, _⟩ := mergeForward_erased _ _ _ _ _ _ hfw
      obtain ⟨h2, h3⟩ := mergeWithPrev_length _ _ _ hm
      have h4 := emplace_length segs pos chunk
      have h5 : a'.length ≤ (emplace segs pos chunk).after.length := by
        rw [← h3, h1]; simp
      simp only [List.length_append, List.length_cons]
      omega

theorem copyAt_length (dst : List Byte) (off : Nat) (src r : List Byte)
    (h : copyAt dst off src = .ok r) : r.length = dst.length := by
  unfold copyAt at h
  split at h
  · cases h
    simp only [List.length_append, List.length_take, List.length_drop]
    omega
  · cases h

theorem fuse_shape (fs fe : Nat) (first : List Byte) (ss se : Nat) (second : List Byte)
    (me : Nat) (md : List Byte) (h : fuse fs fe first ss se second = .ok (me, md)) :
    me = max fe se ∧ md.length = subSz (max fe se) fs := by
  unfold fuse at h
  simp only at h
  cases h1 : copyAt (resize [] (subSz (max fe se) fs)) 0 first with
  | error e => rw [h1] at h; cases h
  | ok m1 =>
    rw [h1] at h
    simp only at h
    have hl1 : m1.length = subSz (max fe se) fs := by
      rw [copyAt_length _ _ _ _ h1, resize_nil, List.length_replicate]
    split at h
    · split at h
      · cases h
      · rename_i m2 h2
        simp only [Except.ok.injEq, Prod.mk.injEq] at h
        obtain ⟨rfl, rfl⟩ := h
        exact ⟨rfl, by rw [copyAt_length _ _ _ _ h2, hl1]⟩
    · simp only [Except.ok.injEq, Prod.mk.injEq] at h
      obtain ⟨rfl, rfl⟩ := h
      exact ⟨rfl, hl1⟩

theorem addSz_lt (a b : Nat) : addSz a b < SIZE_MOD :=
  Nat.mod_lt _ (by decide)

theorem addSz_subSz (a b : Nat) (ha : a < SIZE_MOD) (hb : b < SIZE_MOD) :
    addSz a (subSz b a) = b := by
  unfold addSz subSz
  rw [Nat.mod_eq_of_lt ha, Nat.add_mod_mod]
  have : a + (b + SIZE_MOD - a) = b + SIZE_MOD := by omega
  rw [this, Nat.add_mod_right]
  exact Nat.mod_eq_of_lt hb

theorem fuse_end (fs fe : Nat) (first : List Byte) (ss se : Nat) (second : List Byte)
    (me : Nat) (md : List Byte) (hfs : fs < SIZE_MOD) (hfe : fe < SIZE_MOD)
    (hse : se < SIZE_MOD) (h : fuse fs fe first ss se second = .ok (me, md)) :
    me = max fe se ∧ addSz fs md.length = me := by
  obtain ⟨h1, h2⟩ := fuse_shape _ _ _ _ _ _ _ _ h
  refine ⟨h1, ?_⟩
  rw [h2, h1]
  exact addSz_subSz fs _ hfs (max_lt hfe hse)

theorem calc_mergeForward (cs : Nat) (hcs : cs < SIZE_MOD) (after : List Segment)
    (currEnd : Nat) (data : List Byte) (he : currEnd = addSz cs data.length)
    (ha : after.Pairwise endsBefore) (data' : List Byte) (after' : List Segment)
    (h : mergeForward cs currEnd data after = .ok (data', after')) :
    ∃ eaten, after = eaten ++ after' ∧ ∀ a ∈ after', addSz cs data'.length < a.1 := by
  induction after generalizing currEnd data with
  | nil =>
    simp only [mergeForward, Except.ok.injEq, Prod.mk.injEq] at h
    obtain ⟨rfl, rfl⟩ := h
    exact ⟨[], rfl, by simp⟩
  | cons next rest ih =>
    obtain ⟨hhead, hrest⟩ := List.pairwise_cons.mp ha
    unfold mergeForward at h
    simp only at h
    by_cases hle : next.1 ≤ currEnd
    · rw [if_pos hle] at h
      cases hfu : fuse cs currEnd data next.1 (addSz next.1 next.2.length) next.2 with
      | error e => rw [hfu] at h; cases h
      | ok r =>
        obtain ⟨me, md⟩ := r
        rw [hfu] at h
        simp only at h
        have hend := (fuse_end _ _ _ _ _ _ _ _ hcs (he ▸ addSz_lt _ _) (addSz_lt _ _) hfu).2
        obtain ⟨eaten, h1, h2⟩ := ih me md hend.symm hrest h
        exact ⟨next :: eaten, by rw [h1]; rfl, h2⟩
    · rw [if_neg hle] at h
      simp only [Except.ok.injEq, Prod.mk.injEq] at h
      obtain ⟨rfl, rfl⟩ := h
      refine ⟨[], rfl, ?_⟩
      intro a ha'
      rcases List.mem_cons.mp ha' with rfl | ha'
      · omega
      · have := (hhead a ha').1; omega

/-- The merge of lines 42-114, whenever it returns, keeps `CalcInv`. -/
theorem calcInv_mergeSegments (segs : List Segment) (pos : Nat) (chunk : List Byte)
    (segs' : List Segment) (hinv : CalcInv segs) (hpos : pos < SIZE_MOD)
    (h : mergeSegments segs pos chunk = .ok segs') : CalcInv segs' := by
  obtain ⟨hpw, hkeys⟩ := hinv
  obtain ⟨e1, e2, e3, e4⟩ := emplace_spec segs pos chunk (hpw.imp (fun hab => hab.1))
  have hsub : ∀ a, a ∈ (emplace segs pos chunk).before ∨ a ∈ (emplace segs pos chunk).after →
      a ∈ segs := by
    intro a ha
    rcases e4 with ⟨_, h2, _⟩ | ⟨_, h2⟩
    · rw [← h2]; exact List.mem_append.mpr ha
    · rw [← h2]
      rcases ha with ha | ha
      · exact List.mem_append_left _ ha
      · exact List.mem_append_right _ (List.mem_cons_of_mem _ ha)
  have hsplit : (emplace segs pos chunk).before.Pairwise endsBefore ∧
      (emplace segs pos chunk).after.Pairwise endsBefore ∧
      ∀ b ∈ (emplace segs pos chunk).before, ∀ a ∈ (emplace segs pos chunk).after,
        endsBefore b a := by
    rcases e4 with ⟨_, h2, _⟩ | ⟨_, h2⟩
    · rw [← h2, List.pairwise_append] at hpw
      exact hpw
    · rw [← h2, List.pairwise_append, List.pairwise_cons] at hpw
      exact ⟨hpw.1, hpw.2.1.2, fun b hb a ha => hpw.2.2 b hb a (List.mem_cons_of_mem _ ha)⟩
  unfold mergeSegments at h
  generalize emplace segs pos chunk = c0 at e1 e2 e3 hsub hsplit h
  clear e4
  obtain ⟨before, cur, after⟩ := c0
  simp only at e1 e2 e3 hsub hsplit h
  obtain ⟨Hb, Ha, Hba⟩ := hsplit
  have hcur : cur.1 < SIZE_MOD := by rw [e2]; exact hpos
  cases hm : mergeWithPrev { before := before, cur := cur, after := after } with
  | error e => rw [hm] at h; cases h
  | ok r =>
    obtain ⟨c', e⟩ := r
    rw [hm] at h
    simp only at h
    have hG : c'.before.Pairwise endsBefore ∧ (∀ b ∈ c'.before, endsBefore b c'.cur) ∧
        (∀ a ∈ after, c'.cur.1 < a.1) ∧ (∀ b ∈ c'.before, ∀ a ∈ after, endsBefore b a) ∧
        c'.cur.1 < SIZE_MOD ∧ (∀ b ∈ c'.before, b.1 < SIZE_MOD) ∧
        e = addSz c'.cur.1 c'.cur.2.length ∧ c'.after = after := by
      unfold mergeWithPrev at hm
      simp only at hm
      rcases List.eq_nil_or_concat before with hbn | ⟨l, prev, hbl⟩
      · subst hbn
        simp only [List.getLast?_nil, Except.ok.injEq, Prod.mk.injEq] at hm
        obtain ⟨rfl, rfl⟩ := hm
        exact ⟨Hb, by simp, fun a ha => by rw [e2]; exact e3 a ha, by simp, hcur, by simp,
          rfl, rfl⟩
      · rw [List.concat_eq_append] at hbl
        subst hbl
        simp only [List.getLast?_concat, List.dropLast_concat] at hm
        rw [List.pairwise_append] at Hb
        obtain ⟨Hl, _, Hlp⟩ := Hb
        have Hlp' : ∀ b ∈ l, endsBefore b prev := fun b hb => Hlp b hb prev (by simp)
        have hprev : prev.1 < pos := e1 prev (by simp)
        by_cases hge : addSz prev.1 prev.2.length ≥ cur.1
        · rw [if_pos hge] at hm
          cases hfu : fuse prev.1 (addSz prev.1 prev.2.length) prev.2 cur.1
              (addSz cur.1 cur.2.length) cur.2 with
          | error e' => rw [hfu] at hm; cases hm
          | ok r' =>
            obtain ⟨me, md⟩ := r'
            rw [hfu] at hm
            simp only [Except.ok.injEq, Prod.mk.injEq] at hm
            obtain ⟨rfl, rfl⟩ := hm
            refine ⟨Hl, ?_, ?_, ?_, hsub prev (Or.inl (by simp)) |> hkeys prev, ?_, rfl, rfl⟩
            · intro b hb
              exact Hlp' b hb
            · intro a ha
              have := e3 a ha
              show prev.1 < a.1
              omega
            · intro b hb a ha
              exact Hba b (List.mem_append_left _ hb) a ha
            · intro b hb
              exact hkeys b (hsub b (Or.inl (List.mem_append_left _ hb)))
        · rw [if_neg hge] at hm
          simp only [Except.ok.injEq, Prod.mk.injEq] at hm
          obtain ⟨rfl, rfl⟩ := hm
          refine ⟨List.pairwise_append.mpr ⟨Hl, by simp, fun b hb a ha => by
              simp only [List.mem_singleton] at ha; subst ha; exact Hlp' b hb⟩,
            ?_, fun a ha => by rw [e2]; exact e3 a ha, Hba, hcur, ?_, rfl, rfl⟩
          · intro b hb
            show b.1 < cur.1 ∧ addSz b.1 b.2.length < cur.1
            rcases List.mem_append.mp hb with hb | hb
            · have hbp := Hlp' b hb
              exact ⟨by rw [e2]; exact e1 b (List.mem_append_left _ hb),
                by have := hbp.2; omega⟩
            · simp only [List.mem_singleton] at hb
              subst hb
              exact ⟨by omega, by omega⟩
          · intro b hb
            exact hkeys b (hsub b (Or.inl hb))
    obtain ⟨G1, G2, G3, G4, G5, G6, G7, G8⟩ := hG
    cases hfw : mergeForward c'.cur.1 e c'.cur.2 c'.after with
    | error e' => rw [hfw] at h; cases h
    | ok r' =>
      obtain ⟨d, a'⟩ := r'
      rw [hfw] at h
      simp only [Except.ok.injEq] at h
      subst h
      rw [G8] at hfw
      obtain ⟨eaten, k1, k2⟩ := calc_mergeForward c'.cur.1 G5 after e c'.cur.2 G7 Ha d a' hfw
      have hmem : ∀ a ∈ a', a ∈ after := fun a ha => by
        rw [k1]; exact List.mem_append_right _ ha
      constructor
      · rw [List.pairwise_append, List.pairwise_cons]
        refine ⟨G1, ⟨?_, ?_⟩, ?_⟩
        · intro a ha
          exact ⟨G3 a (hmem a ha), k2 a ha⟩
        · rw [k1, List.pairwise_append] at Ha
          exact Ha.2.1
        · intro b hb a ha
          rcases List.mem_cons.mp ha with rfl | ha
          · exact G2 b hb
          · exact G4 b hb a (hmem a ha)
      · intro a ha
        simp only [List.mem_append, List.mem_cons] at ha
        rcases ha with ha | rfl | ha
        · exact G6 a ha
        · exact G5
        · exact hkeys a (hsub a (Or.inr (hmem a ha)))

theorem calcInv_nil : CalcInv [] := by
  simp [CalcInv]

theorem calcInv_deliver (fd : FileData) (pos : Nat) (chunk : List Byte)
    (hinv : CalcInv fd.segments) (hpos : pos < SIZE_MOD) :
    CalcInv (deliver fd pos chunk).1.segments := by
  unfold deliver
  by_cases hd : fd.done = true
  · simp only [hd, if_true]; exact hinv
  · simp only [hd, Bool.false_eq_true, if_false]
    cases hc : clampChunk fd.fileSize pos chunk with
    | none => exact hinv
    | some c =>
      simp only
      cases hm : mergeSegments fd.segments pos c with
      | error e => exact hinv
      | ok segs =>
        have hsegs := calcInv_mergeSegments fd.segments pos c segs hinv hpos hm
        simp only
        match segs, hsegs with
        | [], _ => exact calcInv_nil
        | [(k, d)], hsegs =>
          simp only
          by_cases hk : k = 0 ∧ d.length = fd.fileSize
          · rw [if_pos hk]
            cases fd.promise.set_value d with
            | error e => exact calcInv_nil
            | ok p => exact calcInv_nil
          · rw [if_neg hk]; exact hsegs
        | a :: b :: rest, hsegs => exact hsegs

theorem heapCalc_step (s : State) (c : Call) (hwt : c.wellTyped) (h : HeapCalc s) :
    HeapCalc (step s c).1 := by
  cases c with
  | collectFile fileId fileSize =>
    rw [step_collectFile]
    unfold CollectFile
    cases hf : regFind s.files fileId with
    | some a => exact h
    | none =>
      intro x hx
      simp only [List.mem_append, List.mem_singleton] at hx
      rcases hx with hx | hx
      · exact h x hx
      · subst hx; exact calcInv_nil
  | onNewChunk fileId pos chunk =>
    rw [step_onNewChunk]
    unfold OnNewChunk
    cases hf : regFind s.files fileId with
    | none => exact h
    | some addr =>
      simp only
      cases hh : s.heap[addr]? with
      | none => exact h
      | some fd =>
        obtain ⟨hlt, hget⟩ := List.getElem?_eq_some.mp hh
        have hfd : fd ∈ s.heap := hget ▸ List.getElem_mem hlt
        have hd := calcInv_deliver fd pos chunk (h fd hfd) hwt.2.1
        simp only
        rcases hdel : deliver fd pos chunk with ⟨fd', r⟩
        rw [hdel] at hd
        have hset : ∀ x ∈ s.heap.set addr fd', CalcInv x.segments := by
          intro x hx
          rcases List.mem_or_eq_of_mem_set hx with hx | hx
          · exact h x hx
          · subst hx; exact hd
        rcases r with e | b
        · exact hset
        · cases b
          · exact hset
          · exact hset
  | getFile fileId =>
    rw [step_getFile]
    unfold GetFile
    cases hf : regFind s.files fileId with
    | none => exact h
    | some a =>
      simp only
      cases hh : s.heap[a]? with
      | none => exact h
      | some fd =>
        simp only
        cases hg : fd.promise.get_future with
        | error e => exact h
        | ok p =>
          obtain ⟨hlt, hget⟩ := List.getElem?_eq_some.mp hh
          have hfd : fd ∈ s.heap := hget ▸ List.getElem_mem hlt
          intro x hx
          rcases List.mem_or_eq_of_mem_set hx with hx | hx
          · exact h x hx
          · subst hx; exact h fd hfd

/-- In every reachable state the segments of every `FileData` satisfy `CalcInv`. -/
theorem heapCalc_of_reachable (s : State) (h : Reachable s) : HeapCalc s := by
  induction h with
  | init => intro x hx; simp [State.empty] at hx
  | step s c _ hwt _ ih => exact heapCalc_step s c hwt ih

theorem mergeWithPrev_keep_calc (c : Cursor)
    (hprev : ∀ prev, c.before.getLast? = some prev →
      addSz prev.1 prev.2.length < c.cur.1) :
    mergeWithPrev c = .ok (c, addSz c.cur.1 c.cur.2.length) := by
  unfold mergeWithPrev
  simp only
  cases hl : c.before.getLast? with
  | none => rfl
  | some prev =>
    have hp := hprev prev hl
    simp only
    rw [if_neg (by omega)]

/-- Lines 42-114 for a chunk whose offset is already a key, in any reachable state: the
chunk is dropped and the segments stay as they are. -/
theorem mergeSegments_same_key (segs : List Segment) (pos : Nat) (chunk : List Byte)
    (hinv : CalcInv segs) (hkey : ∃ a ∈ segs, a.1 = pos) :
    mergeSegments segs pos chunk = .ok segs := by
  obtain ⟨hpw, _⟩ := hinv
  obtain ⟨e1, e2, e3, e4⟩ := emplace_spec segs pos chunk (hpw.imp (fun hab => hab.1))
  have hcur : (emplace segs pos chunk).before ++ (emplace segs pos chunk).cur ::
      (emplace segs pos chunk).after = segs := by
    rcases e4 with ⟨_, _, h3⟩ | ⟨_, h2⟩
    · obtain ⟨a, ha, hpos⟩ := hkey
      exact absurd hpos (h3 a ha)
    · exact h2
  clear e4
  unfold mergeSegments
  generalize emplace segs pos chunk = c0 at e1 e2 e3 hcur ⊢
  obtain ⟨before, cur, after⟩ := c0
  simp only at e1 e2 e3 hcur
  rw [← hcur, List.pairwise_append, List.pairwise_cons] at hpw
  obtain ⟨_, ⟨F5, _⟩, F4⟩ := hpw
  have hkeep : mergeWithPrev { before := before, cur := cur, after := after } =
      .ok ({ before := before, cur := cur, after := after }, addSz cur.1 cur.2.length) := by
    apply mergeWithPrev_keep_calc
    intro prev hprev
    exact (F4 prev (List.mem_of_getLast?_eq_some hprev) cur (List.mem_cons_self _ _)).2
  have hfwd : mergeForward cur.1 (addSz cur.1 cur.2.length) cur.2 after = .ok (cur.2, after) := by
    cases after with
    | nil => rfl
    | cons next rest =>
      have := (F5 next (List.mem_cons_self _ _)).2
      unfold mergeForward
      simp only
      rw [if_neg (by omega)]
  rw [hkeep]
  simp only
  rw [hfwd]
  simp only
  rw [← hcur]

theorem byteAt_range (a : Segment) (x : Nat) (v : Byte) (h : byteAt a x = some v) :
    a.1 ≤ x ∧ x < a.1 + a.2.length := by
  unfold byteAt at h
  by_cases hx : a.1 ≤ x
  · rw [if_pos hx] at h
    have := (List.getElem?_eq_some.mp h).1
    omega
  · rw [if_neg hx] at h; cases h

theorem stored_nil (x : Nat) (v : Byte) : ¬ stored [] x v := by
  simp [stored]

theorem stored_cons (a : Segment) (l : List Segment) (x : Nat) (v : Byte) :
    stored (a :: l) x v ↔ byteAt a x = some v ∨ stored l x v := by
  simp [stored]

theorem stored_append (l1 l2 : List Segment) (x : Nat) (v : Byte) :
    stored (l1 ++ l2) x v ↔ stored l1 x v ∨ stored l2 x v := by
  simp only [stored, List.mem_append]
  constructor
  · rintro ⟨a, ha | ha, h⟩
    · exact Or.inl ⟨a, ha, h⟩
    · exact Or.inr ⟨a, ha, h⟩
  · rintro (⟨a, ha, h⟩ | ⟨a, ha, h⟩)
    · exact ⟨a, Or.inl ha, h⟩
    · exact ⟨a, Or.inr ha, h⟩

/-- The bytes of a merged buffer: those of the first segment up to its end, those of the
second from there on. -/
theorem byteAt_fuse (fs ss : Nat) (first second : List Byte) (h2 : ss ≤ fs + first.length)
    (x : Nat) :
    byteAt (fs, first ++ second.drop (fs + first.length - ss)) x =
      if x < fs + first.length then byteAt (fs, first) x else byteAt (ss, second) x := by
  unfold byteAt
  simp only
  by_cases hx : fs ≤ x
  · rw [if_pos hx]
    by_cases hlt : x < fs + first.length
    · rw [if_pos hlt, if_pos hx, List.getElem?_append_left (by omega)]
    · rw [if_neg hlt, if_pos (by omega), List.getElem?_append_right (by omega),
        List.getElem?_drop]
      congr 1
      omega
  · rw [if_neg hx, if_pos (by omega), if_neg hx]

/-- The bytes the loop of lines 79-114 leaves in the current entry: those it had, and from
its old end on those of the entries it erased. -/
theorem mergeForward_bytes (n cs : Nat) (hn : n < SIZE_MOD) (after : List Segment)
    (data : List Byte) (hd : cs + data.length ≤ n) (ha : SegInv n after)
    (hk : ∀ a ∈ after, cs < a.1) :
    ∃ eaten after' data', after = eaten ++ after' ∧
      mergeForward cs (cs + data.length) data after = .ok (data', after') ∧
      data.length ≤ data'.length ∧
      (∀ a ∈ after', cs + data'.length < a.1) ∧
      (∀ x v, byteAt (cs, data') x = some v ↔
        (byteAt (cs, data) x = some v ∨ (cs + data.length ≤ x ∧ stored eaten x v))) := by
  induction after generalizing data with
  | nil =>
    exact ⟨[], [], data, rfl, rfl, le_refl _, by simp, by simp [stored_nil]⟩
  | cons next rest ih =>
    rw [segInv_cons] at ha
    obtain ⟨⟨hne, hnext⟩, hrest, hgap⟩ := ha
    have hcs : cs < next.1 := hk next (List.mem_cons_self _ _)
    unfold mergeForward
    simp only
    rw [addSz_eq _ _ (by omega)]
    by_cases hle : next.1 ≤ cs + data.length
    · rw [if_pos hle, fuse_ok cs next.1 data next.2 hle (by omega) (by omega)]
      simp only
      have hlen := fuse_length cs next.1 data next.2 hle
      rw [← hlen]
      have hd' : cs + (data ++ List.drop (cs + data.length - next.1) next.2).length ≤ n := by
        rw [hlen]; exact max_le hd hnext
      obtain ⟨eaten, after', data', h0, h1, h3, h5, h6⟩ :=
        ih (data ++ List.drop (cs + data.length - next.1) next.2) hd' hrest
          (fun a ha => hk a (List.mem_cons_of_mem _ ha))
      refine ⟨next :: eaten, after', data', by rw [h0]; rfl, h1, ?_, h5, ?_⟩
      · simp only [List.length_append] at h3
        omega
      · intro x v
        rw [h6 x v, byteAt_fuse cs next.1 data next.2 hle x, stored_cons, hlen]
        have hmem : ∀ a ∈ eaten, a ∈ rest := fun a ha => by
          rw [h0]; exact List.mem_append_left _ ha
        by_cases hx : x < cs + data.length
        · rw [if_pos hx]
          constructor
          · rintro (h | ⟨h, _⟩)
            · exact Or.inl h
            · have := Nat.le_max_left (cs + data.length) (next.1 + next.2.length)
              omega
          · rintro (h | ⟨h, _⟩)
            · exact Or.inl h
            · omega
        · rw [if_neg hx]
          have hnone : ¬ byteAt (cs, data) x = some v := fun h => by
            have := (byteAt_range _ _ _ h).2
            exact hx this
          constructor
          · rintro (h | ⟨_, h⟩)
            · exact Or.inr ⟨by omega, Or.inl h⟩
            · exact Or.inr ⟨by omega, Or.inr h⟩
          · rintro (h | ⟨_, h | ⟨a, ha, h⟩⟩)
            · exact absurd h hnone
            · exact Or.inl h
            · refine Or.inr ⟨?_, a, ha, h⟩
              have h1 := hgap a (hmem a ha)
              have h2 := (byteAt_range _ _ _ h).1
              exact max_le (by omega) (by omega)
    · rw [if_neg hle]
      refine ⟨[], next :: rest, data, rfl, rfl, le_refl _, ?_, by simp [stored_nil]⟩
      intro a ha
      rcases List.mem_cons.mp ha with rfl | ha
      · omega
      · have := hgap a ha; omega

/-- The bytes lines 42-77 leave in the current entry, for a chunk whose offset is not yet
a key: those of the absorbed segment (if any), and where it holds none those of the
chunk. -/
theorem mergeWithPrev_emplace_bytes (n : Nat) (segs : List Segment) (pos : Nat)
    (chunk : List Byte) (hn : n < SIZE_MOD) (hs : SegInv n segs) (hc : chunk ≠ [])
    (hp : pos + chunk.length ≤ n) (hnew : ∀ a ∈ segs, a.1 ≠ pos) :
    ∃ before absorbed after cs data, segs = before ++ absorbed ++ after ∧
      mergeWithPrev (emplace segs pos chunk) =
        .ok ({ before := before, cur := (cs, data), after := after }, cs + data.length) ∧
      CursorInv n { before := before, cur := (cs, data), after := after } (cs + data.length) ∧
      (∀ b ∈ before ++ absorbed, b.1 < pos) ∧ (∀ a ∈ after, pos < a.1) ∧
      cs ≤ pos ∧ pos + chunk.length ≤ cs + data.length ∧
      (∀ a ∈ after, ∀ x, a.1 ≤ x → pos + chunk.length ≤ x → cs + data.length ≤ x) ∧
      (∀ x v, byteAt (cs, data) x = some v ↔
        (stored absorbed x v ∨
          ((∀ b ∈ absorbed, b.1 + b.2.length ≤ x) ∧ byteAt (pos, chunk) x = some v))) := by
  obtain ⟨e1, e2, e3, e4⟩ := emplace_spec segs pos chunk (segInv_keys n segs hs)
  generalize emplace segs pos chunk = c0 at e1 e2 e3 e4
  obtain ⟨before, cur, after⟩ := c0
  simp only at e1 e2 e3 e4
  rcases e4 with ⟨h1, h2, _⟩ | ⟨h1, _⟩
  swap
  · exact absurd e2 (hnew cur h1)
  subst h1
  have hs' := hs
  rw [← h2, segInv_append] at hs'
  obtain ⟨F1, F2, F4⟩ := hs'
  rcases List.eq_nil_or_concat before with hb | ⟨l, prev, hb⟩
  · subst hb
    refine ⟨[], [], after, pos, chunk, by simpa using h2.symm,
      mergeWithPrev_keep _ (by simp only; omega) (by simp), ?_, by simp, e3, le_refl _,
      le_refl _, fun _ _ _ _ h => h, ?_⟩
    · exact ⟨F1, F2, hc, rfl, hp, by simp, e3, by simp⟩
    · intro x v; simp [stored_nil]
  · rw [List.concat_eq_append] at hb
    subst hb
    rw [segInv_append, segInv_cons] at F1
    obtain ⟨G1, ⟨⟨G2, G3⟩, _, _⟩, G4⟩ := F1
    have G4' : ∀ b ∈ l, b.1 + b.2.length < prev.1 := fun b hb => G4 b hb prev (by simp)
    have hprevlt : prev.1 < pos := e1 prev (by simp)
    by_cases hlt : prev.1 + prev.2.length < pos
    · refine ⟨l ++ [prev], [], after, pos, chunk, by simpa using h2.symm,
        mergeWithPrev_keep _ (by simp only; omega) ?_, ?_, by simpa using e1, e3, le_refl _,
        le_refl _, fun _ _ _ _ h => h, ?_⟩
      · intro p hpp
        simp only [List.getLast?_concat, Option.some.injEq] at hpp
        subst hpp
        exact hlt
      · refine ⟨?_, F2, hc, rfl, hp, ?_, e3, F4⟩
        · rw [segInv_append, segInv_cons]
          exact ⟨G1, ⟨⟨G2, G3⟩, segInv_nil n, by simp⟩, G4⟩
        · intro b hb
          show b.1 + b.2.length < pos
          rcases List.mem_append.mp hb with hb | hb
          · have := G4' b hb; omega
          · simp only [List.mem_singleton] at hb
            subst hb; exact hlt
      · intro x v; simp [stored_nil]
    · have hle : pos ≤ prev.1 + prev.2.length := by omega
      have hfuse := mergeWithPrev_fuse l prev (pos, chunk) after hle (by omega)
        (by simp only; omega)
      have hlen := fuse_length prev.1 pos prev.2 chunk hle
      simp only at hfuse
      refine ⟨l, [prev], after, prev.1, prev.2 ++ chunk.drop (prev.1 + prev.2.length - pos),
        by simpa using h2.symm, by rw [hfuse, hlen], ?_, e1, e3, by omega, ?_, ?_, ?_⟩
      · refine ⟨G1, F2, by simp [G2], rfl, ?_, G4', ?_, ?_⟩
        · show prev.1 + (prev.2 ++ List.drop (prev.1 + prev.2.length - pos) chunk).length ≤ n
          rw [hlen]; exact max_le G3 hp
        · intro a ha
          have := e3 a ha
          show prev.1 < a.1
          omega
        · intro b hb a ha
          exact F4 b (List.mem_append_left _ hb) a ha
      · rw [hlen]; exact Nat.le_max_right _ _
      · intro a ha x hax hpx
        rw [hlen]
        have := F4 prev (by simp) a ha
        exact max_le (by omega) hpx
      · intro x v
        rw [byteAt_fuse prev.1 pos prev.2 chunk hle x, stored_cons]
        simp only [stored_nil, or_false, List.mem_singleton, forall_eq]
        by_cases hx : x < prev.1 + prev.2.length
        · rw [if_pos hx]
          constructor
          · exact fun h => Or.inl h
          · rintro (h | ⟨h, _⟩)
            · exact h
            · omega
        · rw [if_neg hx]
          constructor
          · exact fun h => Or.inr ⟨by omega, h⟩
          · rintro (h | ⟨_, h⟩)
            · have := (byteAt_range _ _ _ h).2
              omega
            · exact h

/-- The bytes lines 42-114 store, for a clamped, non-empty chunk whose offset is not yet a
key: with `P` the segments that start before the chunk and `A` those that start after it,
an offset holds the byte a segment of `P` held for it; or, where no segment of `P` reaches,
the byte of the chunk; or, from the end of the chunk on, the byte a segment of `A` held
for it. -/
theorem mergeSegments_bytes (n : Nat) (segs : List Segment) (pos : Nat)
    (chunk : List Byte) (hn : n < SIZE_MOD) (hs : SegInv n segs) (hc : chunk ≠ [])
    (hp : pos + chunk.length ≤ n) (hnew : ∀ a ∈ segs, a.1 ≠ pos) :
    ∃ P A merged, segs = P ++ A ∧ (∀ b ∈ P, b.1 < pos) ∧ (∀ a ∈ A, pos < a.1) ∧
      mergeSegments segs pos chunk = .ok merged ∧ SegInv n merged ∧
      ∀ x v, stored merged x v ↔
        (stored P x v ∨
          ((∀ b ∈ P, b.1 + b.2.length ≤ x) ∧ byteAt (pos, chunk) x = some v) ∨
          (pos + chunk.length ≤ x ∧ stored A x v)) := by
  obtain ⟨before, ab0, after0, cs, data0, hsplit, hm, hci, hP, hA, hcs, hend, hfar, hby⟩ :=
    mergeWithPrev_emplace_bytes n segs pos chunk hn hs hc hp hnew
  obtain ⟨h1, h2, h3, _, h5, h6, h7, h8⟩ := hci
  simp only at h1 h2 h3 h5 h6 h7 h8
  obtain ⟨eaten, after', data', g0, g1, g3, g5, g6⟩ :=
    mergeForward_bytes n cs hn after0 data0 h5 h2 h7
  have hres : mergeSegments segs pos chunk = .ok (before ++ (cs, data') :: after') := by
    unfold mergeSegments
    rw [hm]
    simp only
    rw [g1]
  obtain ⟨segs', hm', hinv'⟩ := mergeSegments_ok n segs pos chunk hn hs hc hp
  rw [hres] at hm'
  cases hm'
  refine ⟨before ++ ab0, after0, _, hsplit, hP, hA, hres, hinv', ?_⟩
  intro x v
  rw [stored_append, stored_cons, g6 x v, hby x v, stored_append, g0, stored_append]
  constructor
  · rintro (h | ((h | ⟨h, h'⟩) | ⟨h, h'⟩) | h)
    · exact Or.inl (Or.inl h)
    · exact Or.inl (Or.inr h)
    · refine Or.inr (Or.inl ⟨?_, h'⟩)
      intro b hb
      rcases List.mem_append.mp hb with hb | hb
      · have := h6 b hb
        have := (byteAt_range _ _ _ h').1
        simp only at this
        omega
      · exact h b hb
    · exact Or.inr (Or.inr ⟨by omega, Or.inl h'⟩)
    · obtain ⟨a, ha, hax⟩ := h
      have := g5 a ha
      have := (byteAt_range _ _ _ hax).1
      exact Or.inr (Or.inr ⟨by omega, Or.inr ⟨a, ha, hax⟩⟩)
  · rintro ((h | h) | ⟨h, h'⟩ | ⟨h, h' | h'⟩)
    · exact Or.inl h
    · exact Or.inr (Or.inl (Or.inl (Or.inl h)))
    · exact Or.inr (Or.inl (Or.inl (Or.inr
        ⟨fun b hb => h b (List.mem_append_right _ hb), h'⟩)))
    · obtain ⟨a, ha, hax⟩ := h'
      have ha0 : a ∈ after0 := by rw [g0]; exact List.mem_append_left _ ha
      have := hfar a ha0 x (byteAt_range _ _ _ hax).1 h
      exact Or.inr (Or.inl (Or.inr ⟨this, a, ha, hax⟩))
    · exact Or.inr (Or.inr h')

/-! ## Interleaved steps: who owns the mutexes -/

theorem creachable_runSched (scripts : List (List Call)) (c : Config) (sched : List Nat)
    (h : CReachable scripts c) : CReachable scripts (runSched c sched) := by
  induction sched generalizing c with
  | nil => exact h
  | cons t rest ih =>
    unfold runSched
    apply ih
    cases hs : stepThread c t with
    | none => exact h
    | some c' => exact CReachable.step c t c' h hs

theorem lockInv_init (scripts : List (List Call)) : LockInv (Config.init scripts) := by
  constructor
  · intro t
    simp only [Config.init, List.getElem?_map]
    constructor
    · intro h; cases h
    · rintro ⟨th, h, hg⟩
      cases hth : scripts[t]? with
      | none => rw [hth] at h; cases h
      | some x => rw [hth] at h; cases h; cases hg
  · intro a t
    simp only [Config.init, List.getElem?_map]
    constructor
    · intro h; cases h
    · rintro ⟨th, h, hg⟩
      cases hth : scripts[t]? with
      | none => rw [hth] at h; cases h
      | some x => rw [hth] at h; cases h; cases hg

/-- A step that leaves each mutex as it is, takes it when it is free, or releases it, the
thread moving to a point of its call that holds what it then owns, keeps `LockInv`. -/
theorem lockInv_update (c : Config) (t : Nat) (th th' : Thread) (st' : State)
    (g' : Option Nat) (m' : Nat → Option Nat) (hinv : LockInv c)
    (ht : c.threads[t]? = some th)
    (hg : (g' = c.globalMutex ∧ th'.pc.holdsGlobal = th.pc.holdsGlobal) ∨
      (c.globalMutex = none ∧ g' = some t ∧ th'.pc.holdsGlobal = true) ∨
      (th.pc.holdsGlobal = true ∧ g' = none ∧ th'.pc.holdsGlobal = false))
    (hm : ∀ a, (m' a = c.mtx a ∧ (th'.pc.holdsMtx = some a ↔ th.pc.holdsMtx = some a)) ∨
      (c.mtx a = none ∧ m' a = some t ∧ th'.pc.holdsMtx = some a) ∨
      (th.pc.holdsMtx = some a ∧ m' a = none ∧ th'.pc.holdsMtx ≠ some a)) :
    LockInv { st := st', globalMutex := g', mtx := m', threads := c.threads.set t th' } := by
  obtain ⟨hG, hM⟩ := hinv
  have htl : t < c.threads.length := (List.getElem?_eq_some.mp ht).1
  have hself : (c.threads.set t th')[t]? = some th' := by
    rw [List.getElem?_set_self htl]
  have hother : ∀ u, u ≠ t → (c.threads.set t th')[u]? = c.threads[u]? := fun u hu => by
    rw [List.getElem?_set_ne (Ne.symm hu)]
  constructor
  · intro u
    show g' = some u ↔ ∃ x, (c.threads.set t th')[u]? = some x ∧ x.pc.holdsGlobal = true
    by_cases hu : u = t
    · subst hu
      rw [hself]
      rcases hg with ⟨h1, h2⟩ | ⟨h1, h2, h3⟩ | ⟨h1, h2, h3⟩
      · rw [h1, hG u, ht]
        simp only [Option.some.injEq, exists_eq_left', h2]
      · rw [h2]
        simp only [Option.some.injEq, exists_eq_left', h3]
      · rw [h2]
        simp only [Option.some.injEq, exists_eq_left', h3]
        simp
    · rw [hother u hu]
      rcases hg with ⟨h1, h2⟩ | ⟨h1, h2, h3⟩ | ⟨h1, h2, h3⟩
      · rw [h1]; exact hG u
      · rw [h2]
        have := hG u
        rw [h1] at this
        constructor
        · intro h; cases h; exact absurd rfl hu
        · intro h; exact absurd (this.mpr h) (by simp)
      · rw [h2]
        have h4 := (hG t).mpr ⟨th, ht, h1⟩
        constructor
        · intro h; cases h
        · intro h
          have h5 := (hG u).mpr h
          rw [h4] at h5
          cases h5
          exact absurd rfl hu
  · intro a u
    show m' a = some u ↔ ∃ x, (c.threads.set t th')[u]? = some x ∧ x.pc.holdsMtx = some a
    by_cases hu : u = t
    · subst hu
      rw [hself]
      rcases hm a with ⟨h1, h2⟩ | ⟨h1, h2, h3⟩ | ⟨h1, h2, h3⟩
      · rw [h1, hM a u, ht]
        simp only [Option.some.injEq, exists_eq_left', h2]
      · rw [h2]
        simp only [Option.some.injEq, exists_eq_left', h3]
      · rw [h2]
        simp only [Option.some.injEq, exists_eq_left']
        constructor
        · intro h; cases h
        · intro h; exact absurd h h3
    · rw [hother u hu]
      rcases hm a with ⟨h1, h2⟩ | ⟨h1, h2, h3⟩ | ⟨h1, h2, h3⟩
      · rw [h1]; exact hM a u
      · rw [h2]
        have := hM a u
        rw [h1] at this
        constructor
        · intro h; cases h; exact absurd rfl hu
        · intro h; exact absurd (this.mpr h) (by simp)
      · rw [h2]
        have h4 := (hM a t).mpr ⟨th, ht, h1⟩
        constructor
        · intro h; cases h
        · intro h
          have h5 := (hM a u).mpr h
          rw [h4] at h5
          cases h5
          exact absurd rfl hu

theorem lockInv_step (c : Config) (t : Nat) (c' : Config) (hinv : LockInv c)
    (h : stepThread c t = some c') : LockInv c' := by
  unfold stepThread at h
  cases ht : c.threads[t]? with
  | none => rw [ht] at h; cases h
  | some th =>
    rw [ht] at h
    simp only at h
    have hkeepM : ∀ (p q : Pc), p.holdsMtx = none → q.holdsMtx = none →
        ∀ a, (c.mtx a = c.mtx a ∧ (q.holdsMtx = some a ↔ p.holdsMtx = some a)) ∨
          (c.mtx a = none ∧ c.mtx a = some t ∧ q.holdsMtx = some a) ∨
          (p.holdsMtx = some a ∧ c.mtx a = none ∧ q.holdsMtx ≠ some a) := by
      intro p q hp hq a
      left
      rw [hp, hq]
      exact ⟨rfl, Iff.rfl⟩
    have hacqM : ∀ (p q : Pc) (addr : Nat), c.mtx addr = none → p.holdsMtx = none →
        q.holdsMtx = some addr →
        ∀ a, (setOwner c.mtx addr (some t) a = c.mtx a ∧
            (q.holdsMtx = some a ↔ p.holdsMtx = some a)) ∨
          (c.mtx a = none ∧ setOwner c.mtx addr (some t) a = some t ∧ q.holdsMtx = some a) ∨
          (p.holdsMtx = some a ∧ setOwner c.mtx addr (some t) a = none ∧
            q.holdsMtx ≠ some a) := by
      intro p q addr hfree hp hq a
      by_cases ha : a = addr
      · subst ha
        right; left
        exact ⟨hfree, by simp [setOwner], hq⟩
      · left
        rw [hp, hq]
        refine ⟨by simp [setOwner, ha], ?_⟩
        simp only [Option.some.injEq, reduceCtorEq, iff_false]
        exact fun h => ha h.symm
    have hrelM : ∀ (p q : Pc) (addr : Nat), p.holdsMtx = some addr → q.holdsMtx = none →
        ∀ a, (setOwner c.mtx addr none a = c.mtx a ∧
            (q.holdsMtx = some a ↔ p.holdsMtx = some a)) ∨
          (c.mtx a = none ∧ setOwner c.mtx addr none a = some t ∧ q.holdsMtx = some a) ∨
          (p.holdsMtx = some a ∧ setOwner c.mtx addr none a = none ∧
            q.holdsMtx ≠ some a) := by
      intro p q addr hp hq a
      by_cases ha : a = addr
      · subst ha
        right; right
        exact ⟨hp, by simp [setOwner], by rw [hq]; simp⟩
      · left
        rw [hp, hq]
        refine ⟨by simp [setOwner, ha], ?_⟩
        simp only [Option.some.injEq, reduceCtorEq, false_iff]
        exact fun h => ha h.symm
    have hsameM : ∀ (p q : Pc), q.holdsMtx = p.holdsMtx →
        ∀ a, (c.mtx a = c.mtx a ∧ (q.holdsMtx = some a ↔ p.holdsMtx = some a)) ∨
          (c.mtx a = none ∧ c.mtx a = some t ∧ q.holdsMtx = some a) ∨
          (p.holdsMtx = some a ∧ c.mtx a = none ∧ q.holdsMtx ≠ some a) := by
      intro p q hpq a
      left
      rw [hpq]
      exact ⟨rfl, Iff.rfl⟩
    cases hpc : th.pc with
    | idle =>
      rw [hpc] at h
      simp only at h
      cases htodo : th.todo with
      | nil => rw [htodo] at h; cases h
      | cons call rest =>
        rw [htodo] at h
        cases h
        refine lockInv_update c t th _ _ _ _ hinv ht (Or.inl ⟨rfl, ?_⟩) (hkeepM _ _ ?_ ?_)
        · rw [hpc]; cases call <;> rfl
        · rw [hpc]; rfl
        · cases call <;> rfl
    | cfStart fileId fileSize =>
      rw [hpc] at h
      simp only at h
      by_cases hfree : c.globalMutex = none
      · rw [if_pos hfree] at h
        cases h
        refine lockInv_update c t th _ _ _ _ hinv ht (Or.inr (Or.inl ⟨hfree, rfl, rfl⟩))
          (hkeepM _ _ ?_ rfl)
        rw [hpc]; rfl
      · rw [if_neg hfree] at h; cases h
    | cfBody fileId fileSize =>
      rw [hpc] at h
      cases h
      refine lockInv_update c t th _ _ _ _ hinv ht (Or.inr (Or.inr ⟨?_, rfl, rfl⟩))
        (hkeepM _ _ ?_ rfl)
      · rw [hpc]; rfl
      · rw [hpc]; rfl
    | oncStart fileId pos chunk =>
      rw [hpc] at h
      simp only at h
      by_cases hfree : c.globalMutex = none
      · rw [if_pos hfree] at h
        cases h
        refine lockInv_update c t th _ _ _ _ hinv ht (Or.inr (Or.inl ⟨hfree, rfl, rfl⟩))
          (hkeepM _ _ ?_ rfl)
        rw [hpc]; rfl
      · rw [if_neg hfree] at h; cases h
    | oncFind fileId pos chunk =>
      rw [hpc] at h
      simp only at h
      cases hf : regFind c.st.files fileId with
      | none =>
        rw [hf] at h
        cases h
        refine lockInv_update c t th _ _ _ _ hinv ht (Or.inr (Or.inr ⟨?_, rfl, rfl⟩))
          (hkeepM _ _ ?_ rfl)
        · rw [hpc]; rfl
        · rw [hpc]; rfl
      | some addr =>
        rw [hf] at h
        cases h
        refine lockInv_update c t th _ _ _ _ hinv ht (Or.inr (Or.inr ⟨?_, rfl, rfl⟩))
          (hkeepM _ _ ?_ rfl)
        · rw [hpc]; rfl
        · rw [hpc]; rfl
    | oncLock fileId addr pos chunk =>
      rw [hpc] at h
      simp only at h
      by_cases hfree : c.mtx addr = none
      · rw [if_pos hfree] at h
        cases h
        refine lockInv_update c t th _ _ _ _ hinv ht (Or.inl ⟨rfl, ?_⟩)
          (hacqM _ _ addr hfree ?_ rfl)
        · rw [hpc]; rfl
        · rw [hpc]; rfl
      · rw [if_neg hfree] at h; cases h
    | oncBody fileId addr pos chunk =>
      rw [hpc] at h
      simp only at h
      cases hh : c.st.heap[addr]? with
      | none => rw [hh] at h; cases h
      | some fd =>
        rw [hh] at h
        simp only at h
        cases hb : body fd pos chunk with
        | undefined => rw [hb] at h; cases h
        | returned fd' =>
          rw [hb] at h
          cases h
          refine lockInv_update c t th _ _ _ _ hinv ht (Or.inl ⟨rfl, ?_⟩)
            (hrelM _ _ addr ?_ rfl)
          · rw [hpc]; rfl
          · rw [hpc]; rfl
        | completed fd' completeFile =>
          rw [hb] at h
          cases h
          refine lockInv_update c t th _ _ _ _ hinv ht (Or.inl ⟨rfl, ?_⟩) (hsameM _ _ ?_)
          · rw [hpc]; rfl
          · rw [hpc]; rfl
    | oncUnlock fileId addr completeFile =>
      rw [hpc] at h
      cases h
      refine lockInv_update c t th _ _ _ _ hinv ht (Or.inl ⟨rfl, ?_⟩) (hrelM _ _ addr ?_ rfl)
      · rw [hpc]; rfl
      · rw [hpc]; rfl
    | oncSetValue fileId addr completeFile =>
      rw [hpc] at h
      simp only at h
      cases hh : c.st.heap[addr]? with
      | none => rw [hh] at h; cases h
      | some fd =>
        rw [hh] at h
        simp only at h
        cases hsv : fd.promise.set_value completeFile with
        | error e =>
          rw [hsv] at h
          cases h
          refine lockInv_update c t th _ _ _ _ hinv ht (Or.inl ⟨rfl, ?_⟩) (hkeepM _ _ ?_ rfl)
          · rw [hpc]; rfl
          · rw [hpc]; rfl
        | ok p =>
          rw [hsv] at h
          cases h
          refine lockInv_update c t th _ _ _ _ hinv ht (Or.inl ⟨rfl, ?_⟩) (hkeepM _ _ ?_ rfl)
          · rw [hpc]; rfl
          · rw [hpc]; rfl
    | oncGLock fileId addr =>
      rw [hpc] at h
      simp only at h
      by_cases hfree : c.globalMutex = none
      · rw [if_pos hfree] at h
        cases h
        refine lockInv_update c t th _ _ _ _ hinv ht (Or.inr (Or.inl ⟨hfree, rfl, rfl⟩))
          (hkeepM _ _ ?_ rfl)
        rw [hpc]; rfl
      · rw [if_neg hfree] at h; cases h
    | oncErase fileId addr =>
      rw [hpc] at h
      cases h
      refine lockInv_update c t th _ _ _ _ hinv ht (Or.inr (Or.inr ⟨?_, rfl, rfl⟩))
        (hkeepM _ _ ?_ rfl)
      · rw [hpc]; rfl
      · rw [hpc]; rfl
    | gfStart fileId =>
      rw [hpc] at h
      simp only at h
      by_cases hfree : c.globalMutex = none
      · rw [if_pos hfree] at h
        cases h
        refine lockInv_update c t th _ _ _ _ hinv ht (Or.inr (Or.inl ⟨hfree, rfl, rfl⟩))
          (hkeepM _ _ ?_ rfl)
        rw [hpc]; rfl
      · rw [if_neg hfree] at h; cases h
    | gfFind fileId =>
      rw [hpc] at h
      simp only at h
      cases hf : regFind c.st.files fileId with
      | none =>
        rw [hf] at h
        cases h
        refine lockInv_update c t th _ _ _ _ hinv ht (Or.inr (Or.inr ⟨?_, rfl, rfl⟩))
          (hkeepM _ _ ?_ rfl)
        · rw [hpc]; rfl
        · rw [hpc]; rfl
      | some addr =>
        rw [hf] at h
        cases h
        refine lockInv_update c t th _ _ _ _ hinv ht (Or.inr (Or.inr ⟨?_, rfl, rfl⟩))
          (hkeepM _ _ ?_ rfl)
        · rw [hpc]; rfl
        · rw [hpc]; rfl
    | gfLock fileId addr =>
      rw [hpc] at h
      simp only at h
      by_cases hfree : c.mtx addr = none
      · rw [if_pos hfree] at h
        cases h
        refine lockInv_update c t th _ _ _ _ hinv ht (Or.inl ⟨rfl, ?_⟩)
          (hacqM _ _ addr hfree ?_ rfl)
        · rw [hpc]; rfl
        · rw [hpc]; rfl
      · rw [if_neg hfree] at h; cases h
    | gfBody fileId addr =>
      rw [hpc] at h
      simp only at h
      cases hh : c.st.heap[addr]? with
      | none => rw [hh] at h; cases h
      | some fd =>
        rw [hh] at h
        simp only at h
        cases hgf : fd.promise.get_future with
        | error e =>
          rw [hgf] at h
          cases h
          refine lockInv_update c t th _ _ _ _ hinv ht (Or.inl ⟨rfl, ?_⟩)
            (hrelM _ _ addr ?_ rfl)
          · rw [hpc]; rfl
          · rw [hpc]; rfl
        | ok p =>
          rw [hgf] at h
          cases h
          refine lockInv_update c t th _ _ _ _ hinv ht (Or.inl ⟨rfl, ?_⟩)
            (hrelM _ _ addr ?_ rfl)
          · rw [hpc]; rfl
          · rw [hpc]; rfl

/-- In every configuration the threads can get to, each mutex is owned by the thread that
is between taking and releasing it, and by no other. -/
theorem lockInv_of_creachable (scripts : List (List Call)) (c : Config)
    (h : CReachable scripts c) : LockInv c := by
  induction h with
  | init => exact lockInv_init scripts
  | step c t c' _ hs ih => exact lockInv_step c t c' ih hs

/-! ## Interleaved steps: flags, result slots and the registry -/

theorem threads_set_lookup (l : List Thread) (t u : Nat) (th' x : Thread)
    (h : (l.set t th')[u]? = some x) : (u = t ∧ x = th') ∨ (u ≠ t ∧ l[u]? = some x) := by
  by_cases hu : u = t
  · subst hu
    have hlt : u < l.length := by
      have := (List.getElem?_eq_some.mp h).1
      simpa using this
    rw [List.getElem?_set_self hlt] at h
    cases h
    exact Or.inl ⟨rfl, rfl⟩
  · rw [List.getElem?_set_ne (Ne.symm hu)] at h
    exact Or.inr ⟨hu, h⟩

theorem threads_set_exists (l : List Thread) (t : Nat) (th th' : Thread)
    (ht : l[t]? = some th) (P : Thread → Prop) (hP : P th → P th')
    (h : ∃ (w : Nat) (tw : Thread), l[w]? = some tw ∧ P tw) :
    ∃ (w : Nat) (tw : Thread), (l.set t th')[w]? = some tw ∧ P tw := by
  obtain ⟨w, tw, h1, h2⟩ := h
  have htl : t < l.length := (List.getElem?_eq_some.mp ht).1
  by_cases hw : w = t
  · subst hw
    rw [ht] at h1
    cases h1
    exact ⟨w, th', by rw [List.getElem?_set_self htl], hP h2⟩
  · exact ⟨w, tw, by rw [List.getElem?_set_ne (Ne.symm hw)]; exact h1, h2⟩

/-- A step that leaves the registry, the flags and the slots as they are, takes the
thread neither into nor out of lines 121-130, and gives it a `FileData` only as the
registry has it, keeps `CInv`. -/
theorem cinv_view_same (c : Config) (t : Nat) (th th' : Thread) (st' : State)
    (g' : Option Nat) (m' : Nat → Option Nat) (hinv : CInv c)
    (ht : c.threads[t]? = some th)
    (hfiles : st'.files = c.st.files) (hlen : st'.heap.length = c.st.heap.length)
    (hdone : ∀ a, doneAt st' a = doneAt c.st a)
    (hslot : ∀ a, slotFull st' a = slotFull c.st a)
    (hw : ∀ id a, th'.pc.role = .writer id a ↔ th.pc.role = .writer id a)
    (he : ∀ id a, th'.pc.role = .eraser id a ↔ th.pc.role = .eraser id a)
    (hr : ∀ id a, th'.pc.role = .ref id a →
      th.pc.role = .ref id a ∨ regFind c.st.files id = some a) :
    CInv { st := st', globalMutex := g', mtx := m', threads := c.threads.set t th' } := by
  have hwe : ∀ id a, (th.pc.role = .writer id a ∨ th.pc.role = .eraser id a) →
      (th'.pc.role = .writer id a ∨ th'.pc.role = .eraser id a) := by
    rintro id a (h | h)
    · exact Or.inl ((hw id a).mpr h)
    · exact Or.inr ((he id a).mpr h)
  have hwe' : ∀ id a, (th'.pc.role = .writer id a ∨ th'.pc.role = .eraser id a) →
      (th.pc.role = .writer id a ∨ th.pc.role = .eraser id a) := by
    rintro id a (h | h)
    · exact Or.inl ((hw id a).mp h)
    · exact Or.inr ((he id a).mp h)
  constructor
  · intro id id' a h1 h2
    dsimp only at h1 h2
    rw [hfiles] at h1 h2
    exact hinv.inj id id' a h1 h2
  · intro id a h1
    dsimp only at h1 ⊢
    rw [hfiles] at h1
    rw [hlen]
    exact hinv.alloc id a h1
  · intro u x id a hu hrole hd
    dsimp only at hu hd ⊢
    rw [hdone] at hd
    rw [hfiles]
    rcases threads_set_lookup _ _ _ _ _ hu with ⟨rfl, rfl⟩ | ⟨_, hu'⟩
    · rcases hr id a hrole with h | h
      · exact hinv.ref u th id a ht h hd
      · exact h
    · exact hinv.ref u x id a hu' hrole hd
  · intro u x id a hu hrole
    dsimp only at hu ⊢
    rw [hdone, hslot, hfiles]
    rcases threads_set_lookup _ _ _ _ _ hu with ⟨rfl, rfl⟩ | ⟨_, hu'⟩
    · exact hinv.writer u th id a ht ((hw id a).mp hrole)
    · exact hinv.writer u x id a hu' hrole
  · intro u x id a hu hrole
    dsimp only at hu ⊢
    rw [hdone, hslot, hfiles]
    rcases threads_set_lookup _ _ _ _ _ hu with ⟨rfl, rfl⟩ | ⟨_, hu'⟩
    · exact hinv.eraser u th id a ht ((he id a).mp hrole)
    · exact hinv.eraser u x id a hu' hrole
  · intro u v x y id id' a hu hv h1 h2
    dsimp only at hu hv
    rcases threads_set_lookup _ _ _ _ _ hu with ⟨rfl, rfl⟩ | ⟨_, hu'⟩
    · rcases threads_set_lookup _ _ _ _ _ hv with ⟨rfl, rfl⟩ | ⟨_, hv'⟩
      · rfl
      · exact hinv.unique u v th y id id' a ht hv' (hwe' id a h1) h2
    · rcases threads_set_lookup _ _ _ _ _ hv with ⟨rfl, rfl⟩ | ⟨_, hv'⟩
      · exact hinv.unique u v x th id id' a hu' ht h1 (hwe' id' a h2)
      · exact hinv.unique u v x y id id' a hu' hv' h1 h2
  · intro id a h1 h2
    dsimp only at h1 h2 ⊢
    rw [hfiles] at h1
    rw [hdone] at h2
    exact threads_set_exists c.threads t th th' ht
      (fun x => x.pc.role = .writer id a ∨ x.pc.role = .eraser id a) (hwe id a)
      (hinv.inFlight id a h1 h2)
  · intro a h
    dsimp only at h ⊢
    rw [hslot] at h
    rw [hdone]
    exact hinv.slotDone a h
  · intro a h1 h2
    dsimp only at h1 h2 ⊢
    rw [hdone] at h1
    rw [hslot] at h2
    obtain ⟨w, tw, id, h3, h4⟩ := hinv.pending a h1 h2
    obtain ⟨w', tw', h5, h6⟩ := threads_set_exists c.threads t th th' ht
      (fun x => x.pc.role = .writer id a) (hw id a).mpr ⟨w, tw, h3, h4⟩
    exact ⟨w', tw', id, h5, h6⟩

/-- A step that sets `done` in a `FileData` that was not done, held by the thread under the
id, and takes the thread to the points between line 121 and line 127, keeps `CInv`. -/
theorem cinv_complete (c : Config) (t : Nat) (th th' : Thread) (st' : State)
    (g' : Option Nat) (m' : Nat → Option Nat) (id a : Nat) (hinv : CInv c)
    (ht : c.threads[t]? = some th)
    (hrole : th.pc.role = .ref id a) (hrole' : th'.pc.role = .writer id a)
    (hfiles : st'.files = c.st.files) (hlen : st'.heap.length = c.st.heap.length)
    (hd0 : doneAt c.st a = false) (hd1 : doneAt st' a = true)
    (hdo : ∀ a', a' ≠ a → doneAt st' a' = doneAt c.st a')
    (hslot : ∀ a', slotFull st' a' = slotFull c.st a') :
    CInv { st := st', globalMutex := g', mtx := m', threads := c.threads.set t th' } := by
  have htl : t < c.threads.length := (List.getElem?_eq_some.mp ht).1
  have hself : (c.threads.set t th')[t]? = some th' := by
    rw [List.getElem?_set_self htl]
  have hreg : regFind c.st.files id = some a := hinv.ref t th id a ht hrole hd0
  have hs0 : slotFull c.st a = false := by
    cases h : slotFull c.st a with
    | false => rfl
    | true =>
      have := hinv.slotDone a h
      rw [hd0] at this
      cases this
  have hmono : ∀ a', doneAt c.st a' = true → doneAt st' a' = true := by
    intro a' h
    by_cases ha : a' = a
    · subst ha; exact hd1
    · rw [hdo a' ha]; exact h
  have hback : ∀ a', a' ≠ a → doneAt st' a' = true → doneAt c.st a' = true := by
    intro a' ha h
    rw [hdo a' ha] at h; exact h
  have hnotwe : ∀ id' a', ¬ (th.pc.role = .writer id' a' ∨ th.pc.role = .eraser id' a') := by
    rintro id' a' (h | h) <;> rw [hrole] at h <;> cases h
  have holdDone : ∀ (u : Nat) (x : Thread) (id' a' : Nat), c.threads[u]? = some x →
      (x.pc.role = .writer id' a' ∨ x.pc.role = .eraser id' a') →
      doneAt c.st a' = true := by
    rintro u x id' a' hu (h | h)
    · exact (hinv.writer u x id' a' hu h).2.1
    · exact (hinv.eraser u x id' a' hu h).2.1
  have hnewA : ∀ id' a', (th'.pc.role = .writer id' a' ∨ th'.pc.role = .eraser id' a') →
      a' = a := by
    rintro id' a' (h | h) <;> rw [hrole'] at h <;> cases h
    rfl
  constructor
  · intro id1 id2 a' h1 h2
    dsimp only at h1 h2
    rw [hfiles] at h1 h2
    exact hinv.inj id1 id2 a' h1 h2
  · intro id' a' h1
    dsimp only at h1 ⊢
    rw [hfiles] at h1
    rw [hlen]
    exact hinv.alloc id' a' h1
  · intro u x id' a' hu hr hd
    dsimp only at hu hd ⊢
    rw [hfiles]
    have ha : a' ≠ a := by
      intro h; subst h; rw [hd1] at hd; cases hd
    rw [hdo a' ha] at hd
    rcases threads_set_lookup _ _ _ _ _ hu with ⟨rfl, rfl⟩ | ⟨_, hu'⟩
    · rw [hrole'] at hr; cases hr
    · exact hinv.ref u x id' a' hu' hr hd
  · intro u x id' a' hu hr
    dsimp only at hu ⊢
    rw [hfiles, hslot]
    rcases threads_set_lookup _ _ _ _ _ hu with ⟨rfl, rfl⟩ | ⟨_, hu'⟩
    · rw [hrole'] at hr
      cases hr
      exact ⟨hreg, hd1, hs0⟩
    · obtain ⟨h1, h2, h3⟩ := hinv.writer u x id' a' hu' hr
      exact ⟨h1, hmono a' h2, h3⟩
  · intro u x id' a' hu hr
    dsimp only at hu ⊢
    rw [hfiles, hslot]
    rcases threads_set_lookup _ _ _ _ _ hu with ⟨rfl, rfl⟩ | ⟨_, hu'⟩
    · rw [hrole'] at hr; cases hr
    · obtain ⟨h1, h2, h3⟩ := hinv.eraser u x id' a' hu' hr
      exact ⟨h1, hmono a' h2, h3⟩
  · intro u v x y id1 id2 a' hu hv h1 h2
    dsimp only at hu hv
    rcases threads_set_lookup _ _ _ _ _ hu with ⟨rfl, rfl⟩ | ⟨_, hu'⟩
    · rcases threads_set_lookup _ _ _ _ _ hv with ⟨rfl, rfl⟩ | ⟨_, hv'⟩
      · rfl
      · have ha := hnewA id1 a' h1
        subst ha
        have := holdDone v y id2 a' hv' h2
        rw [hd0] at this
        cases this
    · rcases threads_set_lookup _ _ _ _ _ hv with ⟨rfl, rfl⟩ | ⟨_, hv'⟩
      · have ha := hnewA id2 a' h2
        subst ha
        have := holdDone u x id1 a' hu' h1
        rw [hd0] at this
        cases this
      · exact hinv.unique u v x y id1 id2 a' hu' hv' h1 h2
  · intro id' a' h1 h2
    dsimp only at h1 h2 ⊢
    rw [hfiles] at h1
    by_cases ha : a' = a
    · subst ha
      have hid := hinv.inj id' id a' h1 hreg
      subst hid
      exact ⟨t, th', hself, Or.inl hrole'⟩
    · exact threads_set_exists c.threads t th th' ht
        (fun x => x.pc.role = .writer id' a' ∨ x.pc.role = .eraser id' a')
        (fun h => absurd h (hnotwe id' a'))
        (hinv.inFlight id' a' h1 (hback a' ha h2))
  · intro a' h
    dsimp only at h ⊢
    rw [hslot] at h
    exact hmono a' (hinv.slotDone a' h)
  · intro a' h1 h2
    dsimp only at h1 h2 ⊢
    rw [hslot] at h2
    by_cases ha : a' = a
    · subst ha
      exact ⟨t, th', id, hself, hrole'⟩
    · obtain ⟨w, tw, id', h3, h4⟩ := hinv.pending a' (hback a' ha h1) h2
      obtain ⟨w', tw', h5, h6⟩ := threads_set_exists c.threads t th th' ht
        (fun x => x.pc.role = .writer id' a')
        (fun h => absurd (Or.inl h) (hnotwe id' a')) ⟨w, tw, h3, h4⟩
      exact ⟨w', tw', id', h5, h6⟩

/-- The step that writes the result slot of the `FileData` the thread has set `done` in,
and takes the thread to the points between line 127 and line 130, keeps `CInv`. -/
theorem cinv_setValue (c : Config) (t : Nat) (th th' : Thread) (st' : State)
    (g' : Option Nat) (m' : Nat → Option Nat) (id a : Nat) (hinv : CInv c)
    (ht : c.threads[t]? = some th)
    (hrole : th.pc.role = .writer id a) (hrole' : th'.pc.role = .eraser id a)
    (hfiles : st'.files = c.st.files) (hlen : st'.heap.length = c.st.heap.length)
    (hdone : ∀ a', doneAt st' a' = doneAt c.st a')
    (hs1 : slotFull st' a = true)
    (hso : ∀ a', a' ≠ a → slotFull st' a' = slotFull c.st a') :
    CInv { st := st', globalMutex := g', mtx := m', threads := c.threads.set t th' } := by
  have htl : t < c.threads.length := (List.getElem?_eq_some.mp ht).1
  have hself : (c.threads.set t th')[t]? = some th' := by
    rw [List.getElem?_set_self htl]
  obtain ⟨hreg, hd, hs0⟩ := hinv.writer t th id a ht hrole
  have hconv : ∀ id' a', (th'.pc.role = .writer id' a' ∨ th'.pc.role = .eraser id' a') →
      (th.pc.role = .writer id' a' ∨ th.pc.role = .eraser id' a') := by
    rintro id' a' (h | h) <;> rw [hrole'] at h <;> cases h
    exact Or.inl hrole
  have hconv' : ∀ id' a', (th.pc.role = .writer id' a' ∨ th.pc.role = .eraser id' a') →
      (th'.pc.role = .writer id' a' ∨ th'.pc.role = .eraser id' a') := by
    rintro id' a' (h | h) <;> rw [hrole] at h <;> cases h
    exact Or.inr hrole'
  constructor
  · intro id1 id2 a' h1 h2
    dsimp only at h1 h2
    rw [hfiles] at h1 h2
    exact hinv.inj id1 id2 a' h1 h2
  · intro id' a' h1
    dsimp only at h1 ⊢
    rw [hfiles] at h1
    rw [hlen]
    exact hinv.alloc id' a' h1
  · intro u x id' a' hu hr hd'
    dsimp only at hu hd' ⊢
    rw [hfiles]
    rw [hdone] at hd'
    rcases threads_set_lookup _ _ _ _ _ hu with ⟨rfl, rfl⟩ | ⟨_, hu'⟩
    · rw [hrole'] at hr; cases hr
    · exact hinv.ref u x id' a' hu' hr hd'
  · intro u x id' a' hu hr
    dsimp only at hu ⊢
    rw [hfiles, hdone]
    rcases threads_set_lookup _ _ _ _ _ hu with ⟨rfl, rfl⟩ | ⟨hne, hu'⟩
    · rw [hrole'] at hr; cases hr
    · obtain ⟨h1, h2, h3⟩ := hinv.writer u x id' a' hu' hr
      have ha : a' ≠ a := by
        intro h
        subst h
        exact hne (hinv.unique u t x th id' id a' hu' ht (Or.inl hr) (Or.inl hrole))
      rw [hso a' ha]
      exact ⟨h1, h2, h3⟩
  · intro u x id' a' hu hr
    dsimp only at hu ⊢
    rw [hfiles, hdone]
    rcases threads_set_lookup _ _ _ _ _ hu with ⟨rfl, rfl⟩ | ⟨hne, hu'⟩
    · rw [hrole'] at hr
      cases hr
      exact ⟨hreg, hd, hs1⟩
    · obtain ⟨h1, h2, h3⟩ := hinv.eraser u x id' a' hu' hr
      refine ⟨h1, h2, ?_⟩
      by_cases ha : a' = a
      · subst ha; exact hs1
      · rw [hso a' ha]; exact h3
  · intro u v x y id1 id2 a' hu hv h1 h2
    dsimp only at hu hv
    rcases threads_set_lookup _ _ _ _ _ hu with ⟨rfl, rfl⟩ | ⟨_, hu'⟩
    · rcases threads_set_lookup _ _ _ _ _ hv with ⟨rfl, rfl⟩ | ⟨_, hv'⟩
      · rfl
      · exact hinv.unique u v th y id1 id2 a' ht hv' (hconv id1 a' h1) h2
    · rcases threads_set_lookup _ _ _ _ _ hv with ⟨rfl, rfl⟩ | ⟨_, hv'⟩
      · exact hinv.unique u v x th id1 id2 a' hu' ht h1 (hconv id2 a' h2)
      · exact hinv.unique u v x y id1 id2 a' hu' hv' h1 h2
  · intro id' a' h1 h2
    dsimp only at h1 h2 ⊢
    rw [hfiles] at h1
    rw [hdone] at h2
    exact threads_set_exists c.threads t th th' ht
      (fun x => x.pc.role = .writer id' a' ∨ x.pc.role = .eraser id' a') (hconv' id' a')
      (hinv.inFlight id' a' h1 h2)
  · intro a' h
    dsimp only at h ⊢
    rw [hdone]
    by_cases ha : a' = a
    · subst ha; exact hd
    · rw [hso a' ha] at h
      exact hinv.slotDone a' h
  · intro a' h1 h2
    dsimp only at h1 h2 ⊢
    rw [hdone] at h1
    have ha : a' ≠ a := by
      intro h; subst h; rw [hs1] at h2; cases h2
    rw [hso a' ha] at h2
    obtain ⟨w, tw, id', h3, h4⟩ := hinv.pending a' h1 h2
    obtain ⟨w', tw', h5, h6⟩ := threads_set_exists c.threads t th th' ht
      (fun x => x.pc.role = .writer id' a')
      (fun h => by
        dsimp only at h
        rw [hrole] at h
        cases h
        exact absurd rfl ha) ⟨w, tw, h3, h4⟩
    exact ⟨w', tw', id', h5, h6⟩

/-- The step that erases the id of the `FileData` whose slot the thread has written keeps
`CInv`. -/
theorem cinv_erase (c : Config) (t : Nat) (th th' : Thread) (st' : State)
    (g' : Option Nat) (m' : Nat → Option Nat) (id a : Nat) (hinv : CInv c)
    (ht : c.threads[t]? = some th)
    (hrole : th.pc.role = .eraser id a) (hrole' : th'.pc.role = .free)
    (hfiles : st'.files = regErase c.st.files id) (hheap : st'.heap = c.st.heap) :
    CInv { st := st', globalMutex := g', mtx := m', threads := c.threads.set t th' } := by
  obtain ⟨hreg, hd, hs⟩ := hinv.eraser t th id a ht hrole
  have hdone : ∀ a', doneAt st' a' = doneAt c.st a' := fun a' => by
    unfold doneAt; rw [hheap]
  have hslot : ∀ a', slotFull st' a' = slotFull c.st a' := fun a' => by
    unfold slotFull; rw [hheap]
  have hsub : ∀ id' a', regFind st'.files id' = some a' →
      id' ≠ id ∧ regFind c.st.files id' = some a' := by
    intro id' a' h
    rw [hfiles, regFind_regErase] at h
    by_cases hid : id = id'
    · rw [if_pos hid] at h; cases h
    · rw [if_neg hid] at h
      exact ⟨fun h' => hid h'.symm, h⟩
  have hkeep : ∀ id' a', id' ≠ id → regFind c.st.files id' = some a' →
      regFind st'.files id' = some a' := by
    intro id' a' hid h
    rw [hfiles, regFind_regErase, if_neg (fun h' => hid h'.symm)]
    exact h
  have hfree : ∀ id' a', ¬ (th'.pc.role = .writer id' a' ∨ th'.pc.role = .eraser id' a') := by
    rintro id' a' (h | h) <;> rw [hrole'] at h <;> cases h
  constructor
  · intro id1 id2 a' h1 h2
    dsimp only at h1 h2
    exact hinv.inj id1 id2 a' (hsub _ _ h1).2 (hsub _ _ h2).2
  · intro id' a' h1
    dsimp only at h1 ⊢
    rw [hheap]
    exact hinv.alloc id' a' (hsub _ _ h1).2
  · intro u x id' a' hu hr hd'
    dsimp only at hu hd' ⊢
    rw [hdone] at hd'
    rcases threads_set_lookup _ _ _ _ _ hu with ⟨rfl, rfl⟩ | ⟨_, hu'⟩
    · rw [hrole'] at hr; cases hr
    · have h1 := hinv.ref u x id' a' hu' hr hd'
      apply hkeep id' a' _ h1
      intro hid
      subst hid
      rw [hreg] at h1
      cases h1
      rw [hd] at hd'
      cases hd'
  · intro u x id' a' hu hr
    dsimp only at hu ⊢
    rw [hdone, hslot]
    rcases threads_set_lookup _ _ _ _ _ hu with ⟨rfl, rfl⟩ | ⟨hne, hu'⟩
    · rw [hrole'] at hr; cases hr
    · obtain ⟨h1, h2, h3⟩ := hinv.writer u x id' a' hu' hr
      refine ⟨hkeep id' a' ?_ h1, h2, h3⟩
      intro hid
      subst hid
      rw [hreg] at h1
      cases h1
      exact hne (hinv.unique u t x th id' id' a hu' ht (Or.inl hr) (Or.inr hrole))
  · intro u x id' a' hu hr
    dsimp only at hu ⊢
    rw [hdone, hslot]
    rcases threads_set_lookup _ _ _ _ _ hu with ⟨rfl, rfl⟩ | ⟨hne, hu'⟩
    · rw [hrole'] at hr; cases hr
    · obtain ⟨h1, h2, h3⟩ := hinv.eraser u x id' a' hu' hr
      refine ⟨hkeep id' a' ?_ h1, h2, h3⟩
      intro hid
      subst hid
      rw [hreg] at h1
      cases h1
      exact hne (hinv.unique u t x th id' id' a hu' ht (Or.inr hr) (Or.inr hrole))
  · intro u v x y id1 id2 a' hu hv h1 h2
    dsimp only at hu hv
    rcases threads_set_lookup _ _ _ _ _ hu with ⟨rfl, rfl⟩ | ⟨_, hu'⟩
    · exact absurd h1 (hfree id1 a')
    · rcases threads_set_lookup _ _ _ _ _ hv with ⟨rfl, rfl⟩ | ⟨_, hv'⟩
      · exact absurd h2 (hfree id2 a')
      · exact hinv.unique u v x y id1 id2 a' hu' hv' h1 h2
  · intro id' a' h1 h2
    dsimp only at h1 h2 ⊢
    rw [hdone] at h2
    obtain ⟨hid, h1'⟩ := hsub _ _ h1
    exact threads_set_exists c.threads t th th' ht
      (fun x => x.pc.role = .writer id' a' ∨ x.pc.role = .eraser id' a')
      (fun h => by
        dsimp only at h
        rcases h with h | h <;> rw [hrole] at h <;> cases h
        exact absurd rfl hid)
      (hinv.inFlight id' a' h1' h2)
  · intro a' h
    dsimp only at h ⊢
    rw [hslot] at h
    rw [hdone]
    exact hinv.slotDone a' h
  · intro a' h1 h2
    dsimp only at h1 h2 ⊢
    rw [hdone] at h1
    rw [hslot] at h2
    obtain ⟨w, tw, id', h3, h4⟩ := hinv.pending a' h1 h2
    obtain ⟨w', tw', h5, h6⟩ := threads_set_exists c.threads t th th' ht
      (fun x => x.pc.role = .writer id' a')
      (fun h => by dsimp only at h; rw [hrole] at h; cases h) ⟨w, tw, h3, h4⟩
    exact ⟨w', tw', id', h5, h6⟩

/-- The step of `CollectFile` that registers a new `FileData` keeps `CInv`. -/
theorem cinv_collect (c : Config) (t : Nat) (th th' : Thread) (st' : State)
    (g' : Option Nat) (m' : Nat → Option Nat) (id : Nat) (hinv : CInv c)
    (ht : c.threads[t]? = some th)
    (hrole : th.pc.role = .free) (hrole' : th'.pc.role = .free)
    (hnone : regFind c.st.files id = none)
    (hfiles : st'.files = regAssign c.st.files id c.st.heap.length)
    (hlen : st'.heap.length = c.st.heap.length + 1)
    (hdone : ∀ a', doneAt st' a' = doneAt c.st a')
    (hslot : ∀ a', slotFull st' a' = slotFull c.st a') :
    CInv { st := st', globalMutex := g', mtx := m', threads := c.threads.set t th' } := by
  have hfind : ∀ id', regFind st'.files id' =
      if id = id' then some c.st.heap.length else regFind c.st.files id' := fun id' => by
    rw [hfiles, regFind_regAssign]
  have hkeep : ∀ id' a', regFind c.st.files id' = some a' →
      regFind st'.files id' = some a' := by
    intro id' a' h
    rw [hfind, if_neg]
    · exact h
    · intro hid; subst hid; rw [hnone] at h; cases h
  have hfresh : doneAt c.st c.st.heap.length = false := by
    unfold doneAt
    rw [List.getElem?_eq_none (le_refl _)]
  have hfree : ∀ id' a', ¬ (th'.pc.role = .writer id' a' ∨ th'.pc.role = .eraser id' a') := by
    rintro id' a' (h | h) <;> rw [hrole'] at h <;> cases h
  have hfree0 : ∀ id' a', ¬ (th.pc.role = .writer id' a' ∨ th.pc.role = .eraser id' a') := by
    rintro id' a' (h | h) <;> rw [hrole] at h <;> cases h
  constructor
  · intro id1 id2 a' h1 h2
    dsimp only at h1 h2
    rw [hfind] at h1 h2
    by_cases e1 : id = id1
    · by_cases e2 : id = id2
      · rw [← e1, ← e2]
      · rw [if_pos e1] at h1
        rw [if_neg e2] at h2
        cases h1
        have := hinv.alloc id2 _ h2
        omega
    · by_cases e2 : id = id2
      · rw [if_neg e1] at h1
        rw [if_pos e2] at h2
        cases h2
        have := hinv.alloc id1 _ h1
        omega
      · rw [if_neg e1] at h1
        rw [if_neg e2] at h2
        exact hinv.inj id1 id2 a' h1 h2
  · intro id' a' h1
    dsimp only at h1 ⊢
    rw [hfind] at h1
    rw [hlen]
    by_cases e1 : id = id'
    · rw [if_pos e1] at h1
      cases h1
      omega
    · rw [if_neg e1] at h1
      have := hinv.alloc id' a' h1
      omega
  · intro u x id' a' hu hr hd'
    dsimp only at hu hd' ⊢
    rw [hdone] at hd'
    rcases threads_set_lookup _ _ _ _ _ hu with ⟨rfl, rfl⟩ | ⟨_, hu'⟩
    · rw [hrole'] at hr; cases hr
    · exact hkeep id' a' (hinv.ref u x id' a' hu' hr hd')
  · intro u x id' a' hu hr
    dsimp only at hu ⊢
    rw [hdone, hslot]
    rcases threads_set_lookup _ _ _ _ _ hu with ⟨rfl, rfl⟩ | ⟨hne, hu'⟩
    · rw [hrole'] at hr; cases hr
    · obtain ⟨h1, h2, h3⟩ := hinv.writer u x id' a' hu' hr
      exact ⟨hkeep id' a' h1, h2, h3⟩
  · intro u x id' a' hu hr
    dsimp only at hu ⊢
    rw [hdone, hslot]
    rcases threads_set_lookup _ _ _ _ _ hu with ⟨rfl, rfl⟩ | ⟨hne, hu'⟩
    · rw [hrole'] at hr; cases hr
    · obtain ⟨h1, h2, h3⟩ := hinv.eraser u x id' a' hu' hr
      exact ⟨hkeep id' a' h1, h2, h3⟩
  · intro u v x y id1 id2 a' hu hv h1 h2
    dsimp only at hu hv
    rcases threads_set_lookup _ _ _ _ _ hu with ⟨rfl, rfl⟩ | ⟨_, hu'⟩
    · exact absurd h1 (hfree id1 a')
    · rcases threads_set_lookup _ _ _ _ _ hv with ⟨rfl, rfl⟩ | ⟨_, hv'⟩
      · exact absurd h2 (hfree id2 a')
      · exact hinv.unique u v x y id1 id2 a' hu' hv' h1 h2
  · intro id' a' h1 h2
    dsimp only at h1 h2 ⊢
    rw [hdone] at h2
    rw [hfind] at h1
    by_cases e1 : id = id'
    · rw [if_pos e1] at h1
      cases h1
      rw [hfresh] at h2
      cases h2
    · rw [if_neg e1] at h1
      exact threads_set_exists c.threads t th th' ht
        (fun x => x.pc.role = .writer id' a' ∨ x.pc.role = .eraser id' a')
        (fun h => absurd h (hfree0 id' a'))
        (hinv.inFlight id' a' h1 h2)
  · intro a' h
    dsimp only at h ⊢
    rw [hslot] at h
    rw [hdone]
    exact hinv.slotDone a' h
  · intro a' h1 h2
    dsimp only at h1 h2 ⊢
    rw [hdone] at h1
    rw [hslot] at h2
    obtain ⟨w, tw, id', h3, h4⟩ := hinv.pending a' h1 h2
    obtain ⟨w', tw', h5, h6⟩ := threads_set_exists c.threads t th th' ht
      (fun x => x.pc.role = .writer id' a')
      (fun h => absurd (Or.inl h) (hfree0 id' a')) ⟨w, tw, h3, h4⟩
    exact ⟨w', tw', id', h5, h6⟩

theorem doneAt_eq (s : State) (a : Nat) (fd : FileData) (hh : s.heap[a]? = some fd) :
    doneAt s a = fd.done := by
  unfold doneAt; rw [hh]

theorem slotFull_eq (s : State) (a : Nat) (fd : FileData) (hh : s.heap[a]? = some fd) :
    slotFull s a = fd.promise.value.isSome := by
  unfold slotFull; rw [hh]

theorem doneAt_set (s : State) (a a' : Nat) (fd fd' : FileData)
    (hh : s.heap[a]? = some fd) :
    doneAt { s with heap := s.heap.set a fd' } a' = if a' = a then fd'.done else doneAt s a' := by
  have hlt : a < s.heap.length := (List.getElem?_eq_some.mp hh).1
  unfold doneAt
  dsimp only
  by_cases h : a' = a
  · subst h
    rw [List.getElem?_set_self hlt, if_pos rfl]
  · rw [List.getElem?_set_ne (Ne.symm h), if_neg h]

theorem slotFull_set (s : State) (a a' : Nat) (fd fd' : FileData)
    (hh : s.heap[a]? = some fd) :
    slotFull { s with heap := s.heap.set a fd' } a' =
      if a' = a then fd'.promise.value.isSome else slotFull s a' := by
  have hlt : a < s.heap.length := (List.getElem?_eq_some.mp hh).1
  unfold slotFull
  dsimp only
  by_cases h : a' = a
  · subst h
    rw [List.getElem?_set_self hlt, if_pos rfl]
  · rw [List.getElem?_set_ne (Ne.symm h), if_neg h]

theorem doneAt_set_same (s : State) (a a' : Nat) (fd fd' : FileData)
    (hh : s.heap[a]? = some fd) (hd : fd'.done = fd.done) :
    doneAt { s with heap := s.heap.set a fd' } a' = doneAt s a' := by
  rw [doneAt_set s a a' fd fd' hh]
  by_cases h : a' = a
  · subst h; rw [if_pos rfl, hd, doneAt_eq s a' fd hh]
  · rw [if_neg h]

theorem slotFull_set_same (s : State) (a a' : Nat) (fd fd' : FileData)
    (hh : s.heap[a]? = some fd) (hv : fd'.promise.value = fd.promise.value) :
    slotFull { s with heap := s.heap.set a fd' } a' = slotFull s a' := by
  rw [slotFull_set s a a' fd fd' hh]
  by_cases h : a' = a
  · subst h; rw [if_pos rfl, hv, slotFull_eq s a' fd hh]
  · rw [if_neg h]

theorem doneAt_append_new (files : List (Nat × Nat)) (s : State) (n a' : Nat) :
    doneAt { files := files, heap := s.heap ++ [FileData.new n] } a' = doneAt s a' := by
  unfold doneAt
  dsimp only
  by_cases h : a' < s.heap.length
  · rw [List.getElem?_append_left h]
  · rw [List.getElem?_append_right (by omega), List.getElem?_eq_none (show s.heap.length ≤ a' by omega)]
    cases h2 : a' - s.heap.length with
    | zero => rfl
    | succ k => rfl

theorem slotFull_append_new (files : List (Nat × Nat)) (s : State) (n a' : Nat) :
    slotFull { files := files, heap := s.heap ++ [FileData.new n] } a' = slotFull s a' := by
  unfold slotFull
  dsimp only
  by_cases h : a' < s.heap.length
  · rw [List.getElem?_append_left h]
  · rw [List.getElem?_append_right (by omega), List.getElem?_eq_none (show s.heap.length ≤ a' by omega)]
    cases h2 : a' - s.heap.length with
    | zero => rfl
    | succ k => rfl

/-- A `FileData` that lines 26-124 return with has the flag and the promise it had. -/
theorem body_returned (fd : FileData) (pos : Nat) (chunk : List Byte) (fd' : FileData)
    (h : body fd pos chunk = .returned fd') : fd'.done = fd.done ∧ fd'.promise = fd.promise := by
  unfold body at h
  by_cases hd : fd.done = true
  · rw [if_pos hd] at h; cases h; exact ⟨rfl, rfl⟩
  · rw [if_neg hd] at h
    cases hc : clampChunk fd.fileSize pos chunk with
    | none => rw [hc] at h; cases h; exact ⟨rfl, rfl⟩
    | some c =>
      rw [hc] at h
      simp only at h
      cases hm : mergeSegments fd.segments pos c with
      | error e => rw [hm] at h; cases h
      | ok segs =>
        rw [hm] at h
        simp only at h
        match segs, h with
        | [], h => cases h; exact ⟨rfl, rfl⟩
        | [(k, d)], h =>
          simp only at h
          by_cases hk : k = 0 ∧ d.length = fd.fileSize
          · rw [if_pos hk] at h; cases h
          · rw [if_neg hk] at h; cases h; exact ⟨rfl, rfl⟩
        | _ :: _ :: _, h => cases h; exact ⟨rfl, rfl⟩

/-- Lines 26-124 complete only a `FileData` that was not done; they set the flag and leave
the promise as it was. -/
theorem body_completed (fd : FileData) (pos : Nat) (chunk : List Byte) (fd' : FileData)
    (v : List Byte) (h : body fd pos chunk = .completed fd' v) :
    fd.done = false ∧ fd'.done = true ∧ fd'.promise = fd.promise := by
  unfold body at h
  by_cases hd : fd.done = true
  · rw [if_pos hd] at h; cases h
  · rw [if_neg hd] at h
    have hd' : fd.done = false := by
      cases hx : fd.done with
      | false => rfl
      | true => exact absurd hx hd
    cases hc : clampChunk fd.fileSize pos chunk with
    | none => rw [hc] at h; cases h
    | some c =>
      rw [hc] at h
      simp only at h
      cases hm : mergeSegments fd.segments pos c with
      | error e => rw [hm] at h; cases h
      | ok segs =>
        rw [hm] at h
        simp only at h
        match segs, h with
        | [], h => cases h
        | [(k, d)], h =>
          simp only at h
          by_cases hk : k = 0 ∧ d.length = fd.fileSize
          · rw [if_pos hk] at h; cases h; exact ⟨hd', rfl, rfl⟩
          · rw [if_neg hk] at h; cases h
        | _ :: _ :: _, h => cases h

/-- A step that leaves the data as they are and the thread in its role keeps `CInv`. -/
theorem cinv_keep (c : Config) (t : Nat) (th th' : Thread) (st' : State)
    (g' : Option Nat) (m' : Nat → Option Nat) (hinv : CInv c)
    (ht : c.threads[t]? = some th) (hst : st' = c.st)
    (hrole : th'.pc.role = th.pc.role) :
    CInv { st := st', globalMutex := g', mtx := m', threads := c.threads.set t th' } := by
  subst hst
  exact cinv_view_same c t th th' c.st g' m' hinv ht rfl rfl (fun _ => rfl) (fun _ => rfl)
    (fun id a => by rw [hrole]) (fun id a => by rw [hrole])
    (fun id a h => Or.inl (by rw [← hrole]; exact h))

/-- A step that leaves the registry, the flags and the slots as they are and after which
the thread holds no `FileData`, the thread not having been between line 121 and line 130,
keeps `CInv`. -/
theorem cinv_drop (c : Config) (t : Nat) (th th' : Thread) (st' : State)
    (g' : Option Nat) (m' : Nat → Option Nat) (hinv : CInv c)
    (ht : c.threads[t]? = some th)
    (hfiles : st'.files = c.st.files) (hlen : st'.heap.length = c.st.heap.length)
    (hdone : ∀ a, doneAt st' a = doneAt c.st a)
    (hslot : ∀ a, slotFull st' a = slotFull c.st a)
    (hrole : th.pc.role = .free ∨ ∃ id a, th.pc.role = .ref id a)
    (hrole' : th'.pc.role = .free) :
    CInv { st := st', globalMutex := g', mtx := m', threads := c.threads.set t th' } := by
  refine cinv_view_same c t th th' st' g' m' hinv ht hfiles hlen hdone hslot ?_ ?_ ?_
  · intro id a
    rw [hrole']
    rcases hrole with h | ⟨id', a', h⟩
    · rw [h]
    · rw [h]; simp
  · intro id a
    rw [hrole']
    rcases hrole with h | ⟨id', a', h⟩
    · rw [h]
    · rw [h]; simp
  · intro id a h
    rw [hrole'] at h
    cases h

/-- A step that leaves the data as they are and gives the thread the `FileData` the
registry has for an id keeps `CInv`. -/
theorem cinv_take (c : Config) (t : Nat) (th th' : Thread)
    (g' : Option Nat) (m' : Nat → Option Nat) (id a : Nat) (hinv : CInv c)
    (ht : c.threads[t]? = some th)
    (hrole : th.pc.role = .free) (hrole' : th'.pc.role = .ref id a)
    (hf : regFind c.st.files id = some a) :
    CInv { st := c.st, globalMutex := g', mtx := m', threads := c.threads.set t th' } := by
  refine cinv_view_same c t th th' c.st g' m' hinv ht rfl rfl (fun _ => rfl) (fun _ => rfl)
    ?_ ?_ ?_
  · intro id' a'
    rw [hrole', hrole]
    simp
  · intro id' a'
    rw [hrole', hrole]
    simp
  · intro id' a' h
    rw [hrole'] at h
    cases h
    exact Or.inr hf

theorem cinv_init (scripts : List (List Call)) : CInv (Config.init scripts) := by
  have hidle : ∀ (t : Nat) (th : Thread), (Config.init scripts).threads[t]? = some th →
      th.pc.role = .free := by
    intro t th h
    simp only [Config.init, List.getElem?_map] at h
    cases hth : scripts[t]? with
    | none => rw [hth] at h; cases h
    | some x => rw [hth] at h; cases h; rfl
  have hdone : ∀ a, doneAt (Config.init scripts).st a = false := fun a => rfl
  have hslot : ∀ a, slotFull (Config.init scripts).st a = false := fun a => rfl
  constructor
  · intro id id' a h; cases h
  · intro id a h; cases h
  · intro t th id a h hr
    rw [hidle t th h] at hr; cases hr
  · intro t th id a h hr
    rw [hidle t th h] at hr; cases hr
  · intro t th id a h hr
    rw [hidle t th h] at hr; cases hr
  · intro t u th tu id id' a h _ hr
    rw [hidle t th h] at hr
    rcases hr with hr | hr <;> cases hr
  · intro id a h; cases h
  · intro a h; rw [hslot] at h; cases h
  · intro a h; rw [hdone] at h; cases h

theorem cinv_step (c : Config) (t : Nat) (c' : Config) (hinv : CInv c)
    (h : stepThread c t = some c') : CInv c' := by
  unfold stepThread at h
  cases ht : c.threads[t]? with
  | none => rw [ht] at h; cases h
  | some th =>
    rw [ht] at h
    simp only at h
    cases hpc : th.pc with
    | idle =>
      rw [hpc] at h
      simp only at h
      cases htodo : th.todo with
      | nil => rw [htodo] at h; cases h
      | cons call rest =>
        rw [htodo] at h
        cases h
        refine cinv_keep c t th _ _ _ _ hinv ht rfl ?_
        rw [hpc]; cases call <;> rfl
    | cfStart fileId fileSize =>
      rw [hpc] at h
      simp only at h
      by_cases hfree : c.globalMutex = none
      · rw [if_pos hfree] at h
        cases h
        refine cinv_keep c t th _ _ _ _ hinv ht rfl ?_
        rw [hpc]; rfl
      · rw [if_neg hfree] at h; cases h
    | cfBody fileId fileSize =>
      rw [hpc] at h
      cases h
      cases hf : regFind c.st.files fileId with
      | some a0 =>
        refine cinv_keep c t th _ _ _ _ hinv ht ?_ ?_
        · simp [CollectFile, hf]
        · rw [hpc]; rfl
      | none =>
        refine cinv_collect c t th _ _ _ _ fileId hinv ht (by rw [hpc]; rfl) rfl hf ?_ ?_ ?_ ?_
        · rw [collectFile_unregistered c.st fileId fileSize hf]
        · rw [collectFile_unregistered c.st fileId fileSize hf]
          simp
        · intro a'
          rw [collectFile_unregistered c.st fileId fileSize hf]
          exact doneAt_append_new _ c.st fileSize a'
        · intro a'
          rw [collectFile_unregistered c.st fileId fileSize hf]
          exact slotFull_append_new _ c.st fileSize a'
    | oncStart fileId pos chunk =>
      rw [hpc] at h
      simp only at h
      by_cases hfree : c.globalMutex = none
      · rw [if_pos hfree] at h
        cases h
        refine cinv_keep c t th _ _ _ _ hinv ht rfl ?_
        rw [hpc]; rfl
      · rw [if_neg hfree] at h; cases h
    | oncFind fileId pos chunk =>
      rw [hpc] at h
      simp only at h
      cases hf : regFind c.st.files fileId with
      | none =>
        rw [hf] at h
        cases h
        refine cinv_keep c t th _ _ _ _ hinv ht rfl ?_
        rw [hpc]; rfl
      | some addr =>
        rw [hf] at h
        cases h
        exact cinv_take c t th _ _ _ fileId addr hinv ht (by rw [hpc]; rfl) rfl hf
    | oncLock fileId addr pos chunk =>
      rw [hpc] at h
      simp only at h
      by_cases hfree : c.mtx addr = none
      · rw [if_pos hfree] at h
        cases h
        refine cinv_keep c t th _ _ _ _ hinv ht rfl ?_
        rw [hpc]; rfl
      · rw [if_neg hfree] at h; cases h
    | oncBody fileId addr pos chunk =>
      rw [hpc] at h
      simp only at h
      cases hh : c.st.heap[addr]? with
      | none => rw [hh] at h; cases h
      | some fd =>
        rw [hh] at h
        simp only at h
        cases hb : body fd pos chunk with
        | undefined => rw [hb] at h; cases h
        | returned fd' =>
          rw [hb] at h
          cases h
          obtain ⟨b1, b2⟩ := body_returned fd pos chunk fd' hb
          refine cinv_drop c t th _ _ _ _ hinv ht rfl (by simp)
            (fun a' => doneAt_set_same c.st addr a' fd fd' hh b1)
            (fun a' => slotFull_set_same c.st addr a' fd fd' hh (by rw [b2]))
            (Or.inr ⟨fileId, addr, by rw [hpc]; rfl⟩) rfl
        | completed fd' completeFile =>
          rw [hb] at h
          cases h
          obtain ⟨b1, b2, b3⟩ := body_completed fd pos chunk fd' completeFile hb
          refine cinv_complete c t th _ _ _ _ fileId addr hinv ht (by rw [hpc]; rfl) rfl rfl
            (by simp) ?_ ?_ ?_ ?_
          · rw [doneAt_eq c.st addr fd hh]; exact b1
          · rw [doneAt_set c.st addr addr fd fd' hh, if_pos rfl]; exact b2
          · intro a' ha
            rw [doneAt_set c.st addr a' fd fd' hh, if_neg ha]
          · exact fun a' => slotFull_set_same c.st addr a' fd fd' hh (by rw [b3])
    | oncUnlock fileId addr completeFile =>
      rw [hpc] at h
      cases h
      refine cinv_keep c t th _ _ _ _ hinv ht rfl ?_
      rw [hpc]; rfl
    | oncSetValue fileId addr completeFile =>
      rw [hpc] at h
      simp only at h
      cases hh : c.st.heap[addr]? with
      | none => rw [hh] at h; cases h
      | some fd =>
        rw [hh] at h
        simp only at h
        obtain ⟨_, _, w3⟩ := hinv.writer t th fileId addr ht (by rw [hpc]; rfl)
        rw [slotFull_eq c.st addr fd hh] at w3
        have hval : fd.promise.value = none := by
          cases hv : fd.promise.value with
          | none => rfl
          | some x => rw [hv] at w3; cases w3
        have hsv : fd.promise.set_value completeFile =
            .ok { fd.promise with value := some completeFile } := by
          unfold Promise.set_value
          rw [hval]
        rw [hsv] at h
        cases h
        refine cinv_setValue c t th _ _ _ _ fileId addr hinv ht (by rw [hpc]; rfl) rfl rfl
          (by simp) ?_ ?_ ?_
        · exact fun a' => doneAt_set_same c.st addr a' fd _ hh rfl
        · rw [slotFull_set c.st addr addr fd _ hh, if_pos rfl]
          rfl
        · intro a' ha
          rw [slotFull_set c.st addr a' fd _ hh, if_neg ha]
    | oncGLock fileId addr =>
      rw [hpc] at h
      simp only at h
      by_cases hfree : c.globalMutex = none
      · rw [if_pos hfree] at h
        cases h
        refine cinv_keep c t th _ _ _ _ hinv ht rfl ?_
        rw [hpc]; rfl
      · rw [if_neg hfree] at h; cases h
    | oncErase fileId addr =>
      rw [hpc] at h
      cases h
      exact cinv_erase c t th _ _ _ _ fileId addr hinv ht (by rw [hpc]; rfl) rfl rfl rfl
    | gfStart fileId =>
      rw [hpc] at h
      simp only at h
      by_cases hfree : c.globalMutex = none
      · rw [if_pos hfree] at h
        cases h
        refine cinv_keep c t th _ _ _ _ hinv ht rfl ?_
        rw [hpc]; rfl
      · rw [if_neg hfree] at h; cases h
    | gfFind fileId =>
      rw [hpc] at h
      simp only at h
      cases hf : regFind c.st.files fileId with
      | none =>
        rw [hf] at h
        cases h
        refine cinv_keep c t th _ _ _ _ hinv ht rfl ?_
        rw [hpc]; rfl
      | some addr =>
        rw [hf] at h
        cases h
        exact cinv_take c t th _ _ _ fileId addr hinv ht (by rw [hpc]; rfl) rfl hf
    | gfLock fileId addr =>
      rw [hpc] at h
      simp only at h
      by_cases hfree : c.mtx addr = none
      · rw [if_pos hfree] at h
        cases h
        refine cinv_keep c t th _ _ _ _ hinv ht rfl ?_
        rw [hpc]; rfl
      · rw [if_neg hfree] at h; cases h
    | gfBody fileId addr =>
      rw [hpc] at h
      simp only at h
      cases hh : c.st.heap[addr]? with
      | none => rw [hh] at h; cases h
      | some fd =>
        rw [hh] at h
        simp only at h
        cases hgf : fd.promise.get_future with
        | error e =>
          rw [hgf] at h
          cases h
          exact cinv_drop c t th _ _ _ _ hinv ht rfl rfl (fun _ => rfl) (fun _ => rfl)
            (Or.inr ⟨fileId, addr, by rw [hpc]; rfl⟩) rfl
        | ok p =>
          rw [hgf] at h
          cases h
          have hp : p.value = fd.promise.value := by
            unfold Promise.get_future at hgf
            split at hgf
            · cases hgf
            · cases hgf; rfl
          refine cinv_drop c t th _ _ _ _ hinv ht rfl (by simp)
            (fun a' => doneAt_set_same c.st addr a' fd _ hh rfl)
            (fun a' => slotFull_set_same c.st addr a' fd _ hh hp)
            (Or.inr ⟨fileId, addr, by rw [hpc]; rfl⟩) rfl

/-- In every configuration the threads can get to, `CInv` holds. -/
theorem cinv_of_creachable (scripts : List (List Call)) (c : Config)
    (h : CReachable scripts c) : CInv c := by
  induction h with
  | init => exact cinv_init scripts
  | step c t c' _ hs ih => exact cinv_step c t c' ih hs

theorem role_writer (pc : Pc) (id a : Nat) (h : pc.role = .writer id a) :
    ∃ v, pc = .oncUnlock id a v ∨ pc = .oncSetValue id a v := by
  cases pc <;> simp only [Pc.role, reduceCtorEq, Role.writer.injEq] at h
  · obtain ⟨rfl, rfl⟩ := h
    exact ⟨_, Or.inl rfl⟩
  · obtain ⟨rfl, rfl⟩ := h
    exact ⟨_, Or.inr rfl⟩

theorem role_eraser (pc : Pc) (id a : Nat) (h : pc.role = .eraser id a) :
    pc = .oncGLock id a ∨ pc = .oncErase id a := by
  cases pc <;> simp only [Pc.role, reduceCtorEq, Role.eraser.injEq] at h
  · obtain ⟨rfl, rfl⟩ := h
    exact Or.inl rfl
  · obtain ⟨rfl, rfl⟩ := h
    exact Or.inr rfl

/-- Lines 25-127 run in one go are `body` followed by `set_value`: the interleaved steps
and the atomic call do the same to a `FileData`. -/
theorem deliver_body (fd : FileData) (pos : Nat) (chunk : List Byte) :
    deliver fd pos chunk =
      match body fd pos chunk with
      | .returned fd' => (fd', .ok false)
      | .completed fd' v =>
        match fd.promise.set_value v with
        | .error e => (fd', .error e)
        | .ok p => ({ fd' with promise := p }, .ok true)
      | .undefined => (fd, .error .outOfBounds) := by
  unfold deliver body
  by_cases hd : fd.done = true
  · rw [if_pos hd, if_pos hd]
  · rw [if_neg hd, if_neg hd]
    cases hc : clampChunk fd.fileSize pos chunk with
    | none => rfl
    | some c =>
      simp only
      cases hm : mergeSegments fd.segments pos c with
      | error e =>
        simp only
        rw [mergeSegments_error _ _ _ _ hm]
      | ok segs =>
        simp only
        match segs with
        | [] => rfl
        | [(k, d)] =>
          simp only
          by_cases hk : k = 0 ∧ d.length = fd.fileSize
          · rw [if_pos hk, if_pos hk]
          · rw [if_neg hk, if_neg hk]
        | _ :: _ :: _ => rfl

/-! ## Interleaved steps: which step writes a result slot -/

theorem slotAt_eq (s : State) (a : Nat) (fd : FileData) (hh : s.heap[a]? = some fd) :
    slotAt s a = fd.promise.value := by
  unfold slotAt; rw [hh]

theorem slotAt_set (s : State) (a a' : Nat) (fd fd' : FileData)
    (hh : s.heap[a]? = some fd) :
    slotAt { s with heap := s.heap.set a fd' } a' =
      if a' = a then fd'.promise.value else slotAt s a' := by
  have hlt : a < s.heap.length := (List.getElem?_eq_some.mp hh).1
  unfold slotAt
  dsimp only
  by_cases h : a' = a
  · subst h
    rw [List.getElem?_set_self hlt, if_pos rfl]
  · rw [List.getElem?_set_ne (Ne.symm h), if_neg h]

theorem slotAt_set_same (s : State) (a a' : Nat) (fd fd' : FileData)
    (hh : s.heap[a]? = some fd) (hv : fd'.promise.value = fd.promise.value) :
    slotAt { s with heap := s.heap.set a fd' } a' = slotAt s a' := by
  rw [slotAt_set s a a' fd fd' hh]
  by_cases h : a' = a
  · subst h; rw [if_pos rfl, hv, slotAt_eq s a' fd hh]
  · rw [if_neg h]

theorem slotAt_append_new (files : List (Nat × Nat)) (s : State) (n a' : Nat) :
    slotAt { files := files, heap := s.heap ++ [FileData.new n] } a' = slotAt s a' := by
  unfold slotAt
  dsimp only
  by_cases h : a' < s.heap.length
  · rw [List.getElem?_append_left h]
  · rw [List.getElem?_append_right (by omega),
      List.getElem?_eq_none (show s.heap.length ≤ a' by omega)]
    cases h2 : a' - s.heap.length with
    | zero => rfl
    | succ k => rfl

theorem slotAt_collectFile (s : State) (fileId fileSize a : Nat) :
    slotAt (CollectFile s fileId fileSize).1 a = slotAt s a := by
  cases hf : regFind s.files fileId with
  | some a0 => simp [CollectFile, hf]
  | none =>
    rw [collectFile_unregistered s fileId fileSize hf]
    exact slotAt_append_new _ s fileSize a

/-- A step after which a result slot holds another value than before is the step of line
127 (`promise.set_value`) of a thread that holds that `FileData`: the slot was empty and
holds `completeFile` afterwards. -/
theorem slot_step (c : Config) (t : Nat) (c' : Config) (th : Thread)
    (h : stepThread c t = some c') (ht : c.threads[t]? = some th) (a : Nat)
    (hne : slotAt c'.st a ≠ slotAt c.st a) :
    ∃ id v, th.pc = .oncSetValue id a v ∧ slotAt c.st a = none ∧ slotAt c'.st a = some v := by
  unfold stepThread at h
  rw [ht] at h
  simp only at h
  cases hpc : th.pc with
  | idle =>
    rw [hpc] at h
    simp only at h
    cases htodo : th.todo with
    | nil => rw [htodo] at h; cases h
    | cons call rest => rw [htodo] at h; cases h; exact absurd rfl hne
  | cfStart fileId fileSize =>
    rw [hpc] at h
    simp only at h
    split at h
    · cases h; exact absurd rfl hne
    · cases h
  | cfBody fileId fileSize =>
    rw [hpc] at h
    cases h
    exact absurd (slotAt_collectFile c.st fileId fileSize a) hne
  | oncStart fileId pos chunk =>
    rw [hpc] at h
    simp only at h
    split at h
    · cases h; exact absurd rfl hne
    · cases h
  | oncFind fileId pos chunk =>
    rw [hpc] at h
    simp only at h
    cases hf : regFind c.st.files fileId with
    | none => rw [hf] at h; cases h; exact absurd rfl hne
    | some addr => rw [hf] at h; cases h; exact absurd rfl hne
  | oncLock fileId addr pos chunk =>
    rw [hpc] at h
    simp only at h
    split at h
    · cases h; exact absurd rfl hne
    · cases h
  | oncBody fileId addr pos chunk =>
    rw [hpc] at h
    simp only at h
    cases hh : c.st.heap[addr]? with
    | none => rw [hh] at h; cases h
    | some fd =>
      rw [hh] at h
      simp only at h
      cases hb : body fd pos chunk with
      | undefined => rw [hb] at h; cases h
      | returned fd' =>
        rw [hb] at h
        cases h
        obtain ⟨_, b2⟩ := body_returned fd pos chunk fd' hb
        exact absurd (slotAt_set_same c.st addr a fd fd' hh (by rw [b2])) hne
      | completed fd' completeFile =>
        rw [hb] at h
        cases h
        obtain ⟨_, _, b3⟩ := body_completed fd pos chunk fd' completeFile hb
        exact absurd (slotAt_set_same c.st addr a fd fd' hh (by rw [b3])) hne
  | oncUnlock fileId addr completeFile =>
    rw [hpc] at h
    cases h
    exact absurd rfl hne
  | oncSetValue fileId addr completeFile =>
    rw [hpc] at h
    simp only at h
    cases hh : c.st.heap[addr]? with
    | none => rw [hh] at h; cases h
    | some fd =>
      rw [hh] at h
      simp only at h
      cases hsv : fd.promise.set_value completeFile with
      | error e =>
        rw [hsv] at h
        cases h
        exact absurd rfl hne
      | ok p =>
        rw [hsv] at h
        cases h
        have hp : fd.promise.value = none ∧ p.value = some completeFile := by
          unfold Promise.set_value at hsv
          cases hv : fd.promise.value with
          | none => rw [hv] at hsv; cases hsv; exact ⟨rfl, rfl⟩
          | some x => rw [hv] at hsv; cases hsv
        have hset := slotAt_set c.st addr a fd { fd with promise := p } hh
        by_cases ha : a = addr
        · subst ha
          rw [if_pos rfl] at hset
          refine ⟨fileId, completeFile, rfl, ?_, ?_⟩
          · rw [slotAt_eq c.st a fd hh]; exact hp.1
          · exact hset.trans hp.2
        · rw [if_neg ha] at hset
          exact absurd hset hne
  | oncGLock fileId addr =>
    rw [hpc] at h
    simp only at h
    split at h
    · cases h; exact absurd rfl hne
    · cases h
  | oncErase fileId addr =>
    rw [hpc] at h
    cases h
    exact absurd rfl hne
  | gfStart fileId =>
    rw [hpc] at h
    simp only at h
    split at h
    · cases h; exact absurd rfl hne
    · cases h
  | gfFind fileId =>
    rw [hpc] at h
    simp only at h
    cases hf : regFind c.st.files fileId with
    | none => rw [hf] at h; cases h; exact absurd rfl hne
    | some addr => rw [hf] at h; cases h; exact absurd rfl hne
  | gfLock fileId addr =>
    rw [hpc] at h
    simp only at h
    split at h
    · cases h; exact absurd rfl hne
    · cases h
  | gfBody fileId addr =>
    rw [hpc] at h
    simp only at h
    cases hh : c.st.heap[addr]? with
    | none => rw [hh] at h; cases h
    | some fd =>
      rw [hh] at h
      simp only at h
      cases hgf : fd.promise.get_future with
      | error e =>
        rw [hgf] at h
        cases h
        exact absurd rfl hne
      | ok p =>
        rw [hgf] at h
        cases h
        have hp : p.value = fd.promise.value := by
          unfold Promise.get_future at hgf
          split at hgf
          · cases hgf
          · cases hgf; rfl
        exact absurd (slotAt_set_same c.st addr a fd _ hh hp) hne

/-- The thread that owns `globalMutex` can take its next step, and that step releases the
mutex: no statement run under `globalMutex` waits. -/
theorem global_owner_steps (c : Config) (t : Nat) (th : Thread)
    (ht : c.threads[t]? = some th) (hg : th.pc.holdsGlobal = true) :
    ∃ c', stepThread c t = some c' ∧ c'.globalMutex = none := by
  unfold stepThread
  rw [ht]
  simp only
  cases hpc : th.pc with
  | cfBody fileId fileSize => exact ⟨_, rfl, rfl⟩
  | oncFind fileId pos chunk =>
    simp only
    cases regFind c.st.files fileId with
    | none => exact ⟨_, rfl, rfl⟩
    | some addr => exact ⟨_, rfl, rfl⟩
  | oncErase fileId addr => exact ⟨_, rfl, rfl⟩
  | gfFind fileId =>
    simp only
    cases regFind c.st.files fileId with
    | none => exact ⟨_, rfl, rfl⟩
    | some addr => exact ⟨_, rfl, rfl⟩
  | idle => rw [hpc] at hg; cases hg
  | cfStart _ _ => rw [hpc] at hg; cases hg
  | oncStart _ _ _ => rw [hpc] at hg; cases hg
  | oncLock _ _ _ _ => rw [hpc] at hg; cases hg
  | oncBody _ _ _ _ => rw [hpc] at hg; cases hg
  | oncUnlock _ _ _ => rw [hpc] at hg; cases hg
  | oncSetValue _ _ _ => rw [hpc] at hg; cases hg
  | oncGLock _ _ => rw [hpc] at hg; cases hg
  | gfStart _ => rw [hpc] at hg; cases hg
  | gfLock _ _ => rw [hpc] at hg; cases hg
  | gfBody _ _ => rw [hpc] at hg; cases hg

/-! ## What a wrapped `pos + chunk.size()` leads to -/

/-- With file size `SIZE_MOD - 1`, the chunk `[1, 2, 3]` at `SIZE_MOD - 3` is stored whole
(line 34: `pos + chunk.size()` wraps to 0, so the chunk is not cut to its first two bytes).
The chunk `[4, 5, 6]` at `SIZE_MOD - 6` is then fused with it in the loop of lines 79-114:
`nextEnd` wraps to 0, the merged buffer gets `mergedEnd - mergedStart = 3` bytes, and the
copy of line 102 writes the three bytes of the stored segment at its positions 3 to 5. -/
theorem wrapped_chunk_copy_out_of_bounds :
    Reachable (run State.empty
      [.collectFile 1 (SIZE_MOD - 1), .onNewChunk 1 (SIZE_MOD - 3) [1, 2, 3]]) ∧
    run State.empty [.collectFile 1 (SIZE_MOD - 1), .onNewChunk 1 (SIZE_MOD - 3) [1, 2, 3]] =
      { files := [(1, 0)],
        heap := [{ fileSize := SIZE_MOD - 1, segments := [(SIZE_MOD - 3, [1, 2, 3])],
                   done := false, promise := { value := none, retrieved := false } }] } ∧
    clampChunk (SIZE_MOD - 1) (SIZE_MOD - 6) [4, 5, 6] = some [4, 5, 6] ∧
    mergeSegments [(SIZE_MOD - 3, [1, 2, 3])] (SIZE_MOD - 6) [4, 5, 6] =
      .error .outOfBounds ∧
    fuseOps (SIZE_MOD - 6) (SIZE_MOD - 3) [4, 5, 6] (SIZE_MOD - 3) 0 [1, 2, 3] =
      [Op.sub (SIZE_MOD - 3) (SIZE_MOD - 6), Op.copy 3 0 3,
       Op.sub (SIZE_MOD - 3) (SIZE_MOD - 6), Op.copy 3 3 3] ∧
    (OnNewChunk (run State.empty
      [.collectFile 1 (SIZE_MOD - 1), .onNewChunk 1 (SIZE_MOD - 3) [1, 2, 3]])
      1 (SIZE_MOD - 6) [4, 5, 6]).2 = .error .outOfBounds :=
  ⟨Reachable.step _ (.onNewChunk 1 (SIZE_MOD - 3) [1, 2, 3])
      (Reachable.step State.empty (.collectFile 1 (SIZE_MOD - 1)) .init (by decide) (by decide))
      (by decide) (by decide),
    by decide, by decide, by decide, by decide, by decide⟩

/-! ## Contract properties of the three operations -/

/-- C1 (Order independence), evaluated: for the file `[1, 2]` and its slices `[1]` and
`[1, 2]`, both at offset 0, delivering the short slice first leaves the file registered,
not done, with the single segment `[1]` and an empty result slot (the long slice is dropped
by `emplace` because the key 0 is present); delivering the long slice first completes the
file with `[1, 2]` in the result slot. -/
theorem same_offset_chunks_order_dependent :
    run State.empty [.collectFile 1 2, .onNewChunk 1 0 [1], .onNewChunk 1 0 [1, 2]] =
      { files := [(1, 0)],
        heap := [{ fileSize := 2, segments := [(0, [1])], done := false,
                   promise := { value := none, retrieved := false } }] } ∧
    run State.empty [.collectFile 1 2, .onNewChunk 1 0 [1, 2], .onNewChunk 1 0 [1]] =
      { files := [],
        heap := [{ fileSize := 2, segments := [], done := true,
                   promise := { value := some [1, 2], retrieved := false } }] } := by
  decide

/-- C2 (Idempotent delivery), evaluated: in the state reached by `CollectFile(1, 10)` and
`OnNewChunk(1, 1, [7])`, with `c = (1, 1, [7, 8])` and `ds = [(1, 0, [6])]`, the run `c, ds`
ends with the segment `(0, [6, 7])` and the run `c, ds, c` with the segment `(0, [6, 7, 8])`:
the first delivery of `c` is dropped by `emplace` (key 1 present), the second is merged. -/
theorem redelivery_after_fusion_changes_state :
    Reachable (run State.empty [.collectFile 1 10, .onNewChunk 1 1 [7]]) ∧
    run (run State.empty [.collectFile 1 10, .onNewChunk 1 1 [7]])
        [.onNewChunk 1 1 [7, 8], .onNewChunk 1 0 [6]] =
      { files := [(1, 0)],
        heap := [{ fileSize := 10, segments := [(0, [6, 7])], done := false,
                   promise := { value := none, retrieved := false } }] } ∧
    run (run State.empty [.collectFile 1 10, .onNewChunk 1 1 [7]])
        [.onNewChunk 1 1 [7, 8], .onNewChunk 1 0 [6], .onNewChunk 1 1 [7, 8]] =
      { files := [(1, 0)],
        heap := [{ fileSize := 10, segments := [(0, [6, 7, 8])], done := false,
                   promise := { value := none, retrieved := false } }] } :=
  ⟨Reachable.step _ (.onNewChunk 1 1 [7])
      (Reachable.step State.empty (.collectFile 1 10) .init (by decide) (by decide))
      (by decide) (by decide),
    by decide, by decide⟩

/-- C3 (Segment invariant), evaluated: with file size `SIZE_MOD - 1`, after a one-byte chunk
at `SIZE_MOD - 2` and a four-byte chunk at `SIZE_MOD - 4` (whose `pos + chunk.size()` wraps
to 0, so that it is neither clamped nor merged), the reachable state holds the segment
`[SIZE_MOD - 4, SIZE_MOD)` followed by the segment `[SIZE_MOD - 2, SIZE_MOD - 1)`: the first
ends after the second starts. -/
theorem wrapped_chunk_overlaps_next_segment :
    Reachable (run State.empty [.collectFile 1 (SIZE_MOD - 1), .onNewChunk 1 (SIZE_MOD - 2) [1],
      .onNewChunk 1 (SIZE_MOD - 4) [1, 2, 3, 4]]) ∧
    run State.empty [.collectFile 1 (SIZE_MOD - 1), .onNewChunk 1 (SIZE_MOD - 2) [1],
      .onNewChunk 1 (SIZE_MOD - 4) [1, 2, 3, 4]] =
      { files := [(1, 0)],
        heap := [{ fileSize := SIZE_MOD - 1,
                   segments := [(SIZE_MOD - 4, [1, 2, 3, 4]), (SIZE_MOD - 2, [1])],
                   done := false, promise := { value := none, retrieved := false } }] } ∧
    (SIZE_MOD - 4) + ([1, 2, 3, 4] : List Byte).length > SIZE_MOD - 2 :=
  ⟨Reachable.step _ (.onNewChunk 1 (SIZE_MOD - 4) [1, 2, 3, 4])
      (Reachable.step _ (.onNewChunk 1 (SIZE_MOD - 2) [1])
        (Reachable.step State.empty (.collectFile 1 (SIZE_MOD - 1)) .init (by decide) (by decide))
        (by decide) (by decide))
      (by decide) (by decide),
    by decide, by decide⟩

/-- C3 (Segment invariant), for the states reached by calls in none of which
`pos + chunk.size()` wraps: the segments of every `FileData` (registered or not) have
strictly ascending start offsets, and each segment ends strictly before the next one
starts, and indeed before every later one starts. -/
theorem segments_separated (s : State) (hs : ReachableInRange s) (fd : FileData)
    (hfd : fd ∈ s.heap) :
    fd.segments.Pairwise (fun a b => a.1 < b.1) ∧
    fd.segments.Chain' (fun a b => a.1 + a.2.length < b.1) ∧
    fd.segments.Pairwise (fun a b => a.1 + a.2.length < b.1) := by
  obtain ⟨_, hseg⟩ := (reachableInRange_inv s hs).2 fd hfd
  exact ⟨segInv_keys _ _ hseg, List.Pairwise.chain' hseg.1, hseg.1⟩

/-- C3, at a concrete state: after `CollectFile(1, 10)`, `[1, 2]` at 0 and `[3]` at 5 the two
segments are apart. -/
theorem segments_separated_witness :
    ReachableInRange (run State.empty
      [.collectFile 1 10, .onNewChunk 1 0 [1, 2], .onNewChunk 1 5 [3]]) ∧
    ({ fileSize := 10, segments := [(0, [1, 2]), (5, [3])], done := false,
       promise := { value := none, retrieved := false } } : FileData) ∈
      (run State.empty [.collectFile 1 10, .onNewChunk 1 0 [1, 2], .onNewChunk 1 5 [3]]).heap ∧
    [(0, ([1, 2] : List Byte)), (5, [3])].Chain' (fun a b => a.1 + a.2.length < b.1) :=
  have hr : ReachableInRange (run State.empty
      [.collectFile 1 10, .onNewChunk 1 0 [1, 2], .onNewChunk 1 5 [3]]) :=
    ReachableInRange.step _ (.onNewChunk 1 5 [3])
      (ReachableInRange.step _ (.onNewChunk 1 0 [1, 2])
        (ReachableInRange.step State.empty (.collectFile 1 10) .init (by decide) (by decide))
        (by decide) (by decide))
      (by decide) (by decide)
  ⟨hr, by decide,
    (segments_separated _ hr
      { fileSize := 10, segments := [(0, [1, 2]), (5, [3])], done := false,
        promise := { value := none, retrieved := false } } (by decide)).2.1⟩

/-- C4 (New data wins on overlap with the preceding segment), refuted: after
`CollectFile(1, 10)` and `OnNewChunk(1, 0, [1, 2, 3])`, the chunk `[9, 9, 9]` at offset 2
starts inside the preceding segment `[0, 3)`; the fused segment is `(0, [1, 2, 3, 9, 9])`,
whose byte at the overlapping offset 2 is the earlier byte 3, not the delivered byte 9. -/
theorem prev_overlap_keeps_old_byte :
    (run State.empty [.collectFile 1 10, .onNewChunk 1 0 [1, 2, 3],
      .onNewChunk 1 2 [9, 9, 9]]).heap =
      [{ fileSize := 10, segments := [(0, [1, 2, 3, 9, 9])], done := false,
         promise := { value := none, retrieved := false } }] ∧
    mergeWithPrev (emplace [(0, [1, 2, 3])] 2 [9, 9, 9]) =
      .ok ({ before := [], cur := (0, [1, 2, 3, 9, 9]), after := [] }, 5) ∧
    ([1, 2, 3, 9, 9] : List Byte)[2 - 0]? = some 3 ∧
    ([9, 9, 9] : List Byte)[2 - 2]? = some 9 := by
  decide

/-- C4 (New data wins on overlap with the preceding segment), as the code has it: for a file
registered in a state reached by calls without wrapping chunks, and a delivered chunk whose
clamped, non-empty part starts inside or exactly at the end of a segment `(ps, pd)` that
starts before it, that segment is the entry just before the inserted chunk, and lines 46-77
fuse the two into a segment that starts at `ps`, ends at the maximum of the two ends, holds
the earlier bytes `pd` at every offset of the preceding segment (the overlap included) and
the delivered bytes at every offset from the end of the preceding segment on. -/
theorem prev_fusion_keeps_earlier_bytes (s : State) (fileId addr : Nat) (fd : FileData)
    (pos : Nat) (chunk clamped : List Byte) (ps : Nat) (pd : List Byte)
    (hs : ReachableInRange s) (hf : regFind s.files fileId = some addr)
    (hh : s.heap[addr]? = some fd) (hw : pos + chunk.length < SIZE_MOD)
    (hc : clampChunk fd.fileSize pos chunk = some clamped)
    (hmem : (ps, pd) ∈ fd.segments) (h1 : ps < pos) (h2 : pos ≤ ps + pd.length) :
    fd.done = false ∧
    ∃ l after fused,
      fd.segments = l ++ (ps, pd) :: after ∧
      emplace fd.segments pos clamped =
        { before := l ++ [(ps, pd)], cur := (pos, clamped), after := after } ∧
      mergeWithPrev (emplace fd.segments pos clamped) =
        .ok ({ before := l, cur := (ps, fused), after := after }, ps + fused.length) ∧
      ps + fused.length = max (ps + pd.length) (pos + clamped.length) ∧
      (∀ x, ps ≤ x → x < ps + pd.length → fused[x - ps]? = pd[x - ps]?) ∧
      (∀ x, ps + pd.length ≤ x → x < pos + clamped.length →
        fused[x - ps]? = clamped[x - pos]?) := by
  obtain ⟨hr, hheap⟩ := reachableInRange_inv s hs
  obtain ⟨fd0, hh0, hd, _, _⟩ := (regInv_of_reachable s hr).1 fileId addr hf
  rw [hh] at hh0
  cases hh0
  obtain ⟨hlt, hget⟩ := List.getElem?_eq_some.mp hh
  have hfd : fd ∈ s.heap := hget ▸ List.getElem_mem hlt
  obtain ⟨hn, hseg⟩ := hheap fd hfd
  obtain ⟨_, c1, c2, _⟩ := clampChunk_spec _ _ _ _ hw hn hc
  obtain ⟨l, after, hsplit⟩ := List.append_of_mem hmem
  rw [hsplit, segInv_append, segInv_cons] at hseg
  obtain ⟨_, ⟨⟨_, hpn⟩, _, hgap⟩, hbefore⟩ := hseg
  have hl : ∀ b ∈ l, b.1 < pos := by
    intro b hb
    have := hbefore b hb (ps, pd) (List.mem_cons_self _ _)
    simp only at this
    omega
  have hafter : ∀ a ∈ after, pos < a.1 := by
    intro a ha
    have := hgap a ha
    simp only at this
    omega
  have hem : emplace fd.segments pos clamped =
      { before := l ++ [(ps, pd)], cur := (pos, clamped), after := after } := by
    rw [hsplit, emplace_append l _ pos clamped hl, emplace_cons_gt (ps, pd) after pos clamped h1,
      emplace_before_all after pos clamped hafter]
  have hfuse := mergeWithPrev_fuse l (ps, pd) (pos, clamped) after h2
    (by simp only at hpn ⊢; omega) (by simp only; omega)
  have hlen := fuse_length ps pos pd clamped h2
  simp only at hfuse
  refine ⟨hd, l, after, pd ++ clamped.drop (ps + pd.length - pos), hsplit, hem, ?_, hlen,
    ?_, ?_⟩
  · rw [hem, hfuse, hlen]
  · intro x hx1 hx2
    rw [List.getElem?_append_left (by omega)]
  · intro x hx1 hx2
    rw [List.getElem?_append_right (by omega), List.getElem?_drop]
    congr 1
    omega

/-- C4, at a concrete state: the segment `(0, [1, 2, 3])` and the chunk `[9, 9, 9]` at 2. -/
theorem prev_fusion_keeps_earlier_bytes_witness :
    ReachableInRange (run State.empty [.collectFile 1 10, .onNewChunk 1 0 [1, 2, 3]]) ∧
    regFind (run State.empty [.collectFile 1 10, .onNewChunk 1 0 [1, 2, 3]]).files 1 = some 0 ∧
    (run State.empty [.collectFile 1 10, .onNewChunk 1 0 [1, 2, 3]]).heap[0]? =
      some { fileSize := 10, segments := [(0, [1, 2, 3])], done := false,
             promise := { value := none, retrieved := false } } ∧
    clampChunk 10 2 [9, 9, 9] = some [9, 9, 9] ∧
    ∃ l after fused,
      [(0, ([1, 2, 3] : List Byte))] = l ++ (0, [1, 2, 3]) :: after ∧
      emplace [(0, [1, 2, 3])] 2 [9, 9, 9] =
        { before := l ++ [(0, [1, 2, 3])], cur := (2, [9, 9, 9]), after := after } ∧
      mergeWithPrev (emplace [(0, [1, 2, 3])] 2 [9, 9, 9]) =
        .ok ({ before := l, cur := (0, fused), after := after }, 0 + fused.length) ∧
      0 + fused.length = max (0 + ([1, 2, 3] : List Byte).length)
        (2 + ([9, 9, 9] : List Byte).length) ∧
      (∀ x, 0 ≤ x → x < 0 + ([1, 2, 3] : List Byte).length →
        fused[x - 0]? = ([1, 2, 3] : List Byte)[x - 0]?) ∧
      (∀ x, 0 + ([1, 2, 3] : List Byte).length ≤ x → x < 2 + ([9, 9, 9] : List Byte).length →
        fused[x - 0]? = ([9, 9, 9] : List Byte)[x - 2]?) :=
  have hr : ReachableInRange (run State.empty [.collectFile 1 10, .onNewChunk 1 0 [1, 2, 3]]) :=
    ReachableInRange.step _ (.onNewChunk 1 0 [1, 2, 3])
      (ReachableInRange.step State.empty (.collectFile 1 10) .init (by decide) (by decide))
      (by decide) (by decide)
  ⟨hr, by decide, by decide, by decide,
    (prev_fusion_keeps_earlier_bytes
      (run State.empty [.collectFile 1 10, .onNewChunk 1 0 [1, 2, 3]]) 1 0
      { fileSize := 10, segments := [(0, [1, 2, 3])], done := false,
        promise := { value := none, retrieved := false } }
      2 [9, 9, 9] [9, 9, 9] 0 [1, 2, 3] hr (by decide) (by decide) (by decide) (by decide)
      (by decide) (by decide) (by decide)).2⟩

/-- C5 (Completion check): for a file registered in a reachable state (it is then not done),
a call of `OnNewChunk` whose merge (lines 31-114) returns the segments `merged` returns
normally and leaves the `FileData` done exactly when `merged` is one segment that starts at 0
and has `fileSize` bytes; then the result slot holds that segment's bytes, the segments are
empty and the id is no longer registered; otherwise the file is not done, its result slot
is empty, its segments are `merged` and the id is still registered. The merge does return
whenever the segments satisfy `SegInv` and `pos + chunk.size()` does not wrap. -/
theorem completion_check (s : State) (fileId addr : Nat) (fd : FileData) (pos : Nat)
    (chunk : List Byte) (hs : Reachable s) (hf : regFind s.files fileId = some addr)
    (hh : s.heap[addr]? = some fd) :
    fd.done = false ∧
    (fd.fileSize < SIZE_MOD → SegInv fd.fileSize fd.segments → pos + chunk.length < SIZE_MOD →
      ∃ merged, mergedSegments fd pos chunk = .ok merged) ∧
    ∀ merged, mergedSegments fd pos chunk = .ok merged →
      (OnNewChunk s fileId pos chunk).2 = .ok () ∧
      ∃ fd', (OnNewChunk s fileId pos chunk).1.heap[addr]? = some fd' ∧
        fd'.fileSize = fd.fileSize ∧
        (fd'.done = true ↔ ∃ d, merged = [(0, d)] ∧ d.length = fd.fileSize) ∧
        (∀ d, merged = [(0, d)] → d.length = fd.fileSize →
          fd'.promise.value = some d ∧ fd'.segments = [] ∧
          regFind (OnNewChunk s fileId pos chunk).1.files fileId = none) ∧
        (fd'.done = false →
          fd'.promise.value = none ∧ fd'.segments = merged ∧
          regFind (OnNewChunk s fileId pos chunk).1.files fileId = some addr) := by
  have hinv := regInv_of_reachable s hs
  obtain ⟨fd0, hh0, hd, hp, hw⟩ := hinv.1 fileId addr hf
  rw [hh] at hh0
  cases hh0
  have hlt := (List.getElem?_eq_some.mp hh).1
  refine ⟨hd, ?_, ?_⟩
  · intro hn hseg hwrap
    unfold mergedSegments
    cases hc : clampChunk fd.fileSize pos chunk with
    | none => exact ⟨_, rfl⟩
    | some c =>
      obtain ⟨_, c1, c2, _⟩ := clampChunk_spec _ _ _ _ hwrap hn hc
      obtain ⟨segs', hm, _⟩ := mergeSegments_ok fd.fileSize fd.segments pos c hn hseg c1 c2
      exact ⟨segs', hm⟩
  · intro merged hmerged
    rw [onNewChunk_eq s fileId addr fd pos chunk hf hh hd hp]
    unfold mergedSegments at hmerged
    cases hc : clampChunk fd.fileSize pos chunk with
    | none =>
      rw [hc] at hmerged
      simp only [Except.ok.injEq] at hmerged
      subst hmerged
      have hnw : ¬ ∃ d, fd.segments = [(0, d)] ∧ d.length = fd.fileSize := by
        rw [← isWhole_iff]; simp [hw]
      refine ⟨rfl, fd, hh, rfl, ?_, ?_, ?_⟩
      · simp [hd, hnw]
      · intro d h1 h2
        exact absurd ⟨d, h1, h2⟩ hnw
      · intro _
        exact ⟨hp, rfl, hf⟩
    | some c =>
      rw [hc] at hmerged
      simp only at hmerged ⊢
      rw [hmerged]
      simp only
      by_cases hws : isWhole fd.fileSize merged = true
      · rw [if_pos hws]
        have hex := (isWhole_iff _ _).mp hws
        refine ⟨rfl, _, List.getElem?_set_self hlt, rfl, ?_, ?_, ?_⟩
        · simp [hex]
        · intro d h1 h2
          subst h1
          exact ⟨rfl, rfl, by simp [regFind_regErase]⟩
        · intro hcontra
          simp at hcontra
      · rw [if_neg hws]
        have hnw : ¬ ∃ d, merged = [(0, d)] ∧ d.length = fd.fileSize := by
          rw [← isWhole_iff]; exact hws
        refine ⟨rfl, _, List.getElem?_set_self hlt, rfl, ?_, ?_, ?_⟩
        · simp [hd, hnw]
        · intro d h1 h2
          exact absurd ⟨d, h1, h2⟩ hnw
        · intro _
          exact ⟨hp, rfl, hf⟩

/-- C5, at a concrete state: after `CollectFile(1, 2)` the chunk `[7, 8]` at 0 completes. -/
theorem completion_check_witness :
    Reachable (run State.empty [.collectFile 1 2]) ∧
    regFind (run State.empty [.collectFile 1 2]).files 1 = some 0 ∧
    (run State.empty [.collectFile 1 2]).heap[0]? = some (FileData.new 2) ∧
    mergedSegments (FileData.new 2) 0 [7, 8] = .ok [(0, [7, 8])] ∧
    (OnNewChunk (run State.empty [.collectFile 1 2]) 1 0 [7, 8]).2 = .ok () :=
  have hr : Reachable (run State.empty [.collectFile 1 2]) :=
    Reachable.step State.empty (.collectFile 1 2) .init (by decide) (by decide)
  have h := completion_check (run State.empty [.collectFile 1 2]) 1 0 (FileData.new 2) 0 [7, 8]
    hr (by decide) (by decide)
  ⟨hr, by decide, by decide, by decide, (h.2.2 [(0, [7, 8])] (by decide)).1⟩

/-- C6 (Clamping), evaluated: with file size `n = SIZE_MOD - 1`, the two-byte chunk at offset
`n - 1` has `offset + len > n`, yet `OnNewChunk` stores both bytes (the sum wraps to 0 and
the test on line 34 fails), while the chunk cut to its first `n - offset = 1` bytes stores
one: the two calls leave different states, and the stored segment ends beyond `n`. -/
theorem clamp_skipped_on_wrap :
    (OnNewChunk (run State.empty [.collectFile 1 (SIZE_MOD - 1)]) 1 (SIZE_MOD - 2) [1, 2]).1 =
      { files := [(1, 0)],
        heap := [{ fileSize := SIZE_MOD - 1, segments := [(SIZE_MOD - 2, [1, 2])],
                   done := false, promise := { value := none, retrieved := false } }] } ∧
    (OnNewChunk (run State.empty [.collectFile 1 (SIZE_MOD - 1)]) 1 (SIZE_MOD - 2)
        (([1, 2] : List Byte).take (SIZE_MOD - 1 - (SIZE_MOD - 2)))).1 =
      { files := [(1, 0)],
        heap := [{ fileSize := SIZE_MOD - 1, segments := [(SIZE_MOD - 2, [1])],
                   done := false, promise := { value := none, retrieved := false } }] } ∧
    (SIZE_MOD - 2) + ([1, 2] : List Byte).length > SIZE_MOD - 1 := by
  decide

/-- C6 (Clamping), for the states reached by calls in none of which `pos + chunk.size()`
wraps: for a registered file of size `n` and a chunk with `pos < n`, `pos + len > n` and
`pos + len` within the `size_t` range, `OnNewChunk` gives the same result as with the first
`n - pos` bytes of the chunk; and in every such state every stored segment is non-empty and
ends at or before the file size, and every result slot that holds a value holds exactly as
many bytes as the file has. -/
theorem clamp_truncates (s : State) (hs : ReachableInRange s) :
    (∀ (fileId addr : Nat) (fd : FileData) (pos : Nat) (chunk : List Byte),
      regFind s.files fileId = some addr → s.heap[addr]? = some fd →
      pos < fd.fileSize → pos + chunk.length > fd.fileSize → pos + chunk.length < SIZE_MOD →
      OnNewChunk s fileId pos chunk =
        OnNewChunk s fileId pos (chunk.take (fd.fileSize - pos))) ∧
    (∀ fd ∈ s.heap,
      (∀ seg ∈ fd.segments, seg.2 ≠ [] ∧ seg.1 + seg.2.length ≤ fd.fileSize) ∧
      (∀ d, fd.promise.value = some d → d.length = fd.fileSize)) := by
  obtain ⟨hr, hheap⟩ := reachableInRange_inv s hs
  constructor
  · intro fileId addr fd pos chunk hf hh h1 h2 hw
    obtain ⟨hlt, hget⟩ := List.getElem?_eq_some.mp hh
    have hfd : fd ∈ s.heap := hget ▸ List.getElem_mem hlt
    have hn := (hheap fd hfd).1
    unfold OnNewChunk
    simp only [hf, hh, deliver_take fd pos chunk hn h1 h2 hw]
  · intro fd hfd
    exact ⟨(hheap fd hfd).2.2, resultInv_of_reachable s hr fd hfd⟩

/-- C6, at a concrete state: after `CollectFile(1, 3)` the chunk `[7, 8, 9]` at 1 is cut to
`[7, 8]`. -/
theorem clamp_truncates_witness :
    ReachableInRange (run State.empty [.collectFile 1 3]) ∧
    OnNewChunk (run State.empty [.collectFile 1 3]) 1 1 [7, 8, 9] =
      OnNewChunk (run State.empty [.collectFile 1 3]) 1 1 [7, 8] ∧
    (OnNewChunk (run State.empty [.collectFile 1 3]) 1 1 [7, 8, 9]).1.heap =
      [{ fileSize := 3, segments := [(1, [7, 8])], done := false,
         promise := { value := none, retrieved := false } }] :=
  have hr : ReachableInRange (run State.empty [.collectFile 1 3]) :=
    ReachableInRange.step State.empty (.collectFile 1 3) .init (by decide) (by decide)
  ⟨hr,
    (clamp_truncates _ hr).1 1 0 (FileData.new 3) 1 [7, 8, 9] (by decide) (by decide) (by decide)
      (by decide) (by decide),
    by decide⟩

/-- C7 (Begin error contract): `CollectFile` fails exactly when the id is registered, the
failure is the runtime error `alreadyInProgress` and leaves the state as it was; when it
succeeds the id is registered at a fresh address holding a new `FileData` (the given size,
no segments, not done, empty result slot), every other id keeps its entry and every
`FileData` that existed is unchanged. -/
theorem collectFile_contract (s : State) (fileId fileSize : Nat) :
    ((CollectFile s fileId fileSize).2 ≠ .ok () ↔ regFind s.files fileId ≠ none) ∧
    (regFind s.files fileId ≠ none →
      (CollectFile s fileId fileSize).2 = .error .alreadyInProgress ∧
      Fault.alreadyInProgress.isRuntimeError = true ∧
      (CollectFile s fileId fileSize).1 = s) ∧
    (regFind s.files fileId = none →
      (CollectFile s fileId fileSize).2 = .ok () ∧
      regFind (CollectFile s fileId fileSize).1.files fileId = some s.heap.length ∧
      s.heap[s.heap.length]? = none ∧
      (CollectFile s fileId fileSize).1.heap[s.heap.length]? =
        some { fileSize := fileSize, segments := [], done := false,
               promise := { value := none, retrieved := false } } ∧
      (∀ id', id' ≠ fileId →
        regFind (CollectFile s fileId fileSize).1.files id' = regFind s.files id') ∧
      (∀ (a : Nat) (fd : FileData), s.heap[a]? = some fd → (CollectFile s fileId fileSize).1.heap[a]? = some fd) ∧
      (CollectFile s fileId fileSize).1.heap.length = s.heap.length + 1) := by
  unfold CollectFile
  cases hf : regFind s.files fileId with
  | some a => simp [Fault.isRuntimeError]
  | none =>
    simp only [regFind_regAssign, ne_eq, not_true_eq_false, not_false_eq_true, if_true,
      false_implies, true_implies, true_and, iff_self]
    refine ⟨by simp, by simp [FileData.new], ?_, ?_, by simp⟩
    · intro id' hne
      have hne' : fileId ≠ id' := fun e => hne e.symm
      simp [hne']
    · intro a fd ha
      rw [List.getElem?_append_left (List.getElem?_eq_some.mp ha).1]
      exact ha

/-- C8 (Await error contract): `GetFile` fails with the runtime error `unknownFile` exactly
when the id is not registered, which is the case after any run none of whose calls is a
`CollectFile` of that id; failing or not, it leaves the registry and the size, segments and
done flag of every `FileData` unchanged. -/
theorem getFile_contract (s : State) (fileId : Nat) :
    ((GetFile s fileId).2 = .error .unknownFile ↔ regFind s.files fileId = none) ∧
    Fault.unknownFile.isRuntimeError = true ∧
    (∀ cs : List Call, (∀ size, Call.collectFile fileId size ∉ cs) →
      (GetFile (run State.empty cs) fileId).2 = .error .unknownFile) ∧
    (GetFile s fileId).1.files = s.files ∧
    (GetFile s fileId).1.heap.length = s.heap.length ∧
    (∀ a : Nat, ((GetFile s fileId).1.heap[a]?).map (fun fd : FileData => (fd.fileSize, fd.segments, fd.done)) =
      (s.heap[a]?).map (fun fd : FileData => (fd.fileSize, fd.segments, fd.done))) := by
  have key : ∀ t : State, regFind t.files fileId = none →
      (GetFile t fileId).2 = .error .unknownFile := by
    intro t ht
    simp [GetFile, ht]
  refine ⟨⟨?_, key s⟩, rfl, ?_, ?_⟩
  · intro h
    unfold GetFile at h
    cases hf : regFind s.files fileId with
    | none => rfl
    | some a =>
      rw [hf] at h
      simp only at h
      cases hh : s.heap[a]? with
      | none => rw [hh] at h; simp at h
      | some fd =>
        rw [hh] at h
        simp only at h
        cases hg : fd.promise.get_future with
        | error e =>
          rw [hg] at h
          simp only [Promise.get_future] at hg
          split at hg
          · cases hg; simp at h
          · cases hg
        | ok p => rw [hg] at h; simp at h
  · intro cs hcs
    exact key _ (regFind_run_none cs State.empty fileId rfl hcs)
  · unfold GetFile
    cases hf : regFind s.files fileId with
    | none => simp
    | some a =>
      simp only
      cases hh : s.heap[a]? with
      | none => simp
      | some fd =>
        simp only
        cases hg : fd.promise.get_future with
        | error e => simp
        | ok p =>
          refine ⟨rfl, by simp, ?_⟩
          intro b
          simp only [List.getElem?_set]
          by_cases e : a = b
          · subst e
            simp [(List.getElem?_eq_some.mp hh).1, hh]
          · simp [e]

/-- C9 (Registry removal on completion): when a call of `OnNewChunk` in a reachable state
turns the `FileData` registered under the id to done, the id is no longer registered
afterwards: `GetFile` fails with `unknownFile`, every further `OnNewChunk` for the id leaves
the state unchanged, and `CollectFile` succeeds and registers a new `FileData` with no
segments, not done and with an empty result slot. -/
theorem completed_file_unregistered (s : State) (fileId addr pos : Nat) (chunk : List Byte)
    (hs : Reachable s) (hf : regFind s.files fileId = some addr)
    (hdone : ((OnNewChunk s fileId pos chunk).1.heap[addr]?).map (fun fd : FileData => fd.done) =
      some true) :
    regFind (OnNewChunk s fileId pos chunk).1.files fileId = none ∧
    GetFile (OnNewChunk s fileId pos chunk).1 fileId =
      ((OnNewChunk s fileId pos chunk).1, .error .unknownFile) ∧
    (∀ pos' chunk', OnNewChunk (OnNewChunk s fileId pos chunk).1 fileId pos' chunk' =
      ((OnNewChunk s fileId pos chunk).1, .ok ())) ∧
    (∀ size', (CollectFile (OnNewChunk s fileId pos chunk).1 fileId size').2 = .ok () ∧
      regFind (CollectFile (OnNewChunk s fileId pos chunk).1 fileId size').1.files fileId =
        some (OnNewChunk s fileId pos chunk).1.heap.length ∧
      (CollectFile (OnNewChunk s fileId pos chunk).1 fileId size').1.heap[
          (OnNewChunk s fileId pos chunk).1.heap.length]? =
        some { fileSize := size', segments := [], done := false,
               promise := { value := none, retrieved := false } }) := by
  have hinv := regInv_of_reachable s hs
  obtain ⟨fd, hh, hd, hp, hw⟩ := hinv.1 fileId addr hf
  have hlt := (List.getElem?_eq_some.mp hh).1
  have hnone : regFind (OnNewChunk s fileId pos chunk).1.files fileId = none := by
    rw [onNewChunk_eq s fileId addr fd pos chunk hf hh hd hp] at hdone ⊢
    cases hc : clampChunk fd.fileSize pos chunk with
    | none =>
      rw [hc] at hdone
      simp [hh, hd] at hdone
    | some c =>
      rw [hc] at hdone
      simp only at hdone ⊢
      cases hm : mergeSegments fd.segments pos c with
      | error e =>
        rw [hm] at hdone
        simp [hh, hd] at hdone
      | ok segs =>
        rw [hm] at hdone
        simp only at hdone ⊢
        by_cases hws : isWhole fd.fileSize segs = true
        · simp [hws, regFind_regErase]
        · simp only [hws, if_false] at hdone
          simp [List.getElem?_set_self hlt, hd] at hdone
  refine ⟨hnone, ?_, ?_, ?_⟩
  · exact getFile_unregistered _ _ hnone
  · intro pos' chunk'
    exact onNewChunk_unregistered _ _ _ _ hnone
  · intro size'
    rw [collectFile_unregistered _ _ _ hnone]
    simp [regFind_regAssign, FileData.new]

/-- C9, at a concrete state: after `CollectFile(1, 2)` the chunk `[7, 8]` at 0 completes and
unregisters the file. -/
theorem completed_file_unregistered_witness :
    Reachable (run State.empty [.collectFile 1 2]) ∧
    regFind (run State.empty [.collectFile 1 2]).files 1 = some 0 ∧
    ((OnNewChunk (run State.empty [.collectFile 1 2]) 1 0 [7, 8]).1.heap[0]?).map
      (fun fd : FileData => fd.done) = some true ∧
    regFind (OnNewChunk (run State.empty [.collectFile 1 2]) 1 0 [7, 8]).1.files 1 = none ∧
    GetFile (OnNewChunk (run State.empty [.collectFile 1 2]) 1 0 [7, 8]).1 1 =
      ((OnNewChunk (run State.empty [.collectFile 1 2]) 1 0 [7, 8]).1, .error .unknownFile) :=
  have hr : Reachable (run State.empty [.collectFile 1 2]) :=
    Reachable.step State.empty (.collectFile 1 2) .init (by decide) (by decide)
  have h := completed_file_unregistered (run State.empty [.collectFile 1 2]) 1 0 0 [7, 8]
    hr (by decide) (by decide)
  ⟨hr, by decide, by decide, h.1, h.2.1⟩

/-- C10 (Silent drops): `OnNewChunk` returns normally and leaves the whole state unchanged
when the id is not registered, when the file is already done, when the offset is at or
beyond the file size, and when the chunk is empty; and in a reachable state no call of
`OnNewChunk` raises an exception (the only outcome of the model other than a normal
return is the marker of an out-of-range copy). -/
theorem onNewChunk_silent_drop (s : State) (fileId pos : Nat) (chunk : List Byte) :
    (regFind s.files fileId = none → OnNewChunk s fileId pos chunk = (s, .ok ())) ∧
    (∀ (addr : Nat) (fd : FileData), regFind s.files fileId = some addr → s.heap[addr]? = some fd →
      (fd.done = true ∨ pos ≥ fd.fileSize ∨ chunk = []) →
      OnNewChunk s fileId pos chunk = (s, .ok ())) ∧
    (Reachable s → ∀ e, (OnNewChunk s fileId pos chunk).2 = .error e → e = .outOfBounds) := by
  refine ⟨?_, ?_, ?_⟩
  · intro h
    simp [OnNewChunk, h]
  · intro addr fd hf hh hcase
    have hdel : deliver fd pos chunk = (fd, .ok false) := by
      unfold deliver
      by_cases hd : fd.done = true
      · simp [hd]
      · have hclamp : clampChunk fd.fileSize pos chunk = none := by
          unfold clampChunk
          rcases hcase with h | h | h
          · exact absurd h hd
          · simp [h]
          · subst h
            by_cases hp : pos ≥ fd.fileSize
            · simp [hp]
            · have hle : addSz pos 0 ≤ pos := Nat.mod_le _ _
              have : ¬ addSz pos 0 > fd.fileSize := by omega
              simp [hp, this]
        simp [hd, hclamp]
    simp only [OnNewChunk, hf, hh, hdel, list_set_self _ _ _ hh]
  · intro hs e he
    have hinv := regInv_of_reachable s hs
    cases hf : regFind s.files fileId with
    | none => simp [OnNewChunk, hf] at he
    | some addr =>
      obtain ⟨fd, hh, hd, hp, _⟩ := hinv.1 fileId addr hf
      rw [onNewChunk_eq s fileId addr fd pos chunk hf hh hd hp] at he
      cases hc : clampChunk fd.fileSize pos chunk with
      | none => rw [hc] at he; simp at he
      | some c =>
        rw [hc] at he
        simp only at he
        cases hm : mergeSegments fd.segments pos c with
        | ok segs =>
          rw [hm] at he
          simp only at he
          split at he <;> simp at he
        | error e' =>
          rw [hm] at he
          simp only [Except.error.injEq] at he
          subst he
          exact mergeSegments_error _ _ _ _ hm

/-- C11 (Single completion): a delivery to a `FileData` that is done returns the `FileData`
as it was (segments, result slot and all) and reports no completion, so the caller neither
calls `set_value` nor erases from the registry; this holds for a caller that holds a
reference, whatever the registry holds by then (`onNewChunkAt`), and for a call that looks
the id up (`OnNewChunk`). A delivery that completes starts from a `FileData` that is not done
and leaves it done, and in every sequence of deliveries to one `FileData` at most one
completes. -/
theorem single_completion (fd : FileData) (pos : Nat) (chunk : List Byte)
    (cs : List (Nat × List Byte)) :
    (fd.done = true → deliver fd pos chunk = (fd, .ok false)) ∧
    (fd.done = true → deliverAll fd cs = (fd, 0)) ∧
    (deliverAll fd cs).2 ≤ 1 ∧
    ((deliver fd pos chunk).2 = .ok true →
      fd.done = false ∧ (deliver fd pos chunk).1.done = true) ∧
    (∀ (s : State) (fileId addr : Nat), s.heap[addr]? = some fd → fd.done = true →
      onNewChunkAt s fileId addr pos chunk = (s, .ok ())) ∧
    (∀ (s : State) (fileId addr : Nat), regFind s.files fileId = some addr →
      s.heap[addr]? = some fd → fd.done = true →
      OnNewChunk s fileId pos chunk = (s, .ok ())) := by
  have hat : ∀ (s : State) (fileId addr : Nat), s.heap[addr]? = some fd → fd.done = true →
      onNewChunkAt s fileId addr pos chunk = (s, .ok ()) := by
    intro s fileId addr hh hd
    simp only [onNewChunkAt, hh, deliver_done fd pos chunk hd, list_set_self _ _ _ hh]
  refine ⟨deliver_done fd pos chunk, deliverAll_done fd cs, deliverAll_count fd cs,
    deliver_completes fd pos chunk, hat, ?_⟩
  intro s fileId addr hf hh hd
  rw [onNewChunk_eq_at, hf]
  exact hat s fileId addr hh hd

/-- C11, at a concrete input: the completed two-byte file is left as it is by a late chunk,
and of the three deliveries `[7, 8]`, `[7, 8]`, `[9]` to the new file one completes. -/
theorem single_completion_witness :
    deliver { fileSize := 2, segments := [], done := true,
              promise := { value := some [7, 8], retrieved := false } } 0 [9] =
      ({ fileSize := 2, segments := [], done := true,
         promise := { value := some [7, 8], retrieved := false } }, .ok false) ∧
    deliverAll (FileData.new 2) [(0, [7, 8]), (0, [7, 8]), (1, [9])] =
      ({ fileSize := 2, segments := [], done := true,
         promise := { value := some [7, 8], retrieved := false } }, 1) :=
  ⟨(single_completion _ 0 [9] []).1 rfl, by decide⟩

/-- C12 (Independence of files): in a reachable state, a call of `OnNewChunk` for `a` leaves
the registry entry of every other id `b` and the `FileData` registered under `b` as they
were; and after any sequence of `OnNewChunk` calls (for `a`, `b` or other ids, in any
interleaving) the registry entry of `b` and the `FileData` that was registered under `b`
are the same as after the calls for `b` alone, in their order. -/
theorem files_independent (s : State) (hs : Reachable s) (a b : Nat) (hab : a ≠ b) :
    (∀ pos chunk, regFind (OnNewChunk s a pos chunk).1.files b = regFind s.files b ∧
      ∀ addr, regFind s.files b = some addr →
        (OnNewChunk s a pos chunk).1.heap[addr]? = s.heap[addr]?) ∧
    (∀ (addr : Nat) (cs : List Call), regFind s.files b = some addr →
      (∀ c ∈ cs, ∃ id pos chunk, c = Call.onNewChunk id pos chunk) →
      regFind (run s cs).files b =
        regFind (run s (cs.filter (fun c => c.target = b))).files b ∧
      (run s cs).heap[addr]? = (run s (cs.filter (fun c => c.target = b))).heap[addr]?) := by
  have hinv := regInv_of_reachable s hs
  constructor
  · intro pos chunk
    refine ⟨onNewChunk_files_other s a b pos chunk hab, ?_⟩
    intro addr hb
    apply onNewChunk_heap_other
    intro x hx hxa
    exact hab (hinv.2 a b x hx (hxa ▸ hb))
  · intro addr cs hb hcs
    apply run_filter_view b addr cs hcs s s rfl _ rfl
    · intro id x hne hx hxa
      exact hne (hinv.2 id b x hx (hxa ▸ hb))
    · intro y hy
      rw [hb] at hy
      exact (Option.some.inj hy).symm

/-- C12, at a concrete state: two files, the chunks of file 100 and of file 200 interleaved. -/
theorem files_independent_witness :
    Reachable (run State.empty [.collectFile 100 4, .collectFile 200 2]) ∧
    (run (run State.empty [.collectFile 100 4, .collectFile 200 2])
      [.onNewChunk 100 2 [3, 4], .onNewChunk 200 0 [5], .onNewChunk 100 0 [1, 2],
       .onNewChunk 200 1 [6]]).heap[1]? =
      (run (run State.empty [.collectFile 100 4, .collectFile 200 2])
        [.onNewChunk 200 0 [5], .onNewChunk 200 1 [6]]).heap[1]? ∧
    (run (run State.empty [.collectFile 100 4, .collectFile 200 2])
      [.onNewChunk 200 0 [5], .onNewChunk 200 1 [6]]).heap[1]? =
      some { fileSize := 2, segments := [], done := true,
             promise := { value := some [5, 6], retrieved := false } } :=
  have hr : Reachable (run State.empty [.collectFile 100 4, .collectFile 200 2]) :=
    Reachable.step _ (.collectFile 200 2)
      (Reachable.step State.empty (.collectFile 100 4) .init (by decide) (by decide))
      (by decide) (by decide)
  ⟨hr,
    ((files_independent _ hr 100 200 (by decide)).2 1
      [.onNewChunk 100 2 [3, 4], .onNewChunk 200 0 [5], .onNewChunk 100 0 [1, 2],
       .onNewChunk 200 1 [6]] (by decide) (by
        intro c hc
        simp only [List.mem_cons, List.mem_singleton, List.not_mem_nil, or_false] at hc
        rcases hc with rfl | rfl | rfl | rfl <;> exact ⟨_, _, _, rfl⟩)).2,
    by decide⟩

/-- C18 (Zero-size file never completes): after `CollectFile(id, 0)` in a reachable state
where the id is not registered, and then any sequence of calls whatever (deliveries with any
offsets and bytes, for this id or another, and `GetFile` and `CollectFile` calls too), the
id is still registered at the same `FileData`, which has no segments, is not done and has
an empty result slot: the future of `GetFile(id)` is never fulfilled. -/
theorem zero_size_never_completes (s0 : State) (fileId : Nat) (cs : List Call)
    (hs : Reachable s0) (hreg : regFind s0.files fileId = none) :
    regFind (run (CollectFile s0 fileId 0).1 cs).files fileId = some s0.heap.length ∧
    ∃ r, (run (CollectFile s0 fileId 0).1 cs).heap[s0.heap.length]? =
      some { fileSize := 0, segments := [], done := false,
             promise := { value := none, retrieved := r } } := by
  apply emptyForever_run fileId s0.heap.length cs _
    (regInv_collectFile s0 fileId 0 (regInv_of_reachable s0 hs))
  rw [collectFile_unregistered _ _ _ hreg]
  exact ⟨by simp [regFind_regAssign], false, by simp [FileData.new]⟩

/-- C18, at a concrete input: a file of size 0, then a chunk, a `GetFile` and another chunk. -/
theorem zero_size_never_completes_witness :
    Reachable State.empty ∧ regFind State.empty.files 7 = none ∧
    (run (CollectFile State.empty 7 0).1
      [.onNewChunk 7 0 [1, 2], .getFile 7, .onNewChunk 7 5 []]).heap[0]? =
      some { fileSize := 0, segments := [], done := false,
             promise := { value := none, retrieved := true } } ∧
    regFind (run (CollectFile State.empty 7 0).1
      [.onNewChunk 7 0 [1, 2], .getFile 7, .onNewChunk 7 5 []]).files 7 = some 0 :=
  ⟨.init, rfl, by decide,
    (zero_size_never_completes State.empty 7
      [.onNewChunk 7 0 [1, 2], .getFile 7, .onNewChunk 7 5 []] .init rfl).1⟩

/-- C20 (Forward fusion terminates): the loop of lines 79-114 is a recursion on the entries
after the iterator, so it ends for every segment map and every chunk; its body is entered
at most once more than there are entries after the iterator; when it returns, the entries
it has erased are a prefix of them, one for every pass but the last; and the segments after
lines 42-114 are at most one more than before. -/
theorem forward_fusion_terminates (currStart currEnd : Nat) (curData : List Byte)
    (after segs : List Segment) (pos : Nat) (chunk : List Byte) :
    forwardIterations currStart currEnd curData after ≤ after.length + 1 ∧
    (∀ data' after', mergeForward currStart currEnd curData after = .ok (data', after') →
      ∃ eaten, after = eaten ++ after' ∧
        forwardIterations currStart currEnd curData after = eaten.length + 1) ∧
    (∀ segs', mergeSegments segs pos chunk = .ok segs' → segs'.length ≤ segs.length + 1) :=
  ⟨forwardIterations_le currStart after currEnd curData,
    fun data' after' h => mergeForward_erased currStart after currEnd curData data' after' h,
    fun segs' h => mergeSegments_length segs pos chunk segs' h⟩

/-- C20, at a concrete input: the chunk `[0, 6)` swallows the segments at 1 and 4 in two
passes and leaves the loop in the third, at the segment at 8. -/
theorem forward_fusion_terminates_witness :
    forwardIterations 0 6 [1, 2, 3, 4, 5, 6] [(1, [7]), (4, [8, 9, 9]), (8, [5])] = 3 ∧
    mergeForward 0 6 [1, 2, 3, 4, 5, 6] [(1, [7]), (4, [8, 9, 9]), (8, [5])] =
      .ok ([1, 2, 3, 4, 5, 6, 9], [(8, [5])]) ∧
    ∃ eaten, [(1, ([7] : List Byte)), (4, [8, 9, 9]), (8, [5])] = eaten ++ [(8, [5])] ∧
      forwardIterations 0 6 [1, 2, 3, 4, 5, 6] [(1, [7]), (4, [8, 9, 9]), (8, [5])] =
        eaten.length + 1 :=
  ⟨by decide, by decide,
    (forward_fusion_terminates 0 6 [1, 2, 3, 4, 5, 6] [(1, [7]), (4, [8, 9, 9]), (8, [5])]
      [] 0 []).2.1 [1, 2, 3, 4, 5, 6, 9] [(8, [5])] (by decide)⟩

/-- C15 (Coverage after merge), evaluated at two inputs. After `CollectFile(1, 5)` and
`[1, 2]` at 0, the chunk `[1, 2, 3]` at 0 is clamped to itself and dropped by `emplace`:
the segments after the merge are still `[(0, [1, 2])]`, and offset 2 of the chunk's range
is not covered. After `CollectFile(2, SIZE_MOD - 1)`, the chunk `[1, 2]` at `SIZE_MOD - 2` is
stored whole (`pos + chunk.size()` wraps), so offset `SIZE_MOD - 1` is covered, which is
neither covered before nor in the range of the chunk cut to the file size. -/
theorem coverage_not_union :
    (run State.empty [.collectFile 1 5, .onNewChunk 1 0 [1, 2]]).heap[0]? =
      some { fileSize := 5, segments := [(0, [1, 2])], done := false,
             promise := { value := none, retrieved := false } } ∧
    clampChunk 5 0 [1, 2, 3] = some [1, 2, 3] ∧
    mergeSegments [(0, [1, 2])] 0 [1, 2, 3] = .ok [(0, [1, 2])] ∧
    (0 ≤ 2 ∧ 2 < 0 + ([1, 2, 3] : List Byte).length) ∧
    ¬ covered [(0, ([1, 2] : List Byte))] 2 ∧
    (run State.empty [.collectFile 2 (SIZE_MOD - 1)]).heap[0]? =
      some (FileData.new (SIZE_MOD - 1)) ∧
    mergedSegments (FileData.new (SIZE_MOD - 1)) (SIZE_MOD - 2) [1, 2] =
      .ok [(SIZE_MOD - 2, [1, 2])] ∧
    covered [(SIZE_MOD - 2, ([1, 2] : List Byte))] (SIZE_MOD - 1) ∧
    ¬ covered (FileData.new (SIZE_MOD - 1)).segments (SIZE_MOD - 1) ∧
    ¬ (SIZE_MOD - 1 < SIZE_MOD - 2 +
      (([1, 2] : List Byte).take (SIZE_MOD - 1 - (SIZE_MOD - 2))).length) := by
  refine ⟨by decide, by decide, by decide, by decide, ?_, by decide, by decide, ?_, ?_,
    by decide⟩
  · simp [covered]
  · exact ⟨(SIZE_MOD - 2, [1, 2]), by simp, by decide, by decide⟩
  · simp [covered, FileData.new]

/-- C15 (Coverage after merge), where neither defect strikes: for a file registered in a state reached
by calls without wrapping chunks, and a call whose chunk does not wrap, is clamped to a
non-empty chunk and starts where no segment starts, the merge (lines 42-114) returns
segments that cover exactly the offsets covered before and the offsets of the clamped
chunk. -/
theorem merge_covers_union (s : State) (fileId addr : Nat) (fd : FileData) (pos : Nat)
    (chunk clamped : List Byte) (hs : ReachableInRange s)
    (hf : regFind s.files fileId = some addr) (hh : s.heap[addr]? = some fd)
    (hw : pos + chunk.length < SIZE_MOD)
    (hc : clampChunk fd.fileSize pos chunk = some clamped)
    (hnew : ∀ a ∈ fd.segments, a.1 ≠ pos) :
    fd.done = false ∧
    ∃ merged, mergedSegments fd pos chunk = .ok merged ∧
      mergeSegments fd.segments pos clamped = .ok merged ∧
      ∀ x, covered merged x ↔
        (covered fd.segments x ∨ (pos ≤ x ∧ x < pos + clamped.length)) := by
  obtain ⟨hr, hheap⟩ := reachableInRange_inv s hs
  obtain ⟨fd0, hh0, hd, _, _⟩ := (regInv_of_reachable s hr).1 fileId addr hf
  rw [hh] at hh0
  cases hh0
  obtain ⟨hlt, hget⟩ := List.getElem?_eq_some.mp hh
  have hfd : fd ∈ s.heap := hget ▸ List.getElem_mem hlt
  obtain ⟨hn, hseg⟩ := hheap fd hfd
  obtain ⟨_, c1, c2, _⟩ := clampChunk_spec _ _ _ _ hw hn hc
  obtain ⟨before, absorbed, after, cs, data, hsplit, hm, _, _, hcv, _⟩ :=
    mergeSegments_spec fd.fileSize fd.segments pos clamped hn hseg c1 c2 hnew
  refine ⟨hd, _, by simp only [mergedSegments, hc, hm], hm, ?_⟩
  intro x
  rw [covered_append, covered_cons, hsplit, covered_append, covered_append]
  have := hcv x
  simp only at this
  rw [this]
  tauto

/-- C15, at a concrete state: the segments `[0, 2)` and `[5, 6)` and the chunk `[9, 9, 9]`
at 1. -/
theorem merge_covers_union_witness :
    ReachableInRange (run State.empty
      [.collectFile 1 10, .onNewChunk 1 0 [1, 2], .onNewChunk 1 5 [3]]) ∧
    mergeSegments [(0, [1, 2]), (5, [3])] 1 [9, 9, 9] = .ok [(0, [1, 2, 9, 9]), (5, [3])] ∧
    ∃ merged, mergedSegments { fileSize := 10, segments := [(0, [1, 2]), (5, [3])],
                               done := false,
                               promise := { value := none, retrieved := false } } 1 [9, 9, 9] =
        .ok merged ∧
      mergeSegments [(0, [1, 2]), (5, [3])] 1 [9, 9, 9] = .ok merged ∧
      ∀ x, covered merged x ↔
        (covered [(0, ([1, 2] : List Byte)), (5, [3])] x ∨
          (1 ≤ x ∧ x < 1 + ([9, 9, 9] : List Byte).length)) :=
  have hr : ReachableInRange (run State.empty
      [.collectFile 1 10, .onNewChunk 1 0 [1, 2], .onNewChunk 1 5 [3]]) :=
    ReachableInRange.step _ (.onNewChunk 1 5 [3])
      (ReachableInRange.step _ (.onNewChunk 1 0 [1, 2])
        (ReachableInRange.step State.empty (.collectFile 1 10) .init (by decide) (by decide))
        (by decide) (by decide))
      (by decide) (by decide)
  ⟨hr, by decide,
    (merge_covers_union _ 1 0
      { fileSize := 10, segments := [(0, [1, 2]), (5, [3])], done := false,
        promise := { value := none, retrieved := false } }
      1 [9, 9, 9] [9, 9, 9] hr (by decide) (by decide) (by decide) (by decide)
      (by decide)).2⟩

/-- C16 (Same-offset chunk is discarded): for a file registered in a reachable state that
has a segment starting at offset `p`, `OnNewChunk(id, p, bytes)` returns normally and leaves
the whole state as it was (segments, done flag, result slot and registry), whatever the
bytes, also when the chunk reaches beyond the end of that segment. -/
theorem same_offset_chunk_discarded (s : State) (fileId addr : Nat) (fd : FileData)
    (p : Nat) (bytes : List Byte) (hs : Reachable s)
    (hf : regFind s.files fileId = some addr) (hh : s.heap[addr]? = some fd)
    (hkey : ∃ a ∈ fd.segments, a.1 = p) :
    OnNewChunk s fileId p bytes = (s, .ok ()) ∧ fd.done = false ∧
    ∀ clamped, clampChunk fd.fileSize p bytes = some clamped →
      mergeSegments fd.segments p clamped = .ok fd.segments := by
  obtain ⟨fd0, hh0, hd, hp, hw⟩ := (regInv_of_reachable s hs).1 fileId addr hf
  rw [hh] at hh0
  cases hh0
  obtain ⟨hlt, hget⟩ := List.getElem?_eq_some.mp hh
  have hfd : fd ∈ s.heap := hget ▸ List.getElem_mem hlt
  have hinv := heapCalc_of_reachable s hs fd hfd
  have hmerge : ∀ clamped, mergeSegments fd.segments p clamped = .ok fd.segments :=
    fun clamped => mergeSegments_same_key fd.segments p clamped hinv hkey
  refine ⟨?_, hd, fun clamped _ => hmerge clamped⟩
  rw [onNewChunk_eq s fileId addr fd p bytes hf hh hd hp]
  cases hc : clampChunk fd.fileSize p bytes with
  | none => rfl
  | some c =>
    simp only [hmerge c, hw, Bool.false_eq_true, if_false]
    rw [list_set_self _ _ _ hh]

/-- C16, at the example: after `CollectFile(1, 10)` and `"Hel"` at 0, the chunk
`"HelloWorld"` at 0 changes nothing: the only segment is still `[0, 3)` and the file is not
done. -/
theorem same_offset_chunk_discarded_witness :
    Reachable (run State.empty [.collectFile 1 10, .onNewChunk 1 0 [72, 101, 108]]) ∧
    OnNewChunk (run State.empty [.collectFile 1 10, .onNewChunk 1 0 [72, 101, 108]]) 1 0
        [72, 101, 108, 108, 111, 87, 111, 114, 108, 100] =
      (run State.empty [.collectFile 1 10, .onNewChunk 1 0 [72, 101, 108]], .ok ()) ∧
    run State.empty [.collectFile 1 10, .onNewChunk 1 0 [72, 101, 108]] =
      { files := [(1, 0)],
        heap := [{ fileSize := 10, segments := [(0, [72, 101, 108])], done := false,
                   promise := { value := none, retrieved := false } }] } :=
  have hr : Reachable (run State.empty [.collectFile 1 10, .onNewChunk 1 0 [72, 101, 108]]) :=
    Reachable.step _ (.onNewChunk 1 0 [72, 101, 108])
      (Reachable.step State.empty (.collectFile 1 10) .init (by decide) (by decide))
      (by decide) (by decide)
  ⟨hr,
    (same_offset_chunk_discarded _ 1 0
      { fileSize := 10, segments := [(0, [72, 101, 108])], done := false,
        promise := { value := none, retrieved := false } }
      0 [72, 101, 108, 108, 111, 87, 111, 114, 108, 100] hr (by decide) (by decide)
      ⟨(0, [72, 101, 108]), by decide, rfl⟩).1,
    by decide⟩

/-- C17 (Byte content of a merge), evaluated: with file size `SIZE_MOD - 1`, the
four-byte chunk `[1, 2, 3, 4]` at `SIZE_MOD - 4` is stored whole (`pos + chunk.size()` wraps
to 0). In that reachable state no segment starts at `SIZE_MOD - 3`, the chunk `[9]` there is
clamped to itself, and the merge stores it as a segment of its own next to the first: after
the merge the offset `SIZE_MOD - 3` holds both the byte 2 stored before and the byte 9 of the
chunk, which was not stored before. -/
theorem wrapped_segment_keeps_both_bytes :
    Reachable (run State.empty
      [.collectFile 1 (SIZE_MOD - 1), .onNewChunk 1 (SIZE_MOD - 4) [1, 2, 3, 4]]) ∧
    run State.empty [.collectFile 1 (SIZE_MOD - 1), .onNewChunk 1 (SIZE_MOD - 4) [1, 2, 3, 4]] =
      { files := [(1, 0)],
        heap := [{ fileSize := SIZE_MOD - 1, segments := [(SIZE_MOD - 4, [1, 2, 3, 4])],
                   done := false, promise := { value := none, retrieved := false } }] } ∧
    clampChunk (SIZE_MOD - 1) (SIZE_MOD - 3) [9] = some [9] ∧
    mergeSegments [(SIZE_MOD - 4, [1, 2, 3, 4])] (SIZE_MOD - 3) [9] =
      .ok [(SIZE_MOD - 4, [1, 2, 3, 4]), (SIZE_MOD - 3, [9])] ∧
    stored [(SIZE_MOD - 4, [1, 2, 3, 4]), (SIZE_MOD - 3, [9])] (SIZE_MOD - 3) 2 ∧
    stored [(SIZE_MOD - 4, [1, 2, 3, 4]), (SIZE_MOD - 3, [9])] (SIZE_MOD - 3) 9 ∧
    ¬ stored [(SIZE_MOD - 4, [1, 2, 3, 4])] (SIZE_MOD - 3) 9 := by
  refine ⟨?_, by decide, by decide, by decide, ?_, ?_, ?_⟩
  · exact Reachable.step _ (.onNewChunk 1 (SIZE_MOD - 4) [1, 2, 3, 4])
      (Reachable.step State.empty (.collectFile 1 (SIZE_MOD - 1)) .init (by decide) (by decide))
      (by decide) (by decide)
  · exact ⟨(SIZE_MOD - 4, [1, 2, 3, 4]), by simp, by decide⟩
  · exact ⟨(SIZE_MOD - 3, [9]), by simp, by decide⟩
  · rintro ⟨a, ha, h⟩
    simp only [List.mem_singleton] at ha
    subst ha
    revert h
    decide

/-- C17 (Byte content of a merge), where no sum has wrapped: for a file registered in a state
reached by calls without wrapping chunks, and a non-empty chunk `(pos, b)` that lies within
the file size and starts where no segment starts, the merge (lines 42-114) returns segments
in which an offset `x` of `[pos, pos + len(b))` holds the byte stored before if `x` lies
inside a segment that starts before `pos`, and `b[x - pos]` otherwise; every offset outside
`[pos, pos + len(b))` holds the byte it held before, if any. -/
theorem merge_byte_content (s : State) (fileId addr : Nat) (fd : FileData) (pos : Nat)
    (b : List Byte) (hs : ReachableInRange s)
    (hf : regFind s.files fileId = some addr) (hh : s.heap[addr]? = some fd)
    (hb : b ≠ []) (hp : pos + b.length ≤ fd.fileSize)
    (hnew : ∀ a ∈ fd.segments, a.1 ≠ pos) :
    fd.done = false ∧
    ∃ merged, mergedSegments fd pos b = .ok merged ∧
      mergeSegments fd.segments pos b = .ok merged ∧
      (∀ x v, pos ≤ x → x < pos + b.length →
        (∃ prev ∈ fd.segments, prev.1 < pos ∧ x < prev.1 + prev.2.length) →
        (stored merged x v ↔ stored fd.segments x v)) ∧
      (∀ x v, pos ≤ x → x < pos + b.length →
        (∀ prev ∈ fd.segments, prev.1 < pos → prev.1 + prev.2.length ≤ x) →
        (stored merged x v ↔ b[x - pos]? = some v)) ∧
      (∀ x v, (x < pos ∨ pos + b.length ≤ x) →
        (stored merged x v ↔ stored fd.segments x v)) := by
  obtain ⟨hr, hheap⟩ := reachableInRange_inv s hs
  obtain ⟨fd0, hh0, hd, _, _⟩ := (regInv_of_reachable s hr).1 fileId addr hf
  rw [hh] at hh0
  cases hh0
  obtain ⟨hlt, hget⟩ := List.getElem?_eq_some.mp hh
  have hfd : fd ∈ s.heap := hget ▸ List.getElem_mem hlt
  obtain ⟨hn, hseg⟩ := hheap fd hfd
  obtain ⟨P, A, merged, hsplit, hP, hA, hm, _, hby⟩ :=
    mergeSegments_bytes fd.fileSize fd.segments pos b hn hseg hb hp hnew
  have hgap : ∀ p ∈ P, ∀ a ∈ A, p.1 + p.2.length < a.1 := by
    have := hseg
    rw [hsplit, segInv_append] at this
    exact this.2.2
  have hclamp := clampChunk_within fd.fileSize pos b hn hb hp
  refine ⟨hd, merged, by simp only [mergedSegments, hclamp, hm], hm, ?_, ?_, ?_⟩
  · rintro x v hx1 hx2 ⟨prev, hprev, hlt1, hlt2⟩
    have hprevP : prev ∈ P := by
      rw [hsplit] at hprev
      rcases List.mem_append.mp hprev with h | h
      · exact h
      · have := hA prev h; omega
    rw [hby x v, hsplit, stored_append]
    constructor
    · rintro (h | ⟨h, _⟩ | ⟨h, _⟩)
      · exact Or.inl h
      · have := h prev hprevP; omega
      · omega
    · rintro (h | ⟨a, ha, hax⟩)
      · exact Or.inl h
      · have := hgap prev hprevP a ha
        have := (byteAt_range _ _ _ hax).1
        omega
  · intro x v hx1 hx2 hno
    rw [hby x v]
    have hbyte : byteAt (pos, b) x = b[x - pos]? := by
      unfold byteAt
      rw [if_pos hx1]
    rw [hbyte]
    constructor
    · rintro (⟨a, ha, hax⟩ | ⟨_, h⟩ | ⟨h, _⟩)
      · have := hno a (by rw [hsplit]; exact List.mem_append_left _ ha) (hP a ha)
        have := (byteAt_range _ _ _ hax).2
        omega
      · exact h
      · omega
    · intro h
      exact Or.inr (Or.inl ⟨fun p hp' =>
        hno p (by rw [hsplit]; exact List.mem_append_left _ hp') (hP p hp'), h⟩)
  · intro x v hout
    rw [hby x v, hsplit, stored_append]
    have hnone : ¬ byteAt (pos, b) x = some v := fun h => by
      have := byteAt_range _ _ _ h
      simp only at this
      omega
    constructor
    · rintro (h | ⟨_, h⟩ | ⟨_, h⟩)
      · exact Or.inl h
      · exact absurd h hnone
      · exact Or.inr h
    · rintro (h | ⟨a, ha, hax⟩)
      · exact Or.inl h
      · rcases hout with hout | hout
        · have := hA a ha
          have := (byteAt_range _ _ _ hax).1
          omega
        · exact Or.inr (Or.inr ⟨hout, a, ha, hax⟩)

/-- C17, at a chunk that overlaps the segment before it and the segment after it: with the
segments `[(0, [1, 2, 3]), (5, [6, 7])]` in a file of 10 bytes, the chunk `[20, 21, 22, 23]`
at 2 gives the one segment `[1, 2, 3, 21, 22, 23, 7]` at 0. -/
theorem merge_byte_content_witness :
    ReachableInRange (run State.empty
      [.collectFile 1 10, .onNewChunk 1 0 [1, 2, 3], .onNewChunk 1 5 [6, 7]]) ∧
    mergeSegments [(0, [1, 2, 3]), (5, [6, 7])] 2 [20, 21, 22, 23] =
      .ok [(0, [1, 2, 3, 21, 22, 23, 7])] ∧
    ∃ merged, mergedSegments (FileData.mk 10 [(0, [1, 2, 3]), (5, [6, 7])] false
        (Promise.mk none false)) 2 [20, 21, 22, 23] = .ok merged ∧
      (∀ x v, 2 ≤ x → x < 2 + ([20, 21, 22, 23] : List Byte).length →
        (∀ prev ∈ [(0, ([1, 2, 3] : List Byte)), (5, [6, 7])], prev.1 < 2 →
          prev.1 + prev.2.length ≤ x) →
        (stored merged x v ↔ ([20, 21, 22, 23] : List Byte)[x - 2]? = some v)) :=
  have hr : ReachableInRange (run State.empty
      [.collectFile 1 10, .onNewChunk 1 0 [1, 2, 3], .onNewChunk 1 5 [6, 7]]) :=
    ReachableInRange.step _ (.onNewChunk 1 5 [6, 7])
      (ReachableInRange.step _ (.onNewChunk 1 0 [1, 2, 3])
        (ReachableInRange.step State.empty (.collectFile 1 10) .init (by decide) (by decide))
        (by decide) (by decide))
      (by decide) (by decide)
  have h := merge_byte_content _ 1 0
    (FileData.mk 10 [(0, [1, 2, 3]), (5, [6, 7])] false (Promise.mk none false))
    2 [20, 21, 22, 23] hr (by decide) (by decide) (by decide) (by decide) (by decide)
  ⟨hr, by decide, h.2.imp (fun _ hm => ⟨hm.1, hm.2.2.2.1⟩)⟩

/-- C13 (Lock released before signalling): in every configuration the threads can get to,
and for every thread `t`:
a thread that runs lines 26-124 of `OnNewChunk` or is about to call `lock.unlock()` owns
the per-file mutex; a thread that is about to call `promise.set_value` (line 127) owns no
mutex at all; a thread that is about to lock `globalMutex` at line 129 owns no per-file
mutex; a thread at line 130 owns `globalMutex` and no per-file mutex, can take its next
step, and that step erases the id and releases `globalMutex`; a thread that waits for a
mutex in `GetFile` (lines 138 and 146) owns none.
The step of line 126 can be taken, releases the per-file mutex, leaves the data (the
result slot too) as they are and takes the thread to line 127. At line 127 the result slot
is empty, the step can be taken, writes `completeFile` to the slot and takes the thread to
line 129. Whatever step of `t` changes a result slot is that step of line 127, taken while
`t` owns no mutex: the slot is written only after the per-file mutex has been released.
At line 129 the step can be taken when `globalMutex` is free, and whoever owns
`globalMutex` can take a step that releases it. -/
theorem lock_released_before_signalling (scripts : List (List Call)) (c : Config)
    (hc : CReachable scripts c) (t : Nat) (th : Thread) (ht : c.threads[t]? = some th) :
    (∀ id addr pos chunk, th.pc = .oncBody id addr pos chunk → c.mtx addr = some t) ∧
    (∀ id addr v, th.pc = .oncUnlock id addr v → c.mtx addr = some t) ∧
    (∀ id addr v, th.pc = .oncSetValue id addr v →
      c.globalMutex ≠ some t ∧ ∀ a, c.mtx a ≠ some t) ∧
    (∀ id addr, th.pc = .oncGLock id addr →
      c.globalMutex ≠ some t ∧ ∀ a, c.mtx a ≠ some t) ∧
    (∀ id addr, th.pc = .oncErase id addr →
      c.globalMutex = some t ∧ (∀ a, c.mtx a ≠ some t) ∧
      ∃ c', stepThread c t = some c' ∧ c'.globalMutex = none ∧
        c'.threads[t]? = some { th with pc := .idle } ∧
        c'.st.files = regErase c.st.files id) ∧
    (∀ id, th.pc = .gfStart id → c.globalMutex ≠ some t ∧ ∀ a, c.mtx a ≠ some t) ∧
    (∀ id addr, th.pc = .gfLock id addr →
      c.globalMutex ≠ some t ∧ ∀ a, c.mtx a ≠ some t) ∧
    (∀ id addr v, th.pc = .oncUnlock id addr v →
      ∃ c', stepThread c t = some c' ∧ c'.mtx addr = none ∧ c'.st = c.st ∧
        c'.threads[t]? = some { th with pc := .oncSetValue id addr v }) ∧
    (∀ id addr v, th.pc = .oncSetValue id addr v →
      slotAt c.st addr = none ∧
      ∃ c', stepThread c t = some c' ∧ slotAt c'.st addr = some v ∧
        c'.globalMutex = c.globalMutex ∧ (∀ a, c'.mtx a = c.mtx a) ∧
        c'.threads[t]? = some { th with pc := .oncGLock id addr }) ∧
    (∀ c' a, stepThread c t = some c' → slotAt c'.st a ≠ slotAt c.st a →
      (∃ id v, th.pc = .oncSetValue id a v ∧ slotAt c.st a = none ∧
        slotAt c'.st a = some v) ∧
      c.globalMutex ≠ some t ∧ ∀ a', c.mtx a' ≠ some t) ∧
    (∀ id addr, th.pc = .oncGLock id addr → c.globalMutex = none →
      ∃ c', stepThread c t = some c' ∧ c'.globalMutex = some t ∧
        c'.threads[t]? = some { th with pc := .oncErase id addr }) ∧
    (c.globalMutex = some t → ∃ c', stepThread c t = some c' ∧ c'.globalMutex = none) := by
  obtain ⟨hG, hM⟩ := lockInv_of_creachable scripts c hc
  have hinv := cinv_of_creachable scripts c hc
  have htl : t < c.threads.length := (List.getElem?_eq_some.mp ht).1
  have hnoG : th.pc.holdsGlobal = false → c.globalMutex ≠ some t := by
    intro hpc h
    obtain ⟨x, hx, hx'⟩ := (hG t).mp h
    rw [ht] at hx
    cases hx
    rw [hpc] at hx'
    cases hx'
  have hnoM : th.pc.holdsMtx = none → ∀ a, c.mtx a ≠ some t := by
    intro hpc a h
    obtain ⟨x, hx, hx'⟩ := (hM a t).mp h
    rw [ht] at hx
    cases hx
    rw [hpc] at hx'
    cases hx'
  refine ⟨?_, ?_, ?_, ?_, ?_, ?_, ?_, ?_, ?_, ?_, ?_, ?_⟩
  · intro id addr pos chunk hpc
    exact (hM addr t).mpr ⟨th, ht, by rw [hpc]; rfl⟩
  · intro id addr v hpc
    exact (hM addr t).mpr ⟨th, ht, by rw [hpc]; rfl⟩
  · intro id addr v hpc
    exact ⟨hnoG (by rw [hpc]; rfl), hnoM (by rw [hpc]; rfl)⟩
  · intro id addr hpc
    exact ⟨hnoG (by rw [hpc]; rfl), hnoM (by rw [hpc]; rfl)⟩
  · intro id addr hpc
    refine ⟨(hG t).mpr ⟨th, ht, by rw [hpc]; rfl⟩, hnoM (by rw [hpc]; rfl), ?_⟩
    unfold stepThread
    rw [ht]
    simp only [hpc]
    exact ⟨_, rfl, rfl, by simp only [List.getElem?_set_self htl], rfl⟩
  · intro id hpc
    exact ⟨hnoG (by rw [hpc]; rfl), hnoM (by rw [hpc]; rfl)⟩
  · intro id addr hpc
    exact ⟨hnoG (by rw [hpc]; rfl), hnoM (by rw [hpc]; rfl)⟩
  · intro id addr v hpc
    unfold stepThread
    rw [ht]
    simp only [hpc]
    exact ⟨_, rfl, by simp [setOwner], rfl, by simp only [List.getElem?_set_self htl]⟩
  · intro id addr v hpc
    obtain ⟨_, w2, w3⟩ := hinv.writer t th id addr ht (by rw [hpc]; rfl)
    cases hh : c.st.heap[addr]? with
    | none =>
      unfold doneAt at w2
      rw [hh] at w2
      cases w2
    | some fd =>
      rw [slotFull_eq c.st addr fd hh] at w3
      have hval : fd.promise.value = none := by
        cases hv : fd.promise.value with
        | none => rfl
        | some x => rw [hv] at w3; cases w3
      have hsv : fd.promise.set_value v = .ok { fd.promise with value := some v } := by
        unfold Promise.set_value
        rw [hval]
      refine ⟨by rw [slotAt_eq c.st addr fd hh]; exact hval, ?_⟩
      unfold stepThread
      rw [ht]
      simp only [hpc, hh, hsv]
      refine ⟨_, rfl, ?_, rfl, fun _ => rfl, by simp only [List.getElem?_set_self htl]⟩
      rw [slotAt_set c.st addr addr fd _ hh, if_pos rfl]
  · intro c' a hstep hne
    obtain ⟨id, v, hpc, h0, h1⟩ := slot_step c t c' th hstep ht a hne
    exact ⟨⟨id, v, hpc, h0, h1⟩, hnoG (by rw [hpc]; rfl), hnoM (by rw [hpc]; rfl)⟩
  · intro id addr hpc hfree
    unfold stepThread
    rw [ht]
    simp only [hpc, hfree, if_true]
    exact ⟨_, rfl, rfl, by simp only [List.getElem?_set_self htl]⟩
  · intro hg
    obtain ⟨x, hx, hx'⟩ := (hG t).mp hg
    rw [ht] at hx
    cases hx
    exact global_owner_steps c t th ht hx'

/-- C13, at a run: one thread calls `CollectFile(1, 2)` and `OnNewChunk(1, 0, [7, 8])`, and
another is to call `GetFile(1)`. After eight steps of the first it is about to call
`lock.unlock()`: it owns the per-file mutex and the result slot is empty. After nine steps
it is about to call `set_value` with the whole file and owns neither `globalMutex` nor any
per-file mutex; the result slot is still empty, and its next step writes `[7, 8]` to it. -/
theorem lock_released_before_signalling_witness :
    ((runSched (Config.init [[.collectFile 1 2, .onNewChunk 1 0 [7, 8]], [.getFile 1]])
      [0, 0, 0, 0, 0, 0, 0, 0]).threads[0]? =
        some { pc := .oncUnlock 1 0 [7, 8], todo := [] } ∧
    (runSched (Config.init [[.collectFile 1 2, .onNewChunk 1 0 [7, 8]], [.getFile 1]])
      [0, 0, 0, 0, 0, 0, 0, 0]).mtx 0 = some 0 ∧
    slotAt (runSched (Config.init [[.collectFile 1 2, .onNewChunk 1 0 [7, 8]], [.getFile 1]])
      [0, 0, 0, 0, 0, 0, 0, 0]).st 0 = none) ∧
    ((runSched (Config.init [[.collectFile 1 2, .onNewChunk 1 0 [7, 8]], [.getFile 1]])
      [0, 0, 0, 0, 0, 0, 0, 0, 0]).threads[0]? =
        some { pc := .oncSetValue 1 0 [7, 8], todo := [] } ∧
    (runSched (Config.init [[.collectFile 1 2, .onNewChunk 1 0 [7, 8]], [.getFile 1]])
      [0, 0, 0, 0, 0, 0, 0, 0, 0]).mtx 0 = none) ∧
    ((runSched (Config.init [[.collectFile 1 2, .onNewChunk 1 0 [7, 8]], [.getFile 1]])
      [0, 0, 0, 0, 0, 0, 0, 0, 0]).globalMutex ≠ some 0 ∧
    ∀ a, (runSched (Config.init [[.collectFile 1 2, .onNewChunk 1 0 [7, 8]], [.getFile 1]])
      [0, 0, 0, 0, 0, 0, 0, 0, 0]).mtx a ≠ some 0) ∧
    (slotAt (runSched (Config.init [[.collectFile 1 2, .onNewChunk 1 0 [7, 8]], [.getFile 1]])
      [0, 0, 0, 0, 0, 0, 0, 0, 0]).st 0 = none ∧
    slotAt (runSched (Config.init [[.collectFile 1 2, .onNewChunk 1 0 [7, 8]], [.getFile 1]])
      [0, 0, 0, 0, 0, 0, 0, 0, 0, 0]).st 0 = some [7, 8]) :=
  have h := lock_released_before_signalling
    [[.collectFile 1 2, .onNewChunk 1 0 [7, 8]], [.getFile 1]]
    _ (creachable_runSched _ _ [0, 0, 0, 0, 0, 0, 0, 0, 0] CReachable.init) 0
    { pc := .oncSetValue 1 0 [7, 8], todo := [] } (by decide)
  ⟨⟨by decide, by decide, by decide⟩, ⟨by decide, by decide⟩, h.2.2.1 1 0 [7, 8] rfl,
    (h.2.2.2.2.2.2.2.2.1 1 0 [7, 8] rfl).1, by decide⟩

/-- C14 (Atomic completion), refuted as stated. One thread calls `CollectFile(1, 2)` and
`OnNewChunk(1, 0, [7, 8])`, a second `OnNewChunk(1, 0, [9])`, a third `GetFile(1)`. The
second looks the file up before the first completes it, and takes the per-file mutex after
the first has released it at line 126: it runs line 26 on a `FileData` with `done = true`
whose result slot is empty, and returns. After the first has written the slot (line 127)
and before it erases the id, the third finds the id registered. -/
theorem completion_not_atomic :
    CReachable [[.collectFile 1 2, .onNewChunk 1 0 [7, 8]], [.onNewChunk 1 0 [9]], [.getFile 1]]
      (runSched
        (Config.init
          [[.collectFile 1 2, .onNewChunk 1 0 [7, 8]], [.onNewChunk 1 0 [9]], [.getFile 1]])
        [0, 0, 0, 1, 1, 1, 0, 0, 0, 0, 0, 0, 1]) ∧
    (runSched
        (Config.init
          [[.collectFile 1 2, .onNewChunk 1 0 [7, 8]], [.onNewChunk 1 0 [9]], [.getFile 1]])
        [0, 0, 0, 1, 1, 1, 0, 0, 0, 0, 0, 0, 1]).st =
      { files := [(1, 0)],
        heap := [{ fileSize := 2, segments := [], done := true,
                   promise := { value := none, retrieved := false } }] } ∧
    (runSched
        (Config.init
          [[.collectFile 1 2, .onNewChunk 1 0 [7, 8]], [.onNewChunk 1 0 [9]], [.getFile 1]])
        [0, 0, 0, 1, 1, 1, 0, 0, 0, 0, 0, 0, 1]).threads =
      [{ pc := .oncSetValue 1 0 [7, 8], todo := [] }, { pc := .oncBody 1 0 0 [9], todo := [] },
       { pc := .idle, todo := [.getFile 1] }] ∧
    (runSched
        (Config.init
          [[.collectFile 1 2, .onNewChunk 1 0 [7, 8]], [.onNewChunk 1 0 [9]], [.getFile 1]])
        [0, 0, 0, 1, 1, 1, 0, 0, 0, 0, 0, 0, 1]).mtx 0 = some 1 ∧
    (runSched
        (Config.init
          [[.collectFile 1 2, .onNewChunk 1 0 [7, 8]], [.onNewChunk 1 0 [9]], [.getFile 1]])
        [0, 0, 0, 1, 1, 1, 0, 0, 0, 0, 0, 0, 1, 1]).threads[1]? =
      some { pc := .idle, todo := [] } ∧
    CReachable [[.collectFile 1 2, .onNewChunk 1 0 [7, 8]], [.onNewChunk 1 0 [9]], [.getFile 1]]
      (runSched
        (Config.init
          [[.collectFile 1 2, .onNewChunk 1 0 [7, 8]], [.onNewChunk 1 0 [9]], [.getFile 1]])
        [0, 0, 0, 1, 1, 1, 0, 0, 0, 0, 0, 0, 1, 1, 0, 2, 2, 2]) ∧
    (runSched
        (Config.init
          [[.collectFile 1 2, .onNewChunk 1 0 [7, 8]], [.onNewChunk 1 0 [9]], [.getFile 1]])
        [0, 0, 0, 1, 1, 1, 0, 0, 0, 0, 0, 0, 1, 1, 0, 2, 2, 2]).st =
      { files := [(1, 0)],
        heap := [{ fileSize := 2, segments := [], done := true,
                   promise := { value := some [7, 8], retrieved := false } }] } ∧
    (runSched
        (Config.init
          [[.collectFile 1 2, .onNewChunk 1 0 [7, 8]], [.onNewChunk 1 0 [9]], [.getFile 1]])
        [0, 0, 0, 1, 1, 1, 0, 0, 0, 0, 0, 0, 1, 1, 0, 2, 2, 2]).threads =
      [{ pc := .oncGLock 1 0, todo := [] }, { pc := .idle, todo := [] },
       { pc := .gfLock 1 0, todo := [] }] :=
  ⟨creachable_runSched _ _ _ CReachable.init, by decide, by decide, by decide, by decide,
    creachable_runSched _ _ _ CReachable.init, by decide, by decide⟩

/-- C14 (Atomic completion), as the code has it: in every configuration the threads can get
to, a result slot that is written belongs to a `FileData` with `done = true`; a `FileData`
with `done = true` and an empty slot has a thread between line 121 and line 127 of the
`OnNewChunk` that completed it; an id registered for a `FileData` with `done = true` has a
thread between line 121 and line 130 of that `OnNewChunk`, which is between line 127 and
line 130 when the slot is written; and there is at most one thread between line 121 and
line 130 for a `FileData`. -/
theorem completion_in_order (scripts : List (List Call)) (c : Config)
    (hc : CReachable scripts c) :
    (∀ (a : Nat) (fd : FileData), c.st.heap[a]? = some fd → fd.promise.value ≠ none →
      fd.done = true) ∧
    (∀ (a : Nat) (fd : FileData), c.st.heap[a]? = some fd → fd.done = true →
      fd.promise.value = none →
      ∃ (t : Nat) (th : Thread) (id : Nat) (v : List Byte), c.threads[t]? = some th ∧
        (th.pc = .oncUnlock id a v ∨ th.pc = .oncSetValue id a v)) ∧
    (∀ (id a : Nat) (fd : FileData), regFind c.st.files id = some a →
      c.st.heap[a]? = some fd → fd.done = true →
      ∃ (t : Nat) (th : Thread), c.threads[t]? = some th ∧
        ((∃ v, th.pc = .oncUnlock id a v ∨ th.pc = .oncSetValue id a v) ∨
          th.pc = .oncGLock id a ∨ th.pc = .oncErase id a)) ∧
    (∀ (id a : Nat) (fd : FileData), regFind c.st.files id = some a →
      c.st.heap[a]? = some fd → fd.promise.value ≠ none →
      ∃ (t : Nat) (th : Thread), c.threads[t]? = some th ∧
        (th.pc = .oncGLock id a ∨ th.pc = .oncErase id a)) ∧
    (∀ (t u : Nat) (th tu : Thread) (id id' a : Nat), c.threads[t]? = some th →
      c.threads[u]? = some tu →
      (th.pc.role = .writer id a ∨ th.pc.role = .eraser id a) →
      (tu.pc.role = .writer id' a ∨ tu.pc.role = .eraser id' a) → t = u) := by
  have hinv := cinv_of_creachable scripts c hc
  have hslot : ∀ (a : Nat) (fd : FileData), c.st.heap[a]? = some fd →
      fd.promise.value ≠ none → slotFull c.st a = true := by
    intro a fd hh hv
    rw [slotFull_eq c.st a fd hh]
    cases hx : fd.promise.value with
    | none => exact absurd hx hv
    | some x => rfl
  refine ⟨?_, ?_, ?_, ?_, hinv.unique⟩
  · intro a fd hh hv
    have := hinv.slotDone a (hslot a fd hh hv)
    rw [doneAt_eq c.st a fd hh] at this
    exact this
  · intro a fd hh hd hv
    obtain ⟨t, th, id, h1, h2⟩ := hinv.pending a (by rw [doneAt_eq c.st a fd hh]; exact hd)
      (by rw [slotFull_eq c.st a fd hh, hv]; rfl)
    obtain ⟨v, h3⟩ := role_writer th.pc id a h2
    exact ⟨t, th, id, v, h1, h3⟩
  · intro id a fd hf hh hd
    obtain ⟨t, th, h1, h2⟩ := hinv.inFlight id a hf (by rw [doneAt_eq c.st a fd hh]; exact hd)
    refine ⟨t, th, h1, ?_⟩
    rcases h2 with h2 | h2
    · exact Or.inl (role_writer th.pc id a h2)
    · exact Or.inr (role_eraser th.pc id a h2)
  · intro id a fd hf hh hv
    have hs := hslot a fd hh hv
    obtain ⟨t, th, h1, h2⟩ := hinv.inFlight id a hf (hinv.slotDone a hs)
    refine ⟨t, th, h1, ?_⟩
    rcases h2 with h2 | h2
    · have := (hinv.writer t th id a h1 h2).2.2
      rw [hs] at this
      cases this
    · exact role_eraser th.pc id a h2

/-- C14, at the run of three threads in which the first has written the result slot and not
yet erased the id: the first is about to lock `globalMutex` at line 129. -/
theorem completion_in_order_witness :
    ∃ (t : Nat) (th : Thread),
      (runSched
        (Config.init
          [[.collectFile 1 2, .onNewChunk 1 0 [7, 8]], [.onNewChunk 1 0 [9]], [.getFile 1]])
        [0, 0, 0, 1, 1, 1, 0, 0, 0, 0, 0, 0, 1, 1, 0]).threads[t]? = some th ∧
      (th.pc = .oncGLock 1 0 ∨ th.pc = .oncErase 1 0) :=
  (completion_in_order
    [[.collectFile 1 2, .onNewChunk 1 0 [7, 8]], [.onNewChunk 1 0 [9]], [.getFile 1]] _
    (creachable_runSched _ _ [0, 0, 0, 1, 1, 1, 0, 0, 0, 0, 0, 0, 1, 1, 0]
      CReachable.init)).2.2.2.1 1 0
    { fileSize := 2, segments := [], done := true,
      promise := { value := some [7, 8], retrieved := false } }
    (by decide) (by decide) (by decide)

end FileCollector
